import Mathlib

/-!
Verification of the Emergency Network engine (Q5_GUI_Emergency_Network).

The graph model (`EmergencyGraph`) is a shallow embedding of
`graph/graph_model.py`: the Python insertion-ordered dict becomes an
association list, Python sets become lists used up to membership
(`sadd` inserts only when absent, `sdiscard` filters), node identifiers
are modelled as naturals and edge weights as integers.
-/

/-- Lookup in an insertion-ordered association list (Python `d[k]` / `d.get(k)`). -/
def dget? {α : Type} : List (Nat × α) → Nat → Option α
  | [], _ => none
  | (k, v) :: rest, key => if k = key then some v else dget? rest key

/-- Update the value of an existing key in place, or append a new binding
(Python `d[k] = v` on an insertion-ordered dict). -/
def dset {α : Type} : List (Nat × α) → Nat → α → List (Nat × α)
  | [], key, val => [(key, val)]
  | (k, v) :: rest, key, val =>
    if k = key then (k, val) :: rest else (k, v) :: dset rest key val

/-- Delete a key (Python `del d[k]`; keys are unique in a dict). -/
def ddel {α : Type} (d : List (Nat × α)) (key : Nat) : List (Nat × α) :=
  d.filter (fun e => e.1 ≠ key)

/-- Python `set.add`: insert only when absent. -/
def sadd {α : Type} [DecidableEq α] (s : List α) (x : α) : List α :=
  if x ∈ s then s else s ++ [x]

/-- Python `set.discard`: remove the element if present. -/
def sdiscard {α : Type} [DecidableEq α] (s : List α) (x : α) : List α :=
  s.filter (fun y => y ≠ x)

/-- State of `EmergencyGraph` (graph_model.py): adjacency dict, vulnerable
edge set, disabled node set. -/
structure EmergencyGraph where
  graph : List (Nat × List (Nat × Int))
  vulnerable_edges : List (Nat × Nat)
  disabled_nodes : List Nat
deriving DecidableEq, Repr

/-- The empty network (`EmergencyGraph.__init__`). -/
def egEmpty : EmergencyGraph := ⟨[], [], []⟩

/-- `EmergencyGraph.add_city`. -/
def add_city (g : EmergencyGraph) (city : Nat) : EmergencyGraph :=
  if (dget? g.graph city).isSome then g
  else { g with graph := g.graph ++ [(city, [])] }

/-- One step of `remove_city`'s neighbour cleanup:
`self.graph[neighbor] = [(n, w) for (n, w) in self.graph[neighbor] if n != city]`. -/
def removeFromNeighbor (gr : List (Nat × List (Nat × Int))) (city neighbor : Nat) :
    List (Nat × List (Nat × Int)) :=
  match dget? gr neighbor with
  | some lst => dset gr neighbor (lst.filter (fun nw => nw.1 ≠ city))
  | none => gr
  -- the `none` branch is unreachable on closed graphs (every neighbour is a
  -- key); there Python would raise KeyError

/-- `EmergencyGraph.remove_city`. -/
def remove_city (g : EmergencyGraph) (city : Nat) : EmergencyGraph :=
  match dget? g.graph city with
  | none => g
  | some nbrs =>
    let gr := nbrs.foldl (fun acc nw => removeFromNeighbor acc city nw.1) g.graph
    { graph := ddel gr city,
      vulnerable_edges := g.vulnerable_edges,
      disabled_nodes := sdiscard g.disabled_nodes city }

/-- `EmergencyGraph.disable_city`. -/
def disable_city (g : EmergencyGraph) (city : Nat) : EmergencyGraph :=
  if (dget? g.graph city).isSome then
    { g with disabled_nodes := sadd g.disabled_nodes city }
  else g

/-- `EmergencyGraph.enable_city`. -/
def enable_city (g : EmergencyGraph) (city : Nat) : EmergencyGraph :=
  { g with disabled_nodes := sdiscard g.disabled_nodes city }

/-- `EmergencyGraph.add_road`. -/
def add_road (g : EmergencyGraph) (city1 city2 : Nat) (weight : Int) : EmergencyGraph :=
  let g1 := add_city (add_city g city1) city2
  let gr1 := dset g1.graph city1 (((dget? g1.graph city1).getD []) ++ [(city2, weight)])
  let gr2 := dset gr1 city2 (((dget? gr1 city2).getD []) ++ [(city1, weight)])
  { g1 with graph := gr2 }

/-- `EmergencyGraph.remove_road`. -/
def remove_road (g : EmergencyGraph) (city1 city2 : Nat) : EmergencyGraph :=
  if (dget? g.graph city1).isSome ∧ (dget? g.graph city2).isSome then
    let gr1 := dset g.graph city1
      (((dget? g.graph city1).getD []).filter (fun nw => nw.1 ≠ city2))
    let gr2 := dset gr1 city2
      (((dget? gr1 city2).getD []).filter (fun nw => nw.1 ≠ city1))
    { graph := gr2,
      vulnerable_edges := sdiscard (sdiscard g.vulnerable_edges (city1, city2)) (city2, city1),
      disabled_nodes := g.disabled_nodes }
  else g

/-- `EmergencyGraph.mark_vulnerable_road`. -/
def mark_vulnerable_road (g : EmergencyGraph) (city1 city2 : Nat) : EmergencyGraph :=
  if (dget? g.graph city1).isSome ∧ (dget? g.graph city2).isSome then
    { g with
      vulnerable_edges := sadd (sadd g.vulnerable_edges (city1, city2)) (city2, city1) }
  else g

/-- `EmergencyGraph.is_road_vulnerable`. -/
def is_road_vulnerable (g : EmergencyGraph) (city1 city2 : Nat) : Bool :=
  decide ((city1, city2) ∈ g.vulnerable_edges ∨ (city2, city1) ∈ g.vulnerable_edges)

/-- `EmergencyGraph.get_all_cities`. -/
def get_all_cities (g : EmergencyGraph) : List Nat :=
  g.graph.map (fun e => e.1)

/-- Inner loop of `get_all_edges` over one adjacency list; the state is the
`(edges, seen)` pair of the Python function. -/
def gaeInner (city : Nat) :
    List (Nat × Int) → List (Nat × Nat × Int) × List (Nat × Nat) →
    List (Nat × Nat × Int) × List (Nat × Nat)
  | [], st => st
  | nw :: rest, st =>
    if (nw.1, city) ∈ st.2 then gaeInner city rest st
    else gaeInner city rest (st.1 ++ [(city, nw.1, nw.2)], st.2 ++ [(city, nw.1)])

/-- Outer loop of `get_all_edges` over the adjacency dict. -/
def gaeOuter :
    List (Nat × List (Nat × Int)) → List (Nat × Nat × Int) × List (Nat × Nat) →
    List (Nat × Nat × Int) × List (Nat × Nat)
  | [], st => st
  | e :: rest, st => gaeOuter rest (gaeInner e.1 e.2 st)

/-- `EmergencyGraph.get_all_edges`. -/
def get_all_edges (g : EmergencyGraph) : List (Nat × Nat × Int) :=
  (gaeOuter g.graph ([], [])).1

/-- `EmergencyGraph.get_active_neighbors`. -/
def get_active_neighbors (g : EmergencyGraph) (city : Nat) : List (Nat × Int) :=
  if city ∈ g.disabled_nodes then []
  else ((dget? g.graph city).getD []).filter
    (fun nw => decide (nw.1 ∉ g.disabled_nodes ∧ (city, nw.1) ∉ g.vulnerable_edges))

/-! Basic frame lemmas for the mutation operations. -/

theorem add_city_vuln (g : EmergencyGraph) (c : Nat) :
    (add_city g c).vulnerable_edges = g.vulnerable_edges := by
  unfold add_city; split <;> rfl

theorem add_city_disabled (g : EmergencyGraph) (c : Nat) :
    (add_city g c).disabled_nodes = g.disabled_nodes := by
  unfold add_city; split <;> rfl

theorem add_road_vuln (g : EmergencyGraph) (c1 c2 : Nat) (w : Int) :
    (add_road g c1 c2 w).vulnerable_edges = g.vulnerable_edges := by
  unfold add_road
  simp [add_city_vuln]

theorem add_road_disabled (g : EmergencyGraph) (c1 c2 : Nat) (w : Int) :
    (add_road g c1 c2 w).disabled_nodes = g.disabled_nodes := by
  unfold add_road
  simp [add_city_disabled]

theorem remove_city_vuln (g : EmergencyGraph) (c : Nat) :
    (remove_city g c).vulnerable_edges = g.vulnerable_edges := by
  unfold remove_city
  cases dget? g.graph c <;> rfl

theorem sdiscard_of_not_mem {α : Type} [DecidableEq α] {s : List α} {x : α}
    (h : x ∉ s) : sdiscard s x = s := by
  unfold sdiscard
  refine List.filter_eq_self.mpr ?_
  intro a ha
  simp only [decide_eq_true_eq]
  exact fun hax => h (hax ▸ ha)

theorem sdiscard_append {α : Type} [DecidableEq α] (s t : List α) (x : α) :
    sdiscard (s ++ t) x = sdiscard s x ++ sdiscard t x := by
  unfold sdiscard
  exact List.filter_append s t

theorem sdiscard_sadd {α : Type} [DecidableEq α] {s : List α} {x : α}
    (h : x ∉ s) : sdiscard (sadd s x) x = s := by
  unfold sadd
  rw [if_neg h, sdiscard_append, sdiscard_of_not_mem h]
  have h2 : sdiscard [x] x = [] := by simp [sdiscard]
  rw [h2, List.append_nil]

/-- C10 — removing a city never touches the vulnerable-edge set, and after
re-adding a road between the same endpoints the old vulnerability mark is
still reported. -/
theorem c10_remove_city_keeps_vulnerable (g : EmergencyGraph) (a : Nat) :
    (remove_city g a).vulnerable_edges = g.vulnerable_edges ∧
    (∀ b w, (a, b) ∈ g.vulnerable_edges →
      is_road_vulnerable (add_road (remove_city g a) a b w) a b = true) := by
  refine ⟨remove_city_vuln g a, ?_⟩
  intro b w hv
  unfold is_road_vulnerable
  rw [add_road_vuln, remove_city_vuln]
  simp only [decide_eq_true_eq]
  exact Or.inl hv

/-- Witness for C10: a concretely marked road stays vulnerable across
remove and re-add. -/
theorem c10_remove_city_keeps_vulnerable_witness :
    (0, 1) ∈ (mark_vulnerable_road (add_road egEmpty 0 1 2) 0 1).vulnerable_edges ∧
    is_road_vulnerable
      (add_road (remove_city (mark_vulnerable_road (add_road egEmpty 0 1 2) 0 1) 0) 0 1 5)
      0 1 = true :=
  ⟨by decide,
   (c10_remove_city_keeps_vulnerable (mark_vulnerable_road (add_road egEmpty 0 1 2) 0 1) 0).2
     1 5 (by decide)⟩

/-- C7 as stated is false: when `x` is already disabled, `disable(x)` then
`enable(x)` re-enables it, changing `get_active_neighbors` of its neighbour. -/
theorem c7_counterexample :
    ¬ (get_active_neighbors
        (enable_city (disable_city (disable_city (add_road egEmpty 0 1 1) 0) 0) 0) 1 =
       get_active_neighbors (disable_city (add_road egEmpty 0 1 1) 0) 1) := by
  decide

theorem enable_disable_of_not_disabled {g : EmergencyGraph} {x : Nat}
    (h : x ∉ g.disabled_nodes) : enable_city (disable_city g x) x = g := by
  cases g with
  | mk gr vuln dis =>
    unfold disable_city enable_city
    split
    · show EmergencyGraph.mk gr vuln (sdiscard (sadd dis x) x) = EmergencyGraph.mk gr vuln dis
      rw [sdiscard_sadd h]
    · show EmergencyGraph.mk gr vuln (sdiscard dis x) = EmergencyGraph.mk gr vuln dis
      rw [sdiscard_of_not_mem h]

/-- C7 amended — `enable(x)` after `disable(x)` restores `active_neighbors`
for all nodes provided `x` was not already disabled before the call. -/
theorem c7_enable_after_disable_restores (g : EmergencyGraph) (x : Nat)
    (h : x ∉ g.disabled_nodes) (y : Nat) :
    get_active_neighbors (enable_city (disable_city g x) x) y =
    get_active_neighbors g y := by
  rw [enable_disable_of_not_disabled h]

/-- Witness for C7 amended at a concrete graph. -/
theorem c7_enable_after_disable_restores_witness :
    0 ∉ (add_road egEmpty 0 1 1).disabled_nodes ∧
    get_active_neighbors (enable_city (disable_city (add_road egEmpty 0 1 1) 0) 0) 1 =
      get_active_neighbors (add_road egEmpty 0 1 1) 1 :=
  ⟨by decide, c7_enable_after_disable_restores (add_road egEmpty 0 1 1) 0 (by decide) 1⟩

/-- No pair of entries of an edge list reports the same undirected edge in
both directions (the §8 property for `all_edges()`). -/
def both_directions_free (es : List (Nat × Nat × Int)) : Bool :=
  es.all (fun e1 => es.all (fun e2 =>
    ! decide (e1.1 = e2.2.1 ∧ e1.2.1 = e2.1 ∧ e1.1 ≠ e1.2.1)))

/-- Invariant carried by the `(edges, seen)` state of `get_all_edges`:
every emitted edge's direction is in `seen`, and `seen` never holds both
directions of an edge with distinct endpoints. -/
def GaeInv (st : List (Nat × Nat × Int) × List (Nat × Nat)) : Prop :=
  (∀ e ∈ st.1, (e.1, e.2.1) ∈ st.2) ∧
  (∀ u v : Nat, u ≠ v → (u, v) ∈ st.2 → (v, u) ∈ st.2 → False)

theorem gaeInner_inv (city : Nat) (l : List (Nat × Int))
    (st : List (Nat × Nat × Int) × List (Nat × Nat)) (h : GaeInv st) :
    GaeInv (gaeInner city l st) := by
  induction l generalizing st with
  | nil => exact h
  | cons nw rest ih =>
    unfold gaeInner
    split
    · exact ih st h
    · rename_i hseen
      refine ih _ ⟨?_, ?_⟩
      · intro e he
        rcases List.mem_append.mp he with h1 | h1
        · exact List.mem_append_left _ (h.1 e h1)
        · simp only [List.mem_singleton] at h1
          subst h1
          exact List.mem_append_right _ (by simp)
      · intro u v huv hu hv
        rcases List.mem_append.mp hu with hu1 | hu1 <;>
          rcases List.mem_append.mp hv with hv1 | hv1
        · exact h.2 u v huv hu1 hv1
        · simp only [List.mem_singleton, Prod.mk.injEq] at hv1
          exact hseen (hv1.1 ▸ hv1.2 ▸ hu1)
        · simp only [List.mem_singleton, Prod.mk.injEq] at hu1
          exact hseen (hu1.1 ▸ hu1.2 ▸ hv1)
        · simp only [List.mem_singleton, Prod.mk.injEq] at hu1 hv1
          exact huv (hu1.1.trans hv1.1.symm)

theorem gaeOuter_inv (d : List (Nat × List (Nat × Int)))
    (st : List (Nat × Nat × Int) × List (Nat × Nat)) (h : GaeInv st) :
    GaeInv (gaeOuter d st) := by
  induction d generalizing st with
  | nil => exact h
  | cons e rest ih => exact ih _ (gaeInner_inv e.1 e.2 st h)

/-- C8 — `get_all_edges` never reports an undirected edge in both
directions: there are no two entries `(u,v,w1)` and `(v,u,w2)` with `u ≠ v`. -/
theorem c8_get_all_edges_both_directions_free (g : EmergencyGraph) :
    both_directions_free (get_all_edges g) = true := by
  have hinv : GaeInv (gaeOuter g.graph ([], [])) :=
    gaeOuter_inv g.graph ([], []) ⟨by simp, by simp⟩
  unfold both_directions_free get_all_edges
  rw [List.all_eq_true]
  intro e1 he1
  rw [List.all_eq_true]
  intro e2 he2
  simp only [Bool.not_eq_true', decide_eq_false_iff_not]
  rintro ⟨h1, h2, h3⟩
  have m1 := hinv.1 e1 he1
  have m2 := hinv.1 e2 he2
  rw [← h1, ← h2] at m2
  exact hinv.2 e1.1 e1.2.1 h3 m1 m2

/-!
Shallow embedding of `graph/paths.py`. Distances use `WithTop Int` for the
`float('inf')` sentinel. Python dict lookups that can raise KeyError are
modelled with `Except Unit`; lookups the algorithms only perform on keys
known to be present use `.getD` defaults (unreachable on those code paths).
-/

/-- Distance values: integers extended with the `float('inf')` sentinel. -/
abbrev WDist := WithTop Int

/-- The greedy selection loop of `dijkstra_shortest_path`: scan the unvisited
nodes, keeping the first strict improvement (`distances[city] < min_dist`). -/
def selectMin (dist : List (Nat × WDist)) :
    List Nat → Option Nat × WDist → Option Nat × WDist
  | [], acc => acc
  | c :: rest, acc =>
    if (dget? dist c).getD ⊤ < acc.2 then selectMin dist rest (some c, (dget? dist c).getD ⊤)
    else selectMin dist rest acc

/-- The edge-relaxation loop of `dijkstra_shortest_path` over the active
neighbours of `current`; `U` is the unvisited set after removing `current`. -/
def relaxList (current : Nat) (U : List Nat) :
    List (Nat × Int) → List (Nat × WDist) → List (Nat × Option Nat) →
    List (Nat × WDist) × List (Nat × Option Nat)
  | [], dist, prev => (dist, prev)
  | nw :: rest, dist, prev =>
    if nw.1 ∈ U then
      if (dget? dist current).getD ⊤ + (nw.2 : WDist) < (dget? dist nw.1).getD ⊤ then
        relaxList current U rest (dset dist nw.1 ((dget? dist current).getD ⊤ + (nw.2 : WDist)))
          (dset prev nw.1 (some current))
      else relaxList current U rest dist prev
    else relaxList current U rest dist prev

/-- The main `while unvisited:` loop of `dijkstra_shortest_path`. The
Python loop terminates because each non-breaking iteration removes the
selected node from `unvisited`; here the same measure is supplied as
explicit fuel (the caller passes `|unvisited| + 1`, which is never
exhausted). -/
def dijkstraLoop (g : EmergencyGraph) (endv : Nat) :
    Nat → List Nat → List (Nat × WDist) → List (Nat × Option Nat) →
    List (Nat × WDist) × List (Nat × Option Nat)
  | 0, _, dist, prev => (dist, prev)
  | fuel + 1, U, dist, prev =>
    if U = [] then (dist, prev)
    else
      match (selectMin dist U (none, ⊤)).1 with
      | none => (dist, prev)
      | some current =>
        if (dget? dist current).getD ⊤ = ⊤ then (dist, prev)
        else if current = endv then (dist, prev)
        else
          let U' := U.erase current
          let dp := relaxList current U' (get_active_neighbors g current) dist prev
          dijkstraLoop g endv fuel U' dp.1 dp.2

/-- Path reconstruction by backtracking `previous` pointers
(`while current is not None`). A missing key is Python's KeyError; the fuel
bounds the chain length (the pointers form a tree towards the start, so the
chain never cycles and the fuel is never exhausted on reachable calls). -/
def reconstructPath (prev : List (Nat × Option Nat)) :
    Nat → Nat → List Nat → Except Unit (List Nat)
  | 0, _, _ => Except.error ()
  | fuel + 1, current, acc =>
    match dget? prev current with
    | none => Except.error ()
    | some none => Except.ok (current :: acc)
    | some (some nxt) => reconstructPath prev fuel nxt (current :: acc)

/-- `dijkstra_shortest_path` (paths.py). Returns `.error ()` exactly where
Python raises KeyError. -/
def dijkstra_shortest_path (g : EmergencyGraph) (start endv : Nat) :
    Except Unit (Option (List Nat) × WDist) :=
  let cities := get_all_cities g
  let dist0 := cities.foldl (fun d c => dset d c ⊤) []
  let prev0 := cities.foldl (fun p c => dset p c (none : Option Nat)) []
  let dist1 := dset dist0 start 0
  let dp := dijkstraLoop g endv (cities.length + 1) cities dist1 prev0
  match dget? dp.1 endv with
  | none => Except.error ()
  | some d =>
    if d = ⊤ then Except.ok (none, ⊤)
    else
      match reconstructPath dp.2 (dp.2.length + 1) endv [] with
      | Except.error _ => Except.error ()
      | Except.ok p => Except.ok (some p, d)

/-- One dequeue step's neighbour scan in `bfs_shortest_path`: the state is
`(visited, queue-tail, parent)`. -/
def bfsScan (current : Nat) :
    List (Nat × Int) → List Nat × List Nat × List (Nat × Option Nat) →
    List Nat × List Nat × List (Nat × Option Nat)
  | [], st => st
  | nw :: rest, st =>
    if nw.1 ∈ st.1 then bfsScan current rest st
    else bfsScan current rest
      (st.1 ++ [nw.1], st.2.1 ++ [nw.1], dset st.2.2 nw.1 (some current))

/-- The `while queue:` loop of `bfs_shortest_path`. The fuel dominates the
number of dequeues (every enqueued node is freshly visited, so the loop
terminates); on exhaustion the no-path sentinel is returned. -/
def bfsLoop (g : EmergencyGraph) (endv : Nat) :
    Nat → List Nat → List Nat → List (Nat × Option Nat) → Option (List Nat) × WDist
  | 0, _, _, _ => (none, ⊤)
  | fuel + 1, queue, visited, parent =>
    match queue with
    | [] => (none, ⊤)
    | current :: rest =>
      if current = endv then
        match reconstructPath parent (parent.length + 1) endv [] with
        | Except.ok p => (some p, ((p.length : Int) - 1 : Int))
        | Except.error _ => (none, ⊤)
        -- the error branch is unreachable: every key on the parent chain was
        -- inserted when first visited
      else
        let st := bfsScan current (get_active_neighbors g current) (visited, rest, parent)
        bfsLoop g endv fuel st.2.1 st.1 st.2.2

/-- `bfs_shortest_path` (paths.py). -/
def bfs_shortest_path (g : EmergencyGraph) (start endv : Nat) :
    Option (List Nat) × WDist :=
  bfsLoop g endv (g.graph.length + 2) [start] [start] [(start, none)]

/-! Association-list lemmas. -/

theorem dget?_dset {α : Type} (d : List (Nat × α)) (k : Nat) (v : α) (x : Nat) :
    dget? (dset d k v) x = if k = x then some v else dget? d x := by
  induction d with
  | nil =>
    unfold dset dget?
    rfl
  | cons e rest ih =>
    unfold dset
    by_cases hek : e.1 = k
    · rw [if_pos hek]
      unfold dget?
      by_cases hex : e.1 = x
      · rw [if_pos hex, if_pos (hek ▸ hex : k = x)]
      · have hkx : ¬ (k = x) := fun h => hex (hek.trans h)
        rw [if_neg hex, if_neg hkx, if_neg hex]
    · rw [if_neg hek]
      unfold dget?
      by_cases hex : e.1 = x
      · have hkx : ¬ (k = x) := fun h => hek (hex ▸ h ▸ rfl)
        rw [if_pos hex, if_neg hkx, if_pos hex]
      · rw [if_neg hex, ih, if_neg hex]

theorem dget?_mem {α : Type} {d : List (Nat × α)} {x : Nat} {v : α}
    (h : dget? d x = some v) : (x, v) ∈ d := by
  induction d with
  | nil => exact absurd h (by simp [dget?])
  | cons e rest ih =>
    unfold dget? at h
    by_cases hex : e.1 = x
    · rw [if_pos hex] at h
      have hv : e.2 = v := Option.some.inj h
      have he : e = (x, v) := by rw [← hex, ← hv]
      rw [← he]
      exact List.mem_cons_self e rest
    · rw [if_neg hex] at h
      exact List.mem_cons_of_mem _ (ih h)

theorem dget?_eq_none {α : Type} {d : List (Nat × α)} {x : Nat}
    (h : x ∉ d.map (fun e => e.1)) : dget? d x = none := by
  induction d with
  | nil => rfl
  | cons e rest ih =>
    unfold dget?
    rw [List.map_cons, List.mem_cons] at h
    push_neg at h
    rw [if_neg (fun he => h.1 he.symm)]
    exact ih h.2

theorem dget?_foldl_dset_const {α : Type} (v : α) (l : List Nat) (init : List (Nat × α))
    (x : Nat) :
    dget? (l.foldl (fun d c => dset d c v) init) x =
      if x ∈ l then some v else dget? init x := by
  induction l generalizing init with
  | nil => simp
  | cons c rest ih =>
    rw [List.foldl_cons, ih]
    by_cases hr : x ∈ rest
    · rw [if_pos hr, if_pos (List.mem_cons_of_mem c hr)]
    · rw [if_neg hr, dget?_dset]
      by_cases hc : c = x
      · rw [if_pos hc, if_pos (hc ▸ List.mem_cons_self c rest)]
      · rw [if_neg hc, if_neg (by
          intro hmem
          rcases List.mem_cons.mp hmem with h1 | h1
          · exact hc h1.symm
          · exact hr h1)]

theorem selectMin_all_top {dist : List (Nat × WDist)} {l : List Nat}
    (h : ∀ c ∈ l, (dget? dist c).getD ⊤ = (⊤ : WDist)) (acc : Option Nat × WDist) :
    selectMin dist l acc = acc := by
  induction l generalizing acc with
  | nil => rfl
  | cons c rest ih =>
    unfold selectMin
    rw [h c (List.mem_cons_self c rest)]
    rw [if_neg (not_top_lt)]
    exact ih (fun c' hc' => h c' (List.mem_cons_of_mem c hc')) acc

theorem relaxList_stable {current : Nat} {U : List Nat} {x : Nat} (hx : x ∉ U) :
    ∀ (l : List (Nat × Int)) (dist : List (Nat × WDist)) (prev : List (Nat × Option Nat)),
      dget? (relaxList current U l dist prev).1 x = dget? dist x ∧
      dget? (relaxList current U l dist prev).2 x = dget? prev x := by
  intro l
  induction l with
  | nil => intro dist prev; exact ⟨rfl, rfl⟩
  | cons nw rest ih =>
    intro dist prev
    unfold relaxList
    by_cases hmem : nw.1 ∈ U
    · rw [if_pos hmem]
      by_cases himp :
          (dget? dist current).getD ⊤ + (nw.2 : WDist) < (dget? dist nw.1).getD ⊤
      · rw [if_pos himp]
        have hne : ¬ (nw.1 = x) := fun h => hx (h ▸ hmem)
        refine ⟨?_, ?_⟩
        · rw [(ih _ _).1, dget?_dset, if_neg hne]
        · rw [(ih _ _).2, dget?_dset, if_neg hne]
      · rw [if_neg himp]; exact ih dist prev
    · rw [if_neg hmem]; exact ih dist prev

theorem dijkstraLoop_stable (g : EmergencyGraph) (e : Nat) :
    ∀ (fuel : Nat) (U : List Nat) (dist : List (Nat × WDist))
      (prev : List (Nat × Option Nat)), ∀ x, x ∉ U →
      dget? (dijkstraLoop g e fuel U dist prev).1 x = dget? dist x ∧
      dget? (dijkstraLoop g e fuel U dist prev).2 x = dget? prev x := by
  intro fuel
  induction fuel with
  | zero =>
    intro U dist prev x hx
    exact ⟨rfl, rfl⟩
  | succ n ih =>
    intro U dist prev x hx
    rw [dijkstraLoop]
    by_cases hU : U = []
    · rw [if_pos hU]
      exact ⟨rfl, rfl⟩
    · rw [if_neg hU]
      cases hsel : (selectMin dist U (none, ⊤)).1 with
      | none => exact ⟨rfl, rfl⟩
      | some current =>
        dsimp only
        by_cases hinf : (dget? dist current).getD ⊤ = (⊤ : WDist)
        · rw [if_pos hinf]
          exact ⟨rfl, rfl⟩
        · rw [if_neg hinf]
          by_cases hce : current = e
          · rw [if_pos hce]
            exact ⟨rfl, rfl⟩
          · rw [if_neg hce]
            have hxU' : x ∉ U.erase current :=
              fun hmem => hx (List.mem_of_mem_erase hmem)
            have hst := @relaxList_stable current (U.erase current) x
              hxU' (get_active_neighbors g current) dist prev
            have hrec := ih (U.erase current)
              (relaxList current (U.erase current) (get_active_neighbors g current) dist prev).1
              (relaxList current (U.erase current) (get_active_neighbors g current) dist prev).2
              x hxU'
            exact ⟨hrec.1.trans hst.1, hrec.2.trans hst.2⟩

/-- Well-formedness of reachable graphs: every neighbour mentioned in an
adjacency list is itself a key of the adjacency dict. Holds for every graph
built through the public mutation operations. -/
def ClosedGraph (g : EmergencyGraph) : Prop :=
  ∀ e ∈ g.graph, ∀ nw ∈ e.2, nw.1 ∈ get_all_cities g

instance instDecidableClosedGraph (g : EmergencyGraph) : Decidable (ClosedGraph g) := by
  unfold ClosedGraph
  infer_instance

theorem active_neighbors_mem_cities {g : EmergencyGraph} (hg : ClosedGraph g)
    (c : Nat) : ∀ nw ∈ get_active_neighbors g c, nw.1 ∈ get_all_cities g := by
  intro nw hnw
  unfold get_active_neighbors at hnw
  split at hnw
  · exact absurd hnw (List.not_mem_nil _)
  · have hmem := (List.mem_filter.mp hnw).1
    cases hd : dget? g.graph c with
    | none =>
      rw [hd] at hmem
      exact absurd hmem (List.not_mem_nil _)
    | some nbrs =>
      rw [hd] at hmem
      exact hg (c, nbrs) (dget?_mem hd) nw hmem

theorem active_neighbors_of_absent {g : EmergencyGraph} {c : Nat}
    (hc : c ∉ get_all_cities g) : get_active_neighbors g c = [] := by
  unfold get_active_neighbors
  split
  · rfl
  · rw [dget?_eq_none hc]
    rfl

theorem reconstructPath_none {prev : List (Nat × Option Nat)} {cur : Nat}
    {acc : List Nat} (fu : Nat) (h : dget? prev cur = none) :
    reconstructPath prev (fu + 1) cur acc = Except.error () := by
  unfold reconstructPath
  rw [h]

theorem dijkstraLoop_of_selectMin_none (g : EmergencyGraph) (e : Nat)
    (fuel : Nat) (U : List Nat) (dist : List (Nat × WDist))
    (prev : List (Nat × Option Nat))
    (hsel : (selectMin dist U (none, ⊤)).1 = none) :
    dijkstraLoop g e fuel U dist prev = (dist, prev) := by
  cases fuel with
  | zero => rfl
  | succ n =>
    rw [dijkstraLoop]
    by_cases hU : U = []
    · rw [if_pos hU]
    · rw [if_neg hU, hsel]

theorem bfsScan_queue_sub (current : Nat) :
    ∀ (l : List (Nat × Int)) (st : List Nat × List Nat × List (Nat × Option Nat))
      (q : Nat), q ∈ (bfsScan current l st).2.1 →
      q ∈ st.2.1 ∨ ∃ nw ∈ l, q = nw.1 := by
  intro l
  induction l with
  | nil =>
    intro st q hq
    exact Or.inl hq
  | cons nw rest ih =>
    intro st q hq
    unfold bfsScan at hq
    by_cases hv : nw.1 ∈ st.1
    · rw [if_pos hv] at hq
      rcases ih st q hq with h | ⟨nw', hnw', he⟩
      · exact Or.inl h
      · exact Or.inr ⟨nw', List.mem_cons_of_mem _ hnw', he⟩
    · rw [if_neg hv] at hq
      rcases ih _ q hq with h | ⟨nw', hnw', he⟩
      · rcases List.mem_append.mp h with h1 | h1
        · exact Or.inl h1
        · simp only [List.mem_singleton] at h1
          exact Or.inr ⟨nw, List.mem_cons_self _ _, h1⟩
      · exact Or.inr ⟨nw', List.mem_cons_of_mem _ hnw', he⟩

theorem bfsLoop_no_end (g : EmergencyGraph) (e : Nat) (hg : ClosedGraph g)
    (he : e ∉ get_all_cities g) :
    ∀ (fuel : Nat) (queue visited : List Nat) (parent : List (Nat × Option Nat)),
      (∀ q ∈ queue, q ≠ e) →
      bfsLoop g e fuel queue visited parent = (none, ⊤) := by
  intro fuel
  induction fuel with
  | zero =>
    intro queue visited parent _
    rfl
  | succ n ih =>
    intro queue visited parent hq
    cases queue with
    | nil => rfl
    | cons current rest =>
      unfold bfsLoop
      dsimp only
      rw [if_neg (hq current (List.mem_cons_self _ _))]
      apply ih
      intro q hqmem
      rcases bfsScan_queue_sub current (get_active_neighbors g current)
          (visited, rest, parent) q hqmem with h | ⟨nw, hnw, he'⟩
      · exact hq q (List.mem_cons_of_mem _ h)
      · subst he'
        intro hcontra
        exact he (hcontra ▸ active_neighbors_mem_cities hg current nw hnw)

theorem dijkstra_missing_start (g : EmergencyGraph) (s e : Nat)
    (hs : s ∉ get_all_cities g) (he : e ∈ get_all_cities g) :
    dijkstra_shortest_path g s e = Except.ok (none, ⊤) := by
  unfold dijkstra_shortest_path
  dsimp only
  have hall : ∀ c ∈ get_all_cities g,
      (dget? (dset ((get_all_cities g).foldl (fun d c => dset d c (⊤ : WDist)) []) s 0) c).getD ⊤
        = (⊤ : WDist) := by
    intro c hc
    have hcs : ¬ (s = c) := fun h => hs (h ▸ hc)
    rw [dget?_dset, if_neg hcs, dget?_foldl_dset_const, if_pos hc]
    rfl
  have hloop := dijkstraLoop_of_selectMin_none g e ((get_all_cities g).length + 1)
    (get_all_cities g)
    (dset ((get_all_cities g).foldl (fun d c => dset d c (⊤ : WDist)) []) s 0)
    ((get_all_cities g).foldl (fun p c => dset p c (none : Option Nat)) [])
    (by rw [selectMin_all_top hall (none, ⊤)])
  rw [hloop]
  have hes : ¬ (s = e) := fun h => hs (h ▸ he)
  have he' : dget? (dset ((get_all_cities g).foldl (fun d c => dset d c (⊤ : WDist)) []) s 0) e
      = some ⊤ := by
    rw [dget?_dset, if_neg hes, dget?_foldl_dset_const, if_pos he]
  rw [he']
  dsimp only
  rw [if_pos rfl]

theorem dijkstra_missing_end (g : EmergencyGraph) (s e : Nat)
    (he : e ∉ get_all_cities g) :
    dijkstra_shortest_path g s e = Except.error () := by
  unfold dijkstra_shortest_path
  dsimp only
  have hstab := dijkstraLoop_stable g e ((get_all_cities g).length + 1) (get_all_cities g)
    (dset ((get_all_cities g).foldl (fun d c => dset d c (⊤ : WDist)) []) s 0)
    ((get_all_cities g).foldl (fun p c => dset p c (none : Option Nat)) [])
    e he
  by_cases hse : s = e
  · subst hse
    have hd : dget? (dset ((get_all_cities g).foldl (fun d c => dset d c (⊤ : WDist)) []) s 0) s
        = some 0 := by rw [dget?_dset, if_pos rfl]
    rw [hstab.1, hd]
    dsimp only
    rw [if_neg (by simp : ¬ ((0 : WDist) = ⊤))]
    have hp : dget? (dijkstraLoop g s ((get_all_cities g).length + 1) (get_all_cities g)
        (dset ((get_all_cities g).foldl (fun d c => dset d c (⊤ : WDist)) []) s 0)
        ((get_all_cities g).foldl (fun p c => dset p c (none : Option Nat)) [])).2 s = none := by
      rw [hstab.2, dget?_foldl_dset_const, if_neg he]
      rfl
    rw [reconstructPath_none _ hp]
  · have hd1 : dget? (dset ((get_all_cities g).foldl (fun d c => dset d c (⊤ : WDist)) []) s 0) e
        = none := by
      rw [dget?_dset, if_neg hse, dget?_foldl_dset_const, if_neg he]
      rfl
    rw [hstab.1, hd1]

theorem bfs_missing_sentinel (g : EmergencyGraph) (s e : Nat) (hg : ClosedGraph g)
    (hne : s ≠ e) (h : s ∉ get_all_cities g ∨ e ∉ get_all_cities g) :
    bfs_shortest_path g s e = (none, ⊤) := by
  by_cases he : e ∈ get_all_cities g
  · have hs : s ∉ get_all_cities g := h.resolve_right (fun hc => hc he)
    show bfsLoop g e (g.graph.length + 1 + 1) [s] [s] [(s, none)] = (none, ⊤)
    unfold bfsLoop
    dsimp only
    rw [if_neg hne, active_neighbors_of_absent hs]
    show bfsLoop g e (g.graph.length + 1) [] [s] [(s, none)] = (none, ⊤)
    unfold bfsLoop
    rfl
  · exact bfsLoop_no_end g e hg he _ [s] [s] [(s, none)]
      (by intro q hq; rw [List.mem_singleton] at hq; exact hq ▸ hne)

theorem bfs_self (g : EmergencyGraph) (s : Nat) :
    bfs_shortest_path g s s = (some [s], (0 : WDist)) := by
  show bfsLoop g s (g.graph.length + 1 + 1) [s] [s] [(s, none)] = _
  unfold bfsLoop
  dsimp only
  rw [if_pos rfl]
  have hrec : reconstructPath [(s, (none : Option Nat))] ([(s, (none : Option Nat))].length + 1)
      s [] = Except.ok [s] := by
    unfold reconstructPath
    rw [show dget? [(s, (none : Option Nat))] s = some none from by simp [dget?]]
  rw [hrec]
  dsimp only
  norm_num

/-- C3 fails as stated: with `1` not a node, `dijkstra_shortest_path`
raises KeyError (modelled as `Except.error`) instead of returning the
sentinel, and with start = end = 5 absent from the graph
`bfs_shortest_path` returns `([5], 0)` rather than the sentinel. -/
theorem c3_counterexample :
    dijkstra_shortest_path (add_city egEmpty 0) 0 1 = Except.error () ∧
    bfs_shortest_path egEmpty 5 5 = (some [5], (0 : WDist)) ∧
    1 ∉ get_all_cities (add_city egEmpty 0) ∧ 5 ∉ get_all_cities egEmpty := by
  refine ⟨rfl, by decide, by decide, by decide⟩

/-- C3 amended — behaviour of the path queries on node ids absent from the
graph: dijkstra returns the `(None, inf)` sentinel when the start is missing
but the end is a node, raises KeyError whenever the end is missing; BFS
never raises, returns the sentinel whenever start ≠ end and either endpoint
is missing, but returns `([start], 0)` when start = end even for an unknown
id. -/
theorem c3_missing_node_behavior (g : EmergencyGraph) (s e : Nat) :
    (s ∉ get_all_cities g → e ∈ get_all_cities g →
      dijkstra_shortest_path g s e = Except.ok (none, ⊤)) ∧
    (e ∉ get_all_cities g → dijkstra_shortest_path g s e = Except.error ()) ∧
    (ClosedGraph g → s ≠ e → s ∉ get_all_cities g ∨ e ∉ get_all_cities g →
      bfs_shortest_path g s e = (none, ⊤)) ∧
    bfs_shortest_path g s s = (some [s], (0 : WDist)) :=
  ⟨dijkstra_missing_start g s e,
   dijkstra_missing_end g s e,
   bfs_missing_sentinel g s e,
   bfs_self g s⟩

/-- Witness for C3 amended at concrete graphs. -/
theorem c3_missing_node_behavior_witness :
    dijkstra_shortest_path (add_city egEmpty 0) 3 0 = Except.ok (none, ⊤) ∧
    dijkstra_shortest_path (add_city egEmpty 0) 0 1 = Except.error () ∧
    bfs_shortest_path (add_road egEmpty 0 1 1) 0 7 = (none, ⊤) ∧
    bfs_shortest_path egEmpty 5 5 = (some [5], (0 : WDist)) :=
  ⟨(c3_missing_node_behavior (add_city egEmpty 0) 3 0).1 (by decide) (by decide),
   (c3_missing_node_behavior (add_city egEmpty 0) 0 1).2.1 (by decide),
   (c3_missing_node_behavior (add_road egEmpty 0 1 1) 0 7).2.2.1
     (by decide) (by decide) (Or.inr (by decide)),
   (c3_missing_node_behavior egEmpty 5 5).2.2.2⟩

/-!
Embedding of `graph/failure.py` and the helper `get_affected_nodes` from
`graph/paths.py`. Stateful Python methods become functions returning the
analysis record together with the post-call graph state. The Python float
`connectivity_loss` percentage is modelled exactly as a rational.
-/

/-- The inner `while queue:` component-collection loop of
`get_affected_nodes`; state is `(queue, visited, component)`. The fuel
dominates the dequeue count (each enqueued node is freshly visited). -/
def gaBFS (g : EmergencyGraph) :
    Nat → List Nat → List Nat → List Nat → List Nat × List Nat
  | 0, _, visited, component => (visited, component)
  | fuel + 1, queue, visited, component =>
    match queue with
    | [] => (visited, component)
    | current :: rest =>
      let st := (get_active_neighbors g current).foldl
        (fun (st : List Nat × List Nat × List Nat) nw =>
          if nw.1 ∈ st.2.1 then st
          else (st.1 ++ [nw.1], st.2.1 ++ [nw.1], st.2.2 ++ [nw.1]))
        (rest, visited, component)
      gaBFS g fuel st.1 st.2.1 st.2.2

/-- The outer `for city in get_all_cities():` loop of `get_affected_nodes`. -/
def gaOuter (g : EmergencyGraph) :
    List Nat → List Nat → List (List Nat) → List Nat × List (List Nat)
  | [], visited, components => (visited, components)
  | city :: rest, visited, components =>
    if city ∉ visited ∧ city ∉ g.disabled_nodes then
      let vc := gaBFS g (g.graph.length + 1) [city] (sadd visited city) [city]
      gaOuter g rest vc.1 (components ++ [vc.2])
    else gaOuter g rest visited components

/-- Python `max(components, key=len)`: first component of maximal length. -/
def maxByLen : List (List Nat) → List Nat → List Nat
  | [], best => best
  | c :: rest, best => maxByLen rest (if c.length > best.length then c else best)

/-- `get_affected_nodes` (paths.py): temporarily disables the node, collects
active connected components, re-enables it, and reports all nodes outside
the largest component. Returns the affected set with the post-call graph. -/
def get_affected_nodes (g : EmergencyGraph) (disabled_node : Nat) :
    List Nat × EmergencyGraph :=
  let g1 := disable_city g disabled_node
  let vc := gaOuter g1 (get_all_cities g1) [] []
  let g2 := enable_city g1 disabled_node
  let components := vc.2
  if components.length > 1 then
    match components with
    | [] => ([], g2)
    | c :: rest =>
      let largest := maxByLen rest c
      (components.foldl
        (fun acc comp => if comp ≠ largest then comp.foldl sadd acc else acc) [], g2)
  else ([], g2)

/-- Whether a dijkstra result is Python's `path is None` (the KeyError case
cannot arise for endpoints drawn from the city list). -/
def pathIsNone (r : Except Unit (Option (List Nat) × WDist)) : Bool :=
  match r with
  | Except.ok (none, _) => true
  | _ => false

/-- The all-pairs connectivity scan of `analyze_node_failure`: returns
`(total_pairs, lost_connections, isolated_nodes)`. -/
def pairScan (g : EmergencyGraph) (fn : Nat) : Nat × Nat × List Nat :=
  (get_all_cities g).foldl
    (fun st start =>
      if start = fn ∨ start ∈ g.disabled_nodes then st
      else
        (get_all_cities g).foldl
          (fun st2 endv =>
            if endv = fn ∨ endv ∈ g.disabled_nodes ∨ endv = start then st2
            else
              let st3 := (st2.1 + 1, st2.2.1, st2.2.2)
              if pathIsNone (dijkstra_shortest_path g start endv) then
                (st3.1, st3.2.1 + 1, sadd st3.2.2 endv)
              else st3)
          st)
    (0, 0, [])

/-- The analysis record of `FailureAnalyzer.analyze_node_failure` (the
fields the engine computes; `path_increases`/`critical_edges` stay empty in
the source and are omitted). -/
structure NodeFailureAnalysis where
  failed_node : Nat
  affected_nodes : List Nat
  isolated_nodes : List Nat
  connectivity_loss : ℚ
deriving DecidableEq, Repr

/-- `FailureAnalyzer.analyze_node_failure`: returns the analysis together
with the post-call graph state. -/
def analyze_node_failure (g : EmergencyGraph) (failed_node : Nat) :
    NodeFailureAnalysis × EmergencyGraph :=
  let ga := get_affected_nodes g failed_node
  let g2 := disable_city ga.2 failed_node
  let scan := pairScan g2 failed_node
  let loss : ℚ := if scan.1 > 0 then ((scan.2.1 : ℚ) / (scan.1 : ℚ)) * 100 else 0
  let g3 := enable_city g2 failed_node
  ({ failed_node := failed_node, affected_nodes := ga.1,
     isolated_nodes := scan.2.2, connectivity_loss := loss }, g3)

theorem sdiscard_sadd_eq {α : Type} [DecidableEq α] (s : List α) (x : α) :
    sdiscard (sadd s x) x = sdiscard s x := by
  unfold sadd
  by_cases h : x ∈ s
  · rw [if_pos h]
  · rw [if_neg h, sdiscard_append]
    have h2 : sdiscard [x] x = [] := by simp [sdiscard]
    rw [h2, List.append_nil]

theorem sdiscard_idem {α : Type} [DecidableEq α] (s : List α) (x : α) :
    sdiscard (sdiscard s x) x = sdiscard s x := by
  apply sdiscard_of_not_mem
  intro hmem
  have := List.mem_filter.mp hmem
  simp only [decide_eq_true_eq] at this
  exact this.2 rfl

theorem eg_ext {a b : EmergencyGraph} (h1 : a.graph = b.graph)
    (h2 : a.vulnerable_edges = b.vulnerable_edges)
    (h3 : a.disabled_nodes = b.disabled_nodes) : a = b := by
  cases a
  cases b
  cases h1
  cases h2
  cases h3
  rfl

theorem ed_graph (g : EmergencyGraph) (c : Nat) :
    (enable_city (disable_city g c) c).graph = g.graph := by
  unfold enable_city disable_city
  split <;> rfl

theorem ed_vuln (g : EmergencyGraph) (c : Nat) :
    (enable_city (disable_city g c) c).vulnerable_edges = g.vulnerable_edges := by
  unfold enable_city disable_city
  split <;> rfl

theorem ed_disabled (g : EmergencyGraph) (c : Nat) :
    (enable_city (disable_city g c) c).disabled_nodes = sdiscard g.disabled_nodes c := by
  unfold enable_city disable_city
  split
  · exact sdiscard_sadd_eq g.disabled_nodes c
  · rfl

theorem ga_state (g : EmergencyGraph) (dn : Nat) :
    (get_affected_nodes g dn).2 = enable_city (disable_city g dn) dn := by
  unfold get_affected_nodes
  dsimp only
  split
  · split <;> rfl
  · rfl

/-- C2 fails as stated: on a node that was already disabled before the
call, `analyze_node_failure` leaves the node enabled afterwards. -/
theorem c2_counterexample :
    0 ∈ (disable_city (add_city egEmpty 0) 0).disabled_nodes ∧
    (analyze_node_failure (disable_city (add_city egEmpty 0) 0) 0).2 ≠
      disable_city (add_city egEmpty 0) 0 := by
  exact ⟨by decide, by decide⟩

/-- C2 amended — `analyze_node_failure` never touches the adjacency dict or
the vulnerable-edge set, and leaves the disabled set equal to its original
value with the analysed node removed; hence the graph state is fully
restored exactly when the node was not disabled before the call (no
exceptional exit can occur in the core computation). -/
theorem c2_analyze_node_failure_state (g : EmergencyGraph) (fn : Nat) :
    (analyze_node_failure g fn).2.graph = g.graph ∧
    (analyze_node_failure g fn).2.vulnerable_edges = g.vulnerable_edges ∧
    (analyze_node_failure g fn).2.disabled_nodes = sdiscard g.disabled_nodes fn ∧
    (fn ∉ g.disabled_nodes → (analyze_node_failure g fn).2 = g) := by
  have e3 : (analyze_node_failure g fn).2 =
      enable_city (disable_city (enable_city (disable_city g fn) fn) fn) fn := by
    rw [show (analyze_node_failure g fn).2 =
      enable_city (disable_city (get_affected_nodes g fn).2 fn) fn from rfl, ga_state]
  have hgr : (analyze_node_failure g fn).2.graph = g.graph := by
    rw [e3, ed_graph, ed_graph]
  have hvu : (analyze_node_failure g fn).2.vulnerable_edges = g.vulnerable_edges := by
    rw [e3, ed_vuln, ed_vuln]
  have hdi : (analyze_node_failure g fn).2.disabled_nodes = sdiscard g.disabled_nodes fn := by
    rw [e3, ed_disabled, ed_disabled, sdiscard_idem]
  refine ⟨hgr, hvu, hdi, fun hfn => ?_⟩
  exact eg_ext hgr hvu (hdi.trans (sdiscard_of_not_mem hfn))

/-- Witness for C2 amended: on a non-disabled node the state is restored. -/
theorem c2_analyze_node_failure_state_witness :
    0 ∉ (add_road egEmpty 0 1 1).disabled_nodes ∧
    (analyze_node_failure (add_road egEmpty 0 1 1) 0).2 = add_road egEmpty 0 1 1 :=
  ⟨by decide,
   (c2_analyze_node_failure_state (add_road egEmpty 0 1 1) 0).2.2.2 (by decide)⟩

/-!
Embedding of `find_k_disjoint_paths` / `_dfs_augmenting_path` (paths.py).
The residual graph is a dict of dicts (association lists preserving Python
dict insertion order, since the DFS iterates keys in that order); the
`visited` set is shared across the recursion and therefore threaded through
every call.
-/

/-- Residual-graph initialisation: unit capacity per directed arc, parallel
edges collapsed (`if neighbor not in residual_graph[city]`). -/
def rgInit (g : EmergencyGraph) : List (Nat × List (Nat × Int)) :=
  (get_all_cities g).foldl
    (fun rg city =>
      dset rg city
        (((dget? g.graph city).getD []).foldl
          (fun inn nw => if (dget? inn nw.1).isSome then inn else inn ++ [(nw.1, 1)])
          []))
    []

/-- The `for neighbor in residual_graph.get(start, {})` loop of
`_dfs_augmenting_path`; `rec` is the recursive call at the next depth. -/
def dfsAugLoop (g : EmergencyGraph) (start : Nat)
    (rec : Nat → List Nat → Option (List Nat) × List Nat) :
    List (Nat × Int) → List Nat → Option (List Nat) × List Nat
  | [], visited => (none, visited)
  | nc :: rest, visited =>
    if nc.1 ∉ visited ∧ nc.2 > 0 ∧ (start, nc.1) ∉ g.vulnerable_edges then
      match rec nc.1 visited with
      | (some path, vis2) => (some (start :: path), vis2)
      | (none, vis2) => dfsAugLoop g start rec rest vis2
    else dfsAugLoop g start rec rest visited

/-- `_dfs_augmenting_path`: depth-first search for an augmenting path in the
residual graph. The fuel bounds the recursion depth; the Python recursion
terminates because every visited node is added to the shared set, and the
callers pass fuel exceeding the node count. -/
def dfsAug (g : EmergencyGraph) (rg : List (Nat × List (Nat × Int))) (endv : Nat) :
    Nat → Nat → List Nat → Option (List Nat) × List Nat
  | 0, _, visited => (none, visited)
  | fuel + 1, start, visited =>
    if start = endv then (some [endv], visited)
    else
      dfsAugLoop g start (dfsAug g rg endv fuel) ((dget? rg start).getD [])
        (sadd visited start)

/-- Flow bookkeeping for one path edge `(u, v)`: decrement the forward
capacity (deleting it at zero) and increment the reverse capacity. -/
def capStep (rg : List (Nat × List (Nat × Int))) (u v : Nat) :
    List (Nat × List (Nat × Int)) :=
  let inn := (dget? rg u).getD []
  let c := (dget? inn v).getD 0 - 1
  let rg1 := dset rg u (if c = 0 then ddel inn v else dset inn v c)
  let rg2 := if (dget? rg1 v).isSome then rg1 else dset rg1 v []
  let innv := (dget? rg2 v).getD []
  dset rg2 v (dset innv u ((dget? innv u).getD 0 + 1))

/-- Capacity update along all consecutive pairs of a found path. -/
def updateCaps : List Nat → List (Nat × List (Nat × Int)) →
    List (Nat × List (Nat × Int))
  | u :: v :: rest, rg => updateCaps (v :: rest) (capStep rg u v)
  | _, rg => rg

/-- The `for _ in range(k)` loop of `find_k_disjoint_paths`. -/
def fkdpLoop (g : EmergencyGraph) (start endv : Nat) :
    Nat → List (Nat × List (Nat × Int)) → List (List Nat) → List (List Nat)
  | 0, _, paths => paths
  | k + 1, rg, paths =>
    match (dfsAug g rg endv (g.graph.length + 2) start []).1 with
    | none => paths
    | some path => fkdpLoop g start endv k (updateCaps path rg) (paths ++ [path])

/-- `find_k_disjoint_paths` (paths.py). -/
def find_k_disjoint_paths (g : EmergencyGraph) (start endv : Nat) (k : Nat) :
    List (List Nat) :=
  fkdpLoop g start endv k (rgInit g) []

/-- The consecutive node pairs (directed edges) traversed by a path. -/
def pathEdges (p : List Nat) : List (Nat × Nat) :=
  p.zip p.tail

/-- Two paths share an undirected edge when some consecutive pair of one
appears in the other in either direction. -/
def sharesEdge (p q : List Nat) : Bool :=
  (pathEdges p).any (fun e => (pathEdges q).any
    (fun f => decide (e = f ∨ e = (f.2, f.1))))

/-- Pairwise edge-disjointness of a path list (the C4 property). -/
def pairwiseEdgeDisjoint : List (List Nat) → Bool
  | [] => true
  | p :: rest => rest.all (fun q => ! sharesEdge p q) && pairwiseEdgeDisjoint rest

/-- C4 — on the 4-node graph 0-1, 1-2, 1-3, 0-2, 2-3 with k = 2, the two
returned augmenting paths traverse the undirected edge {1,2} in opposite
directions: the residual reverse arc lets the second search cancel the
first path's flow, so the recorded node paths are not edge-disjoint. -/
theorem c4_paths_share_an_edge :
    find_k_disjoint_paths (add_road (add_road (add_road (add_road
        (add_road egEmpty 0 1 1) 1 2 1) 1 3 1) 0 2 1) 2 3 1) 0 3 2
      = [[0, 1, 2, 3], [0, 2, 1, 3]] ∧
    pairwiseEdgeDisjoint (find_k_disjoint_paths (add_road (add_road (add_road (add_road
        (add_road egEmpty 0 1 1) 1 2 1) 1 3 1) 0 2 1) 2 3 1) 0 3 2) = false :=
  ⟨by decide, by decide⟩

/-!
Embedding of `tree/tree_model.py` and `tree/rebalance.py`. A `TreeNode`
becomes an inductive tree carrying the cached `height` attribute; the
Python in-place mutations become functional rebuilding. Stored values are
modelled as integers.
-/

inductive TreeNode where
  | leaf : TreeNode
  | node (value : Int) (left right : TreeNode) (height : Nat) : TreeNode
deriving DecidableEq, Repr

/-- `AVLTree._get_height`: the cached height attribute, 0 for `None`. -/
def cachedHeight : TreeNode → Nat
  | TreeNode.leaf => 0
  | TreeNode.node _ _ _ h => h

/-- `AVLTree._get_balance_factor` (cached heights). -/
def balanceFactor : TreeNode → Int
  | TreeNode.leaf => 0
  | TreeNode.node _ l r _ => (cachedHeight l : Int) - (cachedHeight r : Int)

/-- `AVLTree._rotate_right`. The fallback branch corresponds to Python's
AttributeError when `y.left is None`; it is unreachable at the call sites
(the balance factor guarantees a left child). -/
def rotateRight : TreeNode → TreeNode
  | TreeNode.node yv (TreeNode.node xv xl xr _) yr _ =>
    TreeNode.node xv xl
      (TreeNode.node yv xr yr (1 + max (cachedHeight xr) (cachedHeight yr)))
      (1 + max (cachedHeight xl)
        (cachedHeight (TreeNode.node yv xr yr (1 + max (cachedHeight xr) (cachedHeight yr)))))
  | t => t

/-- `AVLTree._rotate_left` (mirror image). -/
def rotateLeft : TreeNode → TreeNode
  | TreeNode.node xv xl (TreeNode.node yv yl yr _) _ =>
    TreeNode.node yv
      (TreeNode.node xv xl yl (1 + max (cachedHeight xl) (cachedHeight yl)))
      yr
      (1 + max (cachedHeight (TreeNode.node xv xl yl (1 + max (cachedHeight xl) (cachedHeight yl))))
        (cachedHeight yr))
  | t => t

/-- `AVLTree._rebalance`: the four rotation cases, driven by cached heights. -/
def rebalanceNode (t : TreeNode) : TreeNode :=
  match t with
  | TreeNode.leaf => TreeNode.leaf
  | TreeNode.node v l r h =>
    let bal := (cachedHeight l : Int) - (cachedHeight r : Int)
    if bal > 1 then
      if balanceFactor l < 0 then rotateRight (TreeNode.node v (rotateLeft l) r h)
      else rotateRight (TreeNode.node v l r h)
    else if bal < -1 then
      if balanceFactor r > 0 then rotateLeft (TreeNode.node v l (rotateRight r) h)
      else rotateLeft (TreeNode.node v l r h)
    else t

/-- `AVLTree._insert_avl_recursive`. -/
def insertAVLRec : TreeNode → Int → TreeNode
  | TreeNode.leaf, value => TreeNode.node value TreeNode.leaf TreeNode.leaf 1
  | TreeNode.node v l r h, value =>
    if value < v then
      let l2 := insertAVLRec l value
      rebalanceNode (TreeNode.node v l2 r (1 + max (cachedHeight l2) (cachedHeight r)))
    else if value > v then
      let r2 := insertAVLRec r value
      rebalanceNode (TreeNode.node v l r2 (1 + max (cachedHeight l) (cachedHeight r2)))
    else TreeNode.node v l r h

/-- `AVLTree.insert` (the wrapper's empty-root case inserts a fresh node). -/
def avlInsert (t : TreeNode) (value : Int) : TreeNode :=
  match t with
  | TreeNode.leaf => TreeNode.node value TreeNode.leaf TreeNode.leaf 1
  | _ => insertAVLRec t value

/-- The successor-splice of `_delete_avl_recursive`'s two-child case: walk
to the leftmost node of the subtree, replace it by its right child, and
return its value. No height on the walked spine is updated (exactly as in
the source, which only reassigns `successor_parent.left`). -/
def spliceLeftmost : TreeNode → Int × TreeNode
  | TreeNode.leaf => (0, TreeNode.leaf)
  | TreeNode.node v l r h =>
    match l with
    | TreeNode.leaf => (v, r)
    | TreeNode.node _ _ _ _ =>
      let p := spliceLeftmost l
      (p.1, TreeNode.node v p.2 r h)

/-- `AVLTree._delete_avl_recursive`. -/
def deleteAVLRec : TreeNode → Int → TreeNode
  | TreeNode.leaf, _ => TreeNode.leaf
  | TreeNode.node v l r h, value =>
    if value < v then
      let l2 := deleteAVLRec l value
      rebalanceNode (TreeNode.node v l2 r (1 + max (cachedHeight l2) (cachedHeight r)))
    else if value > v then
      let r2 := deleteAVLRec r value
      rebalanceNode (TreeNode.node v l r2 (1 + max (cachedHeight l) (cachedHeight r2)))
    else
      match l, r with
      | TreeNode.leaf, TreeNode.leaf => TreeNode.leaf
      | TreeNode.leaf, _ => r
      | _, TreeNode.leaf => l
      | _, _ =>
        let p := spliceLeftmost r
        rebalanceNode (TreeNode.node p.1 l p.2 (1 + max (cachedHeight l) (cachedHeight p.2)))

/-- `AVLTree.delete` (empty-root wrapper). -/
def avlDelete (t : TreeNode) (value : Int) : TreeNode :=
  match t with
  | TreeNode.leaf => TreeNode.leaf
  | _ => deleteAVLRec t value

/-- `BinarySearchTree.is_balanced`'s recursive checker: recomputes real
heights and flags any node whose children's heights differ by more than 1. -/
def checkBalance : TreeNode → Bool × Nat
  | TreeNode.leaf => (true, 0)
  | TreeNode.node _ l r _ =>
    match checkBalance l with
    | (false, _) => (false, 0)
    | (true, lh) =>
      match checkBalance r with
      | (false, _) => (false, 0)
      | (true, rh) => (decide (((lh : Int) - rh).natAbs ≤ 1), 1 + max lh rh)

/-- `BinarySearchTree.is_balanced`. -/
def is_balanced (t : TreeNode) : Bool := (checkBalance t).1

/-- `BinarySearchTree.get_height` (real height, not the cached attribute). -/
def get_height : TreeNode → Nat
  | TreeNode.leaf => 0
  | TreeNode.node _ l r _ => 1 + max (get_height l) (get_height r)

/-- `BinarySearchTree.inorder_traversal`. -/
def inorder_traversal : TreeNode → List Int
  | TreeNode.leaf => []
  | TreeNode.node v l r _ => inorder_traversal l ++ [v] ++ inorder_traversal r

/-- `_build_balanced_tree` (rebalance.py): insert the midpoint of each index
range first. Indices are integers (`mid - 1` may reach -1, stopping the
recursion via `low <= high`); the fuel dominates the recursion depth, which
is bounded by the interval length. -/
def buildBalanced (values : List Int) : Nat → Int → Int → TreeNode → TreeNode
  | 0, _, _, t => t
  | fuel + 1, low, high, t =>
    if low ≤ high then
      let mid := (low + high) / 2
      let t1 := avlInsert t (values.getD mid.toNat 0)
      let t2 := buildBalanced values fuel low (mid - 1) t1
      buildBalanced values fuel (mid + 1) high t2
    else t

/-- `rebalance_tree` (rebalance.py). -/
def rebalance_tree (t : TreeNode) : TreeNode :=
  let values := inorder_traversal t
  if values = [] then TreeNode.leaf
  else buildBalanced values (values.length + 1) 0 ((values.length : Int) - 1) TreeNode.leaf

/-- C1 — the insert sequence 10,5,14,3,7,12,16,15,17 builds a valid AVL
tree (no rotations needed), but deleting 10 splices out the in-order
successor 12 without rebalancing or recomputing heights inside the right
subtree: node 14 is left with children of real heights 0 and 2, so
`is_balanced()` returns False. -/
theorem c1_delete_breaks_balance :
    is_balanced ([10, 5, 14, 3, 7, 12, 16, 15, 17].foldl avlInsert TreeNode.leaf) = true ∧
    is_balanced (avlDelete
      ([10, 5, 14, 3, 7, 12, 16, 15, 17].foldl avlInsert TreeNode.leaf) 10) = false :=
  ⟨by decide, by decide⟩

/-! Inorder-preservation development for the tree rebuild (C9). -/

theorem inorder_rotateRight (t : TreeNode) :
    inorder_traversal (rotateRight t) = inorder_traversal t := by
  cases t with
  | leaf => rfl
  | node yv l yr h =>
    cases l with
    | leaf => rfl
    | node xv xl xr xh =>
      simp [rotateRight, inorder_traversal, List.append_assoc]

theorem inorder_rotateLeft (t : TreeNode) :
    inorder_traversal (rotateLeft t) = inorder_traversal t := by
  cases t with
  | leaf => rfl
  | node xv xl r h =>
    cases r with
    | leaf => rfl
    | node yv yl yr yh =>
      simp [rotateLeft, inorder_traversal, List.append_assoc]

theorem inorder_rebalanceNode (t : TreeNode) :
    inorder_traversal (rebalanceNode t) = inorder_traversal t := by
  cases t with
  | leaf => rfl
  | node v l r h =>
    unfold rebalanceNode
    dsimp only
    by_cases h1 : ((cachedHeight l : Int) - cachedHeight r) > 1
    · rw [if_pos h1]
      by_cases h2 : balanceFactor l < 0
      · rw [if_pos h2, inorder_rotateRight]
        simp [inorder_traversal, inorder_rotateLeft]
      · rw [if_neg h2, inorder_rotateRight]
    · rw [if_neg h1]
      by_cases h3 : ((cachedHeight l : Int) - cachedHeight r) < -1
      · rw [if_pos h3]
        by_cases h4 : balanceFactor r > 0
        · rw [if_pos h4, inorder_rotateLeft]
          simp [inorder_traversal, inorder_rotateRight]
        · rw [if_neg h4, inorder_rotateLeft]
      · rw [if_neg h3]

/-- Insertion into a strictly sorted list, skipping duplicates: the list
view of what an AVL/BST insert does to the in-order sequence. -/
def sinsert (v : Int) : List Int → List Int
  | [] => [v]
  | x :: xs => if v < x then v :: x :: xs else if v > x then x :: sinsert v xs else x :: xs

theorem mem_sinsert (v y : Int) : ∀ l : List Int, y ∈ sinsert v l ↔ y = v ∨ y ∈ l := by
  intro l
  induction l with
  | nil => simp [sinsert]
  | cons x xs ih =>
    unfold sinsert
    by_cases h1 : v < x
    · rw [if_pos h1]
      simp
    · rw [if_neg h1]
      by_cases h2 : v > x
      · rw [if_pos h2]
        simp only [List.mem_cons, ih]
        tauto
      · rw [if_neg h2]
        have hvx : v = x := le_antisymm (not_lt.mp h2) (not_lt.mp h1)
        subst hvx
        simp only [List.mem_cons]
        tauto

theorem pairwise_sinsert (v : Int) :
    ∀ l : List Int, List.Pairwise (· < ·) l → List.Pairwise (· < ·) (sinsert v l) := by
  intro l
  induction l with
  | nil =>
    intro _
    simp [sinsert]
  | cons x xs ih =>
    intro hp
    rw [List.pairwise_cons] at hp
    unfold sinsert
    by_cases h1 : v < x
    · rw [if_pos h1]
      refine List.Pairwise.cons ?_ (List.Pairwise.cons hp.1 hp.2)
      intro y hy
      rcases List.mem_cons.mp hy with h | h
      · exact h ▸ h1
      · exact h1.trans (hp.1 y h)
    · rw [if_neg h1]
      by_cases h2 : v > x
      · rw [if_pos h2]
        refine List.Pairwise.cons ?_ (ih hp.2)
        intro y hy
        rcases (mem_sinsert v y xs).mp hy with h | h
        · exact h ▸ h2
        · exact hp.1 y h
      · rw [if_neg h2]
        exact List.Pairwise.cons hp.1 hp.2

theorem sinsert_append_lt {v b : Int} (B : List Int) (hvb : v < b) :
    ∀ A : List Int, sinsert v (A ++ b :: B) = sinsert v A ++ b :: B := by
  intro A
  induction A with
  | nil =>
    simp [sinsert, if_pos hvb]
  | cons x xs ih =>
    show sinsert v (x :: (xs ++ b :: B)) = sinsert v (x :: xs) ++ b :: B
    unfold sinsert
    by_cases h1 : v < x
    · rw [if_pos h1, if_pos h1]
      simp
    · rw [if_neg h1, if_neg h1]
      by_cases h2 : v > x
      · rw [if_pos h2, if_pos h2, List.cons_append, ih]
      · rw [if_neg h2, if_neg h2]
        simp

theorem sinsert_append_gt {v b : Int} (B : List Int) (hbv : b < v) :
    ∀ A : List Int, (∀ x ∈ A, x < v) →
      sinsert v (A ++ b :: B) = A ++ b :: sinsert v B := by
  intro A
  induction A with
  | nil =>
    intro _
    show sinsert v (b :: B) = b :: sinsert v B
    rw [show sinsert v (b :: B) =
      if v < b then v :: b :: B else if v > b then b :: sinsert v B else b :: B from rfl]
    rw [if_neg (not_lt.mpr hbv.le), if_pos hbv]
  | cons x xs ih =>
    intro hA
    show sinsert v (x :: (xs ++ b :: B)) = x :: (xs ++ b :: sinsert v B)
    have hxv : x < v := hA x (List.mem_cons_self _ _)
    rw [show sinsert v (x :: (xs ++ b :: B)) =
      if v < x then v :: x :: (xs ++ b :: B)
      else if v > x then x :: sinsert v (xs ++ b :: B) else x :: (xs ++ b :: B) from rfl]
    rw [if_neg (not_lt.mpr hxv.le), if_pos hxv,
      ih (fun y hy => hA y (List.mem_cons_of_mem _ hy))]

theorem sinsert_append_eq {v : Int} (B : List Int) :
    ∀ A : List Int, (∀ x ∈ A, x < v) → sinsert v (A ++ v :: B) = A ++ v :: B := by
  intro A
  induction A with
  | nil =>
    intro _
    show sinsert v (v :: B) = v :: B
    unfold sinsert
    rw [if_neg (lt_irrefl v), if_neg (lt_irrefl v)]
  | cons x xs ih =>
    intro hA
    show sinsert v (x :: (xs ++ v :: B)) = x :: (xs ++ v :: B)
    have hxv : x < v := hA x (List.mem_cons_self _ _)
    unfold sinsert
    rw [if_neg (not_lt.mpr hxv.le), if_pos hxv,
      ih (fun y hy => hA y (List.mem_cons_of_mem _ hy))]

theorem inorder_node (v : Int) (l r : TreeNode) (h : Nat) :
    inorder_traversal (TreeNode.node v l r h)
      = inorder_traversal l ++ v :: inorder_traversal r := by
  simp [inorder_traversal]

theorem inorder_insertAVLRec (v : Int) :
    ∀ t : TreeNode, List.Pairwise (· < ·) (inorder_traversal t) →
      inorder_traversal (insertAVLRec t v) = sinsert v (inorder_traversal t) := by
  intro t
  induction t with
  | leaf =>
    intro _
    rfl
  | node v0 l r h ihl ihr =>
    intro hp
    rw [inorder_node] at hp
    have hparts := List.pairwise_append.mp hp
    have hpl := hparts.1
    have hpr' := hparts.2.1
    have hil_lt : ∀ x ∈ inorder_traversal l, x < v0 :=
      fun x hx => hparts.2.2 x hx v0 (List.mem_cons_self _ _)
    have hpr := (List.pairwise_cons.mp hpr').2
    unfold insertAVLRec
    dsimp only
    by_cases h1 : v < v0
    · rw [if_pos h1, inorder_rebalanceNode, inorder_node, inorder_node, ihl hpl,
        sinsert_append_lt (inorder_traversal r) h1 (inorder_traversal l)]
    · rw [if_neg h1]
      by_cases h2 : v > v0
      · rw [if_pos h2, inorder_rebalanceNode, inorder_node, inorder_node, ihr hpr,
          sinsert_append_gt (inorder_traversal r) h2 (inorder_traversal l)
            (fun x hx => (hil_lt x hx).trans h2)]
      · rw [if_neg h2]
        have hv : v = v0 := le_antisymm (not_lt.mp h2) (not_lt.mp h1)
        subst hv
        rw [inorder_node,
          sinsert_append_eq (inorder_traversal r) (inorder_traversal l) hil_lt]

/-- The in-order effect of `AVLTree.insert` on a search tree. -/
theorem inorder_avlInsert (v : Int) (t : TreeNode)
    (hp : List.Pairwise (· < ·) (inorder_traversal t)) :
    inorder_traversal (avlInsert t v) = sinsert v (inorder_traversal t) := by
  cases t with
  | leaf => rfl
  | node v0 l r h => exact inorder_insertAVLRec v (TreeNode.node v0 l r h) hp

theorem pairwise_avlInsert (v : Int) (t : TreeNode)
    (hp : List.Pairwise (· < ·) (inorder_traversal t)) :
    List.Pairwise (· < ·) (inorder_traversal (avlInsert t v)) := by
  rw [inorder_avlInsert v t hp]
  exact pairwise_sinsert v _ hp

theorem mem_inorder_avlInsert (v y : Int) (t : TreeNode)
    (hp : List.Pairwise (· < ·) (inorder_traversal t)) :
    y ∈ inorder_traversal (avlInsert t v) ↔ y = v ∨ y ∈ inorder_traversal t := by
  rw [inorder_avlInsert v t hp]
  exact mem_sinsert v y _

theorem pairwise_lt_ext : ∀ (l1 l2 : List Int),
    List.Pairwise (· < ·) l1 → List.Pairwise (· < ·) l2 →
    (∀ x, x ∈ l1 ↔ x ∈ l2) → l1 = l2 := by
  intro l1
  induction l1 with
  | nil =>
    intro l2 _ _ hm
    cases l2 with
    | nil => rfl
    | cons y ys => exact absurd ((hm y).mpr (List.mem_cons_self _ _)) (List.not_mem_nil _)
  | cons x xs ih =>
    intro l2 hp1 hp2 hm
    cases l2 with
    | nil => exact absurd ((hm x).mp (List.mem_cons_self _ _)) (List.not_mem_nil _)
    | cons y ys =>
      have hp1' := List.pairwise_cons.mp hp1
      have hp2' := List.pairwise_cons.mp hp2
      have hxy : x = y := by
        rcases List.mem_cons.mp ((hm x).mp (List.mem_cons_self _ _)) with h | h
        · exact h
        · have hyx : y < x := hp2'.1 x h
          rcases List.mem_cons.mp ((hm y).mpr (List.mem_cons_self _ _)) with h2 | h2
          · exact absurd (h2 ▸ hyx) (lt_irrefl _)
          · exact absurd (hyx.trans (hp1'.1 y h2)) (lt_irrefl _)
      subst hxy
      have hmm : ∀ z, z ∈ xs ↔ z ∈ ys := by
        intro z
        constructor
        · intro hz
          have hzx : x < z := hp1'.1 z hz
          rcases List.mem_cons.mp ((hm z).mp (List.mem_cons_of_mem _ hz)) with h | h
          · exact absurd (h ▸ hzx) (lt_irrefl _)
          · exact h
        · intro hz
          have hzx : x < z := hp2'.1 z hz
          rcases List.mem_cons.mp ((hm z).mpr (List.mem_cons_of_mem _ hz)) with h | h
          · exact absurd (h ▸ hzx) (lt_irrefl _)
          · exact h
      rw [ih ys hp1'.2 hp2'.2 hmm]

theorem buildBalanced_spec (values : List Int) :
    ∀ (fuel : Nat) (low high : Int) (t : TreeNode),
      List.Pairwise (· < ·) (inorder_traversal t) →
      0 ≤ low → high - low < (fuel : Int) →
      List.Pairwise (· < ·) (inorder_traversal (buildBalanced values fuel low high t)) ∧
      (∀ x, x ∈ inorder_traversal (buildBalanced values fuel low high t) ↔
        x ∈ inorder_traversal t ∨
        ∃ i : Nat, low ≤ (i : Int) ∧ (i : Int) ≤ high ∧ values.getD i 0 = x) := by
  intro fuel
  induction fuel with
  | zero =>
    intro low high t hp hlow hfuel
    refine ⟨hp, fun x => ?_⟩
    constructor
    · intro hx
      exact Or.inl hx
    · rintro (hx | ⟨i, h1, h2, _⟩)
      · exact hx
      · omega
  | succ n ih =>
    intro low high t hp hlow hfuel
    unfold buildBalanced
    dsimp only
    by_cases hlh : low ≤ high
    · rw [if_pos hlh]
      have hm1 : low ≤ (low + high) / 2 := by omega
      have hm2 : (low + high) / 2 ≤ high := by omega
      have hp1 := pairwise_avlInsert (values.getD ((low + high) / 2).toNat 0) t hp
      have hrec1 := ih low ((low + high) / 2 - 1)
        (avlInsert t (values.getD ((low + high) / 2).toNat 0)) hp1 hlow (by omega)
      have hrec2 := ih ((low + high) / 2 + 1) high
        (buildBalanced values n low ((low + high) / 2 - 1)
          (avlInsert t (values.getD ((low + high) / 2).toNat 0)))
        hrec1.1 (by omega) (by omega)
      refine ⟨hrec2.1, fun x => ?_⟩
      rw [hrec2.2 x, hrec1.2 x,
        mem_inorder_avlInsert (values.getD ((low + high) / 2).toNat 0) x t hp]
      constructor
      · rintro (((hx | hx) | ⟨i, h1, h2, h3⟩) | ⟨i, h1, h2, h3⟩)
        · exact Or.inr ⟨((low + high) / 2).toNat, by omega, by omega, hx.symm⟩
        · exact Or.inl hx
        · exact Or.inr ⟨i, by omega, by omega, h3⟩
        · exact Or.inr ⟨i, by omega, by omega, h3⟩
      · rintro (hx | ⟨i, h1, h2, h3⟩)
        · exact Or.inl (Or.inl (Or.inr hx))
        · by_cases hcmp : (i : Int) < (low + high) / 2
          · exact Or.inl (Or.inr ⟨i, h1, by omega, h3⟩)
          · by_cases hcmp2 : (i : Int) = (low + high) / 2
            · refine Or.inl (Or.inl (Or.inl ?_))
              rw [← h3]
              congr 1
              omega
            · exact Or.inr ⟨i, by omega, h2, h3⟩
    · rw [if_neg hlh]
      refine ⟨hp, fun x => ?_⟩
      constructor
      · intro hx
        exact Or.inl hx
      · rintro (hx | ⟨i, h1, h2, _⟩)
        · exact hx
        · omega

/-- C9 — for every binary search tree (strictly increasing in-order
sequence), the tree rebuilt by `rebalance_tree` has exactly the same
in-order traversal: the rebuild preserves the stored value sequence. -/
theorem c9_rebalance_tree_preserves_inorder (t : TreeNode)
    (hbst : List.Pairwise (· < ·) (inorder_traversal t)) :
    inorder_traversal (rebalance_tree t) = inorder_traversal t := by
  unfold rebalance_tree
  dsimp only
  by_cases hemp : inorder_traversal t = []
  · rw [if_pos hemp, hemp]
    rfl
  · rw [if_neg hemp]
    have hspec := buildBalanced_spec (inorder_traversal t)
      ((inorder_traversal t).length + 1) 0 (((inorder_traversal t).length : Int) - 1)
      TreeNode.leaf (by simp [inorder_traversal]) le_rfl
      (by push_cast; omega)
    refine pairwise_lt_ext _ _ hspec.1 hbst ?_
    intro x
    rw [hspec.2 x]
    constructor
    · rintro (hx | ⟨i, h1, h2, h3⟩)
      · simp [inorder_traversal] at hx
      · have hlen : i < (inorder_traversal t).length := by omega
        rw [List.getD_eq_getElem _ _ hlen] at h3
        exact h3 ▸ List.getElem_mem hlen
    · intro hx
      rcases List.mem_iff_getElem.mp hx with ⟨i, hi, heq⟩
      refine Or.inr ⟨i, by omega, by omega, ?_⟩
      rw [List.getD_eq_getElem _ _ hi]
      exact heq

/-- Witness for C9 at a concrete (skewed) search tree over 1, 2, 3. -/
theorem c9_rebalance_tree_preserves_inorder_witness :
    List.Pairwise (· < ·) (inorder_traversal
      (TreeNode.node 1 TreeNode.leaf
        (TreeNode.node 2 TreeNode.leaf
          (TreeNode.node 3 TreeNode.leaf TreeNode.leaf 1) 2) 3)) ∧
    inorder_traversal (rebalance_tree
      (TreeNode.node 1 TreeNode.leaf
        (TreeNode.node 2 TreeNode.leaf
          (TreeNode.node 3 TreeNode.leaf TreeNode.leaf 1) 2) 3)) =
    inorder_traversal
      (TreeNode.node 1 TreeNode.leaf
        (TreeNode.node 2 TreeNode.leaf
          (TreeNode.node 3 TreeNode.leaf TreeNode.leaf 1) 2) 3) :=
  ⟨by decide,
   c9_rebalance_tree_preserves_inorder
     (TreeNode.node 1 TreeNode.leaf
       (TreeNode.node 2 TreeNode.leaf
         (TreeNode.node 3 TreeNode.leaf TreeNode.leaf 1) 2) 3) (by decide)⟩

/-!
Embedding of `FailureAnalyzer.simulate_cascade_failure` (failure.py). The
Python float comparison `connected/total < 0.3` is modelled exactly over
the rationals; the claim proved below only uses that the comparison is
monotone in the denominator, so it is insensitive to binary rounding.
-/

/-- The inner connectivity count for one candidate node: returns
`(connected_count, total_critical)`. -/
def countConn (g : EmergencyGraph) (failed : List Nat) (node : Nat) : Nat × Nat :=
  (get_all_cities g).foldl
    (fun st other =>
      if other ∉ failed ∧ other ≠ node then
        if pathIsNone (dijkstra_shortest_path g node other) then (st.1, st.2 + 1)
        else (st.1 + 1, st.2 + 1)
      else st)
    (0, 0)

/-- One round of the cascade: the set of newly failed nodes. -/
def cascadeNewlyFailed (g : EmergencyGraph) (failed : List Nat) : List Nat :=
  (get_all_cities g).foldl
    (fun acc node =>
      if node ∉ failed ∧ node ∉ g.disabled_nodes then
        if (countConn g failed node).2 > 0 ∧
            ((countConn g failed node).1 : ℚ) / ((countConn g failed node).2 : ℚ) < 3 / 10
        then acc ++ [node]
        else acc
      else acc)
    []

/-- Python `failed.union(newly)` / `failed.update(newly)`. -/
def failedUnion (failed newly : List Nat) : List Nat :=
  newly.foldl sadd failed

/-- The `while True:` loop of `simulate_cascade_failure`; `phase` holds the
pre-increment counter. The loop runs at most 11 iterations (it breaks once
`phase > 10` after recording), so the callers' fuel of 12 is never
exhausted. Each phases entry is `(phase, newly_failed, total_failed_so_far)`. -/
def cascadeLoop (g : EmergencyGraph) :
    Nat → Nat → List Nat → List (Nat × List Nat × List Nat) →
    List (Nat × List Nat × List Nat) × List Nat
  | 0, _, failed, phases => (phases, failed)
  | fuel + 1, phase, failed, phases =>
    if cascadeNewlyFailed g failed = [] then (phases, failed)
    else
      if phase + 1 > 10 then
        (phases ++ [(phase + 1, cascadeNewlyFailed g failed,
          failedUnion failed (cascadeNewlyFailed g failed))],
         failedUnion failed (cascadeNewlyFailed g failed))
      else
        cascadeLoop g fuel (phase + 1)
          (failedUnion failed (cascadeNewlyFailed g failed))
          (phases ++ [(phase + 1, cascadeNewlyFailed g failed,
            failedUnion failed (cascadeNewlyFailed g failed))])

/-- The cascade record: the recorded phases and the final failed set. -/
structure CascadeInfo where
  phases : List (Nat × List Nat × List Nat)
  total_failed : List Nat
deriving DecidableEq, Repr

/-- `FailureAnalyzer.simulate_cascade_failure`. -/
def simulate_cascade_failure (g : EmergencyGraph) (initial_failed_nodes : List Nat) :
    CascadeInfo :=
  let r := cascadeLoop g 12 0 initial_failed_nodes []
  { phases := r.1, total_failed := r.2 }

/-- Reachability along active edges (the semantic content of a dijkstra
query returning a path). -/
inductive ActiveReach (g : EmergencyGraph) : Nat → Nat → Prop where
  | refl (x : Nat) : ActiveReach g x x
  | step {x y z : Nat} (hxy : ActiveReach g x y)
      (hz : ∃ w, (z, w) ∈ get_active_neighbors g y) : ActiveReach g x z

/-- Symmetric adjacency storage, phrased decidably over the stored lists:
every stored arc has a reverse arc. Holds for all graphs reachable through
the public mutation operations. -/
def SymAdj (g : EmergencyGraph) : Prop :=
  ∀ e ∈ g.graph, ∀ nw ∈ e.2,
    (((dget? g.graph nw.1).getD []).any (fun p => p.1 = e.1)) = true

instance instDecidableSymAdj (g : EmergencyGraph) : Decidable (SymAdj g) := by
  unfold SymAdj
  infer_instance

/-- Symmetric vulnerable-edge storage (both directions always marked). -/
def SymVuln (g : EmergencyGraph) : Prop :=
  ∀ p ∈ g.vulnerable_edges, (p.2, p.1) ∈ g.vulnerable_edges

instance instDecidableSymVuln (g : EmergencyGraph) : Decidable (SymVuln g) := by
  unfold SymVuln
  infer_instance

theorem active_neighbor_elim {g : EmergencyGraph} {y z : Nat} {w : Int}
    (h : (z, w) ∈ get_active_neighbors g y) :
    y ∉ g.disabled_nodes ∧ z ∉ g.disabled_nodes ∧ (y, z) ∉ g.vulnerable_edges ∧
    (z, w) ∈ (dget? g.graph y).getD [] := by
  unfold get_active_neighbors at h
  by_cases hy : y ∈ g.disabled_nodes
  · rw [if_pos hy] at h
    exact absurd h (List.not_mem_nil _)
  · rw [if_neg hy] at h
    have h2 := List.mem_filter.mp h
    simp only [decide_eq_true_eq] at h2
    exact ⟨hy, h2.2.1, h2.2.2, h2.1⟩

theorem active_neighbor_intro {g : EmergencyGraph} {y z : Nat} {w : Int}
    (hy : y ∉ g.disabled_nodes) (hz : z ∉ g.disabled_nodes)
    (hv : (y, z) ∉ g.vulnerable_edges) (hm : (z, w) ∈ (dget? g.graph y).getD []) :
    (z, w) ∈ get_active_neighbors g y := by
  unfold get_active_neighbors
  rw [if_neg hy]
  refine List.mem_filter.mpr ⟨hm, ?_⟩
  simp only [decide_eq_true_eq]
  exact ⟨hz, hv⟩

/-- Reversal of one active arc under symmetric storage. -/
theorem active_neighbor_symm {g : EmergencyGraph} (hsa : SymAdj g) (hsv : SymVuln g)
    {y z : Nat} {w : Int} (h : (z, w) ∈ get_active_neighbors g y) :
    ∃ w2, (y, w2) ∈ get_active_neighbors g z := by
  obtain ⟨hy, hz, hv, hm⟩ := active_neighbor_elim h
  cases hd : dget? g.graph y with
  | none =>
    rw [hd] at hm
    exact absurd hm (List.not_mem_nil _)
  | some nbrs =>
    rw [hd] at hm
    simp only [Option.getD_some] at hm
    have hrev := hsa (y, nbrs) (dget?_mem hd) (z, w) hm
    rw [List.any_eq_true] at hrev
    obtain ⟨p, hp, hpeq⟩ := hrev
    simp only [decide_eq_true_eq] at hpeq
    refine ⟨p.2, active_neighbor_intro hz hy ?_ ?_⟩
    · intro hzy
      exact hv (hsv (z, y) hzy)
    · have hpy : p = (y, p.2) := by rw [← hpeq]
      rw [← hpy]
      exact hp

theorem activeReach_trans {g : EmergencyGraph} {a b c : Nat}
    (h1 : ActiveReach g a b) (h2 : ActiveReach g b c) : ActiveReach g a c := by
  induction h2 with
  | refl => exact h1
  | step hxy hz ih => exact ActiveReach.step ih hz

theorem activeReach_symm {g : EmergencyGraph} (hsa : SymAdj g) (hsv : SymVuln g)
    {a b : Nat} (h : ActiveReach g a b) : ActiveReach g b a := by
  induction h with
  | refl => exact ActiveReach.refl _
  | @step y z hxy hz ih =>
    obtain ⟨w, hw⟩ := hz
    obtain ⟨w2, hw2⟩ := active_neighbor_symm hsa hsv hw
    exact activeReach_trans (ActiveReach.step (ActiveReach.refl _) ⟨w2, hw2⟩) ih

theorem activeReach_mem_cities {g : EmergencyGraph} (hc : ClosedGraph g)
    {a b : Nat} (h : ActiveReach g a b) (hne : b ≠ a) : b ∈ get_all_cities g := by
  induction h with
  | refl => exact absurd rfl hne
  | @step y z hxy hz ih =>
    obtain ⟨w, hw⟩ := hz
    exact active_neighbors_mem_cities hc y (z, w) hw

/-! Reachability correctness of the embedded dijkstra loop (used by C6). -/

/-- The distance entry of `x` is present and finite. -/
def NotTop (dist : List (Nat × WDist)) (x : Nat) : Prop :=
  ∃ d : WDist, dget? dist x = some d ∧ d ≠ ⊤

theorem notTop_iff_getD (dist : List (Nat × WDist)) (x : Nat) :
    NotTop dist x ↔ (dget? dist x).getD ⊤ ≠ ⊤ := by
  constructor
  · rintro ⟨d, hd, hne⟩
    rw [hd]
    exact hne
  · intro h
    cases hd : dget? dist x with
    | none =>
      rw [hd] at h
      exact absurd rfl h
    | some d =>
      rw [hd] at h
      exact ⟨d, hd, h⟩

theorem selectMin_some_mem (dist : List (Nat × WDist)) :
    ∀ (l : List Nat) (acc : Option Nat × WDist) (c : Nat),
      (selectMin dist l acc).1 = some c → c ∈ l ∨ acc.1 = some c := by
  intro l
  induction l with
  | nil =>
    intro acc c h
    exact Or.inr h
  | cons x xs ih =>
    intro acc c h
    unfold selectMin at h
    by_cases hlt : (dget? dist x).getD ⊤ < acc.2
    · rw [if_pos hlt] at h
      rcases ih _ c h with h1 | h1
      · exact Or.inl (List.mem_cons_of_mem _ h1)
      · exact Or.inl (by
          rw [show x = c from Option.some.inj h1]
          exact List.mem_cons_self _ _)
    · rw [if_neg hlt] at h
      rcases ih _ c h with h1 | h1
      · exact Or.inl (List.mem_cons_of_mem _ h1)
      · exact Or.inr h1

theorem selectMin_some_lt (dist : List (Nat × WDist)) :
    ∀ (l : List Nat) (acc : Option Nat × WDist) (c : Nat),
      (∀ c0, acc.1 = some c0 → (dget? dist c0).getD ⊤ < ⊤) →
      (selectMin dist l acc).1 = some c → (dget? dist c).getD ⊤ < ⊤ := by
  intro l
  induction l with
  | nil =>
    intro acc c hacc h
    exact hacc c h
  | cons x xs ih =>
    intro acc c hacc h
    unfold selectMin at h
    by_cases hlt : (dget? dist x).getD ⊤ < acc.2
    · rw [if_pos hlt] at h
      refine ih _ c ?_ h
      intro c0 hc0
      rw [show x = c0 from Option.some.inj hc0] at hlt
      exact lt_of_lt_of_le hlt le_top
    · rw [if_neg hlt] at h
      exact ih _ c hacc h

theorem selectMin_isSome (dist : List (Nat × WDist)) :
    ∀ (l : List Nat) (acc : Option Nat × WDist) (c : Nat), acc.1 = some c →
      ∃ c2, (selectMin dist l acc).1 = some c2 := by
  intro l
  induction l with
  | nil =>
    intro acc c h
    exact ⟨c, h⟩
  | cons x xs ih =>
    intro acc c h
    unfold selectMin
    by_cases hlt : (dget? dist x).getD ⊤ < acc.2
    · rw [if_pos hlt]
      exact ih _ x rfl
    · rw [if_neg hlt]
      exact ih _ c h

theorem selectMin_none_all_top (dist : List (Nat × WDist)) :
    ∀ (l : List Nat), (selectMin dist l (none, ⊤)).1 = none →
      ∀ c ∈ l, (dget? dist c).getD ⊤ = ⊤ := by
  intro l
  induction l with
  | nil =>
    intro _ c hc
    exact absurd hc (List.not_mem_nil _)
  | cons x xs ih =>
    intro h c hc
    unfold selectMin at h
    by_cases hlt : (dget? dist x).getD ⊤ < (⊤ : WDist)
    · rw [if_pos hlt] at h
      obtain ⟨c2, hc2⟩ := selectMin_isSome dist xs (some x, (dget? dist x).getD ⊤) x rfl
      rw [h] at hc2
      exact absurd hc2 (by simp)
    · rw [if_neg hlt] at h
      rcases List.mem_cons.mp hc with h1 | h1
      · subst h1
        exact not_not.mp (fun hne => hlt (lt_top_iff_ne_top.mpr hne))
      · exact ih h c h1

theorem relaxList_preserves_NotTop (current : Nat) (U : List Nat) :
    ∀ (l : List (Nat × Int)) (dist : List (Nat × WDist)) (prev : List (Nat × Option Nat))
      (x : Nat), NotTop dist x → NotTop (relaxList current U l dist prev).1 x := by
  intro l
  induction l with
  | nil =>
    intro dist prev x hx
    exact hx
  | cons nw rest ih =>
    intro dist prev x hx
    unfold relaxList
    by_cases h1 : nw.1 ∈ U
    · rw [if_pos h1]
      by_cases h2 : (dget? dist current).getD ⊤ + (nw.2 : WDist) < (dget? dist nw.1).getD ⊤
      · rw [if_pos h2]
        refine ih _ _ x ?_
        by_cases hx1 : nw.1 = x
        · refine ⟨(dget? dist current).getD ⊤ + (nw.2 : WDist), ?_, ?_⟩
          · rw [dget?_dset, if_pos hx1]
          · exact (lt_of_lt_of_le h2 le_top).ne
        · obtain ⟨d, hd, hne⟩ := hx
          exact ⟨d, by rw [dget?_dset, if_neg hx1, hd], hne⟩
      · rw [if_neg h2]
        exact ih _ _ x hx
    · rw [if_neg h1]
      exact ih _ _ x hx

theorem relaxList_NotTop_source (current : Nat) (U : List Nat) :
    ∀ (l : List (Nat × Int)) (dist : List (Nat × WDist)) (prev : List (Nat × Option Nat))
      (x : Nat), NotTop (relaxList current U l dist prev).1 x →
      NotTop dist x ∨ ∃ nw ∈ l, nw.1 = x := by
  intro l
  induction l with
  | nil =>
    intro dist prev x hx
    exact Or.inl hx
  | cons nw rest ih =>
    intro dist prev x hx
    unfold relaxList at hx
    by_cases h1 : nw.1 ∈ U
    · rw [if_pos h1] at hx
      by_cases h2 : (dget? dist current).getD ⊤ + (nw.2 : WDist) < (dget? dist nw.1).getD ⊤
      · rw [if_pos h2] at hx
        rcases ih _ _ x hx with h3 | ⟨nw2, hm, he⟩
        · by_cases hx1 : nw.1 = x
          · exact Or.inr ⟨nw, List.mem_cons_self _ _, hx1⟩
          · obtain ⟨d, hd, hne⟩ := h3
            rw [dget?_dset, if_neg hx1] at hd
            exact Or.inl ⟨d, hd, hne⟩
        · exact Or.inr ⟨nw2, List.mem_cons_of_mem _ hm, he⟩
      · rw [if_neg h2] at hx
        rcases ih _ _ x hx with h3 | ⟨nw2, hm, he⟩
        · exact Or.inl h3
        · exact Or.inr ⟨nw2, List.mem_cons_of_mem _ hm, he⟩
    · rw [if_neg h1] at hx
      rcases ih _ _ x hx with h3 | ⟨nw2, hm, he⟩
      · exact Or.inl h3
      · exact Or.inr ⟨nw2, List.mem_cons_of_mem _ hm, he⟩

theorem relaxList_isSome (current : Nat) (U : List Nat) :
    ∀ (l : List (Nat × Int)) (dist : List (Nat × WDist)) (prev : List (Nat × Option Nat))
      (c : Nat), (dget? dist c).isSome → (dget? (relaxList current U l dist prev).1 c).isSome := by
  intro l
  induction l with
  | nil =>
    intro dist prev c hc
    exact hc
  | cons nw rest ih =>
    intro dist prev c hc
    unfold relaxList
    by_cases h1 : nw.1 ∈ U
    · rw [if_pos h1]
      by_cases h2 : (dget? dist current).getD ⊤ + (nw.2 : WDist) < (dget? dist nw.1).getD ⊤
      · rw [if_pos h2]
        refine ih _ _ c ?_
        rw [dget?_dset]
        by_cases hx1 : nw.1 = c
        · rw [if_pos hx1]
          rfl
        · rw [if_neg hx1]
          exact hc
      · rw [if_neg h2]
        exact ih _ _ c hc
    · rw [if_neg h1]
      exact ih _ _ c hc

theorem relaxList_covers (current : Nat) (U : List Nat) (hcur : current ∉ U) :
    ∀ (l : List (Nat × Int)) (dist : List (Nat × WDist)) (prev : List (Nat × Option Nat)),
      NotTop dist current →
      ∀ nw ∈ l, nw.1 ∈ U → NotTop (relaxList current U l dist prev).1 nw.1 := by
  intro l
  induction l with
  | nil =>
    intro dist prev _ nw hm _
    exact absurd hm (List.not_mem_nil _)
  | cons nw0 rest ih =>
    intro dist prev hcNT nw hm hU
    have hndfin : (dget? dist current).getD ⊤ + (nw0.2 : WDist) ≠ ⊤ := by
      obtain ⟨d, hd, hne⟩ := hcNT
      rw [hd]
      simp only [Option.getD_some]
      exact WithTop.add_ne_top.mpr ⟨hne, WithTop.coe_ne_top⟩
    unfold relaxList
    by_cases h1 : nw0.1 ∈ U
    · rw [if_pos h1]
      by_cases h2 : (dget? dist current).getD ⊤ + (nw0.2 : WDist) < (dget? dist nw0.1).getD ⊤
      · rw [if_pos h2]
        have hne_cur : ¬ (nw0.1 = current) := fun h => hcur (h ▸ h1)
        have hcNT2 : NotTop (dset dist nw0.1 ((dget? dist current).getD ⊤ + (nw0.2 : WDist)))
            current := by
          obtain ⟨d, hd, hne⟩ := hcNT
          exact ⟨d, by rw [dget?_dset, if_neg hne_cur, hd], hne⟩
        rcases List.mem_cons.mp hm with heq | hrest
        · subst heq
          refine relaxList_preserves_NotTop current U rest _ _ nw.1 ?_
          exact ⟨(dget? dist current).getD ⊤ + (nw.2 : WDist),
            by rw [dget?_dset, if_pos rfl], hndfin⟩
        · exact ih _ _ hcNT2 nw hrest hU
      · rw [if_neg h2]
        rcases List.mem_cons.mp hm with heq | hrest
        · subst heq
          refine relaxList_preserves_NotTop current U rest _ _ nw.1 ?_
          rw [notTop_iff_getD]
          intro htop
          rw [htop] at h2
          exact h2 (lt_top_iff_ne_top.mpr hndfin)
        · exact ih _ _ hcNT nw hrest hU
    · rw [if_neg h1]
      rcases List.mem_cons.mp hm with heq | hrest
      · exact absurd (heq ▸ hU) h1
      · exact ih _ _ hcNT nw hrest hU

/-- Invariant carried by the dijkstra main loop: distance entries exist for
all cities; finite entries are reachable; processed cities are finite with
all active neighbours finite; unvisited nodes are cities without repeats;
the start stays finite. -/
def DLoopInv (g : EmergencyGraph) (s : Nat) (U : List Nat)
    (dist : List (Nat × WDist)) : Prop :=
  (∀ c ∈ get_all_cities g, (dget? dist c).isSome) ∧
  (∀ x, NotTop dist x → ActiveReach g s x) ∧
  (∀ x ∈ get_all_cities g, x ∉ U →
    NotTop dist x ∧ ∀ nw ∈ get_active_neighbors g x, NotTop dist nw.1) ∧
  (∀ u ∈ U, u ∈ get_all_cities g) ∧
  NotTop dist s ∧ U.Nodup

/-- If every still-unvisited city has an infinite entry, then every node
reachable from the start has a finite entry (chain induction along the
path; visited nodes propagate finiteness to their active neighbours). -/
theorem reach_chain_NotTop (g : EmergencyGraph) (s : Nat) (hc : ClosedGraph g)
    (hs : s ∈ get_all_cities g) (U : List Nat) (dist : List (Nat × WDist))
    (hI : DLoopInv g s U dist)
    (hUtop : ∀ c ∈ U, (dget? dist c).getD ⊤ = ⊤) :
    ∀ x, ActiveReach g s x → x ∈ get_all_cities g → NotTop dist x := by
  intro x hx
  induction hx with
  | refl => exact fun _ => hI.2.2.2.2.1
  | @step y z hxy hz ih =>
    intro hzC
    have hyC : y ∈ get_all_cities g := by
      by_cases hys : y = s
      · exact hys ▸ hs
      · exact activeReach_mem_cities hc hxy hys
    have hyNT : NotTop dist y := ih hyC
    have hyNotU : y ∉ U := by
      intro hyU
      have := hUtop y hyU
      exact (notTop_iff_getD dist y).mp hyNT this
    obtain ⟨w, hw⟩ := hz
    exact (hI.2.2.1 y hyC hyNotU).2 (z, w) hw

/-- Master lemma: after running the loop, entries for cities persist,
finite entries are exactly the reachable nodes (in particular the target's
entry is finite iff the target is reachable). -/
theorem dijkstraLoop_reach (g : EmergencyGraph) (s e : Nat) (hc : ClosedGraph g)
    (hs : s ∈ get_all_cities g) :
    ∀ (fuel : Nat) (U : List Nat) (dist : List (Nat × WDist))
      (prev : List (Nat × Option Nat)),
      U.length < fuel → DLoopInv g s U dist →
      (∀ c ∈ get_all_cities g, (dget? (dijkstraLoop g e fuel U dist prev).1 c).isSome) ∧
      (∀ x, NotTop (dijkstraLoop g e fuel U dist prev).1 x → ActiveReach g s x) ∧
      (ActiveReach g s e → e ∈ get_all_cities g →
        NotTop (dijkstraLoop g e fuel U dist prev).1 e) := by
  intro fuel
  induction fuel with
  | zero =>
    intro U dist prev hlen _
    omega
  | succ n ih =>
    intro U dist prev hlen hI
    rw [dijkstraLoop]
    by_cases hU : U = []
    · rw [if_pos hU]
      refine ⟨hI.1, hI.2.1, fun hr he => ?_⟩
      exact reach_chain_NotTop g s hc hs U dist hI
        (by rw [hU]; intro c hc2; exact absurd hc2 (List.not_mem_nil _)) e hr he
    · rw [if_neg hU]
      cases hsel : (selectMin dist U (none, ⊤)).1 with
      | none =>
        refine ⟨hI.1, hI.2.1, fun hr he => ?_⟩
        exact reach_chain_NotTop g s hc hs U dist hI
          (selectMin_none_all_top dist U hsel) e hr he
      | some current =>
        dsimp only
        have hcur_lt : (dget? dist current).getD ⊤ < ⊤ :=
          selectMin_some_lt dist U (none, ⊤) current (by intro c0 h; cases h) hsel
        have hcurU : current ∈ U := by
          rcases selectMin_some_mem dist U (none, ⊤) current hsel with h | h
          · exact h
          · cases h
        have hcurNT : NotTop dist current := (notTop_iff_getD dist current).mpr hcur_lt.ne
        rw [if_neg (by exact hcur_lt.ne)]
        by_cases hce : current = e
        · rw [if_pos hce]
          exact ⟨hI.1, hI.2.1, fun _ _ => hce ▸ hcurNT⟩
        · rw [if_neg hce]
          have hcurC : current ∈ get_all_cities g := hI.2.2.2.1 current hcurU
          have hcurNotU' : current ∉ U.erase current := by
            intro hmem
            exact (List.Nodup.not_mem_erase hI.2.2.2.2.2) hmem
          have hreach_cur : ActiveReach g s current := hI.2.1 current hcurNT
          have hlen' : (U.erase current).length < n := by
            have := List.length_erase_add_one hcurU
            omega
          have hstable := @relaxList_stable current (U.erase current) current
            hcurNotU' (get_active_neighbors g current) dist prev
          have hcurNT2 : NotTop
              (relaxList current (U.erase current) (get_active_neighbors g current)
                dist prev).1 current := by
            obtain ⟨d, hd, hne⟩ := hcurNT
            exact ⟨d, hstable.1.trans hd, hne⟩
          refine ih (U.erase current) _ _ hlen' ⟨?_, ?_, ?_, ?_, ?_, ?_⟩
          · intro c hcC
            exact relaxList_isSome current (U.erase current) _ dist prev c (hI.1 c hcC)
          · intro x hx
            rcases relaxList_NotTop_source current (U.erase current)
                (get_active_neighbors g current) dist prev x hx with h1 | ⟨nw, hnw, he2⟩
            · exact hI.2.1 x h1
            · have hm2 : (x, nw.2) ∈ get_active_neighbors g current := by
                rw [← he2]
                exact hnw
              exact ActiveReach.step hreach_cur ⟨nw.2, hm2⟩
          · intro x hxC hxU'
            by_cases hxcur : x = current
            · rw [hxcur]
              refine ⟨hcurNT2, ?_⟩
              intro nw hnw
              by_cases hnwU : nw.1 ∈ U.erase current
              · exact relaxList_covers current (U.erase current) hcurNotU'
                  (get_active_neighbors g current) dist prev hcurNT nw hnw hnwU
              · have hnwC : nw.1 ∈ get_all_cities g :=
                  active_neighbors_mem_cities hc current nw hnw
                by_cases hnwcur : nw.1 = current
                · exact hnwcur ▸ hcurNT2
                · have hnwU2 : nw.1 ∉ U := by
                    intro hmem
                    exact hnwU (List.mem_erase_of_ne hnwcur |>.mpr hmem)
                  exact relaxList_preserves_NotTop current (U.erase current) _ dist prev
                    nw.1 ((hI.2.2.1 nw.1 hnwC hnwU2).1)
            · have hxU : x ∉ U := by
                intro hmem
                exact hxU' ((List.mem_erase_of_ne hxcur).mpr hmem)
              obtain ⟨hx1, hx2⟩ := hI.2.2.1 x hxC hxU
              refine ⟨relaxList_preserves_NotTop current (U.erase current) _ dist prev x hx1,
                fun nw hnw => relaxList_preserves_NotTop current (U.erase current) _ dist prev
                  nw.1 (hx2 nw hnw)⟩
          · intro u hu
            exact hI.2.2.2.1 u (List.mem_of_mem_erase hu)
          · exact relaxList_preserves_NotTop current (U.erase current) _ dist prev s
              hI.2.2.2.2.1
          · exact List.Nodup.erase current hI.2.2.2.2.2

/-- A dijkstra query between two cities reports "no path" exactly when the
target is not reachable along active edges. (When a path exists the code
returns it — or, immaterially for this predicate, Python's reconstruction
would run — so `pathIsNone` is false in every such branch.) -/
theorem pathIsNone_iff (g : EmergencyGraph) (hc : ClosedGraph g)
    (hnd : (get_all_cities g).Nodup) {s e : Nat} (hs : s ∈ get_all_cities g)
    (he : e ∈ get_all_cities g) :
    pathIsNone (dijkstra_shortest_path g s e) = true ↔ ¬ ActiveReach g s e := by
  have hinv : DLoopInv g s (get_all_cities g)
      (dset ((get_all_cities g).foldl (fun d c => dset d c (⊤ : WDist)) []) s 0) := by
    refine ⟨?_, ?_, ?_, fun u hu => hu, ?_, hnd⟩
    · intro c hcC
      rw [dget?_dset]
      by_cases hcs : s = c
      · rw [if_pos hcs]
        rfl
      · rw [if_neg hcs, dget?_foldl_dset_const, if_pos hcC]
        rfl
    · intro x hx
      by_cases hxs : x = s
      · rw [hxs]
        exact ActiveReach.refl s
      · exfalso
        obtain ⟨d, hd, hne⟩ := hx
        rw [dget?_dset, if_neg (fun h => hxs h.symm), dget?_foldl_dset_const] at hd
        by_cases hxC : x ∈ get_all_cities g
        · rw [if_pos hxC] at hd
          exact hne (Option.some.inj hd).symm
        · rw [if_neg hxC] at hd
          cases hd
    · intro x hxC hxU
      exact absurd hxC hxU
    · exact ⟨(0 : WDist), by rw [dget?_dset, if_pos rfl], by simp⟩
  have hmaster := dijkstraLoop_reach g s e hc hs ((get_all_cities g).length + 1)
    (get_all_cities g)
    (dset ((get_all_cities g).foldl (fun d c => dset d c (⊤ : WDist)) []) s 0)
    ((get_all_cities g).foldl (fun p c => dset p c (none : Option Nat)) [])
    (by omega) hinv
  unfold dijkstra_shortest_path
  dsimp only
  cases hD : dget? (dijkstraLoop g e ((get_all_cities g).length + 1) (get_all_cities g)
      (dset ((get_all_cities g).foldl (fun d c => dset d c (⊤ : WDist)) []) s 0)
      ((get_all_cities g).foldl (fun p c => dset p c (none : Option Nat)) [])).1 e with
  | none =>
    have := hmaster.1 e he
    rw [hD] at this
    cases this
  | some d =>
    dsimp only
    by_cases hdt : d = ⊤
    · rw [if_pos hdt]
      simp only [pathIsNone]
      constructor
      · intro _ hr
        obtain ⟨d2, hd2, hne2⟩ := hmaster.2.2 hr he
        rw [hD] at hd2
        exact hne2 (hdt ▸ (Option.some.inj hd2)).symm
      · intro _
        trivial
    · rw [if_neg hdt]
      have hreach : ActiveReach g s e := hmaster.2.1 e ⟨d, hD, hdt⟩
      cases hrec : reconstructPath
          (dijkstraLoop g e ((get_all_cities g).length + 1) (get_all_cities g)
            (dset ((get_all_cities g).foldl (fun d c => dset d c (⊤ : WDist)) []) s 0)
            ((get_all_cities g).foldl (fun p c => dset p c (none : Option Nat)) [])).2
          ((dijkstraLoop g e ((get_all_cities g).length + 1) (get_all_cities g)
            (dset ((get_all_cities g).foldl (fun d c => dset d c (⊤ : WDist)) []) s 0)
            ((get_all_cities g).foldl (fun p c => dset p c (none : Option Nat)) [])).2.length
            + 1) e [] with
      | error u =>
        simp only [pathIsNone]
        constructor
        · intro h
          cases h
        · intro hnr
          exact absurd hreach hnr
      | ok p =>
        simp only [pathIsNone]
        constructor
        · intro h
          cases h
        · intro hnr
          exact absurd hreach hnr

/-! Counting characterisation of the cascade round (C6). -/

theorem countConn_fold (g : EmergencyGraph) (failed : List Nat) (node : Nat) :
    ∀ (l : List Nat) (a b : Nat),
      l.foldl
        (fun st other =>
          if other ∉ failed ∧ other ≠ node then
            if pathIsNone (dijkstra_shortest_path g node other) then (st.1, st.2 + 1)
            else (st.1 + 1, st.2 + 1)
          else st)
        (a, b) =
      (a + l.countP (fun o => decide (o ∉ failed ∧ o ≠ node) &&
          !(pathIsNone (dijkstra_shortest_path g node o))),
       b + l.countP (fun o => decide (o ∉ failed ∧ o ≠ node))) := by
  intro l
  induction l with
  | nil =>
    intro a b
    rw [List.foldl_nil, List.countP_nil, List.countP_nil]
    simp
  | cons o rest ih =>
    intro a b
    rw [List.foldl_cons, List.countP_cons, List.countP_cons]
    by_cases h1 : o ∉ failed ∧ o ≠ node
    · rw [if_pos h1]
      by_cases h2 : pathIsNone (dijkstra_shortest_path g node o)
      · rw [if_pos h2, ih]
        have hpc : (decide (o ∉ failed ∧ o ≠ node) &&
            !(pathIsNone (dijkstra_shortest_path g node o))) = false := by
          rw [h2]
          simp
        have hpt : decide (o ∉ failed ∧ o ≠ node) = true := by
          simp only [decide_eq_true_eq]
          exact h1
        rw [hpc, hpt]
        simp only [Bool.false_eq_true, if_false, if_true, Prod.mk.injEq]
        constructor <;> omega
      · rw [if_neg h2, ih]
        have hpc : (decide (o ∉ failed ∧ o ≠ node) &&
            !(pathIsNone (dijkstra_shortest_path g node o))) = true := by
          rw [Bool.eq_false_iff.mpr h2]
          simp only [Bool.not_false, Bool.and_true, decide_eq_true_eq]
          exact h1
        have hpt : decide (o ∉ failed ∧ o ≠ node) = true := by
          simp only [decide_eq_true_eq]
          exact h1
        rw [hpc, hpt]
        simp only [if_true, Prod.mk.injEq]
        constructor <;> omega
    · rw [if_neg h1, ih]
      have hpt : decide (o ∉ failed ∧ o ≠ node) = false := by
        simp only [decide_eq_false_iff_not]
        exact h1
      rw [hpt]
      simp only [Bool.false_and, Bool.false_eq_true, if_false, Prod.mk.injEq]
      constructor <;> omega

theorem countConn_eq (g : EmergencyGraph) (failed : List Nat) (node : Nat) :
    countConn g failed node =
      ((get_all_cities g).countP (fun o => decide (o ∉ failed ∧ o ≠ node) &&
          !(pathIsNone (dijkstra_shortest_path g node o))),
       (get_all_cities g).countP (fun o => decide (o ∉ failed ∧ o ≠ node))) := by
  unfold countConn
  rw [countConn_fold]
  simp

theorem mem_sadd {α : Type} [DecidableEq α] (s : List α) (x y : α) :
    y ∈ sadd s x ↔ y ∈ s ∨ y = x := by
  unfold sadd
  by_cases h : x ∈ s
  · rw [if_pos h]
    constructor
    · exact Or.inl
    · rintro (h1 | h1)
      · exact h1
      · exact h1 ▸ h
  · rw [if_neg h]
    simp

theorem mem_failedUnion (x : Nat) :
    ∀ (newly failed : List Nat), x ∈ failedUnion failed newly ↔ x ∈ failed ∨ x ∈ newly := by
  intro newly
  induction newly with
  | nil =>
    intro failed
    simp [failedUnion]
  | cons y ys ih =>
    intro failed
    show x ∈ failedUnion (sadd failed y) ys ↔ _
    rw [ih, mem_sadd]
    simp only [List.mem_cons]
    tauto

/-- The loop-body condition under which a node newly fails in one round. -/
def FailCond (g : EmergencyGraph) (failed : List Nat) (node : Nat) : Prop :=
  node ∉ failed ∧ node ∉ g.disabled_nodes ∧ (countConn g failed node).2 > 0 ∧
    ((countConn g failed node).1 : ℚ) / ((countConn g failed node).2 : ℚ) < 3 / 10

theorem cascadeNewlyFailed_fold_mem (g : EmergencyGraph) (failed : List Nat) :
    ∀ (l : List Nat) (acc : List Nat) (x : Nat),
      x ∈ l.foldl
        (fun acc node =>
          if node ∉ failed ∧ node ∉ g.disabled_nodes then
            if (countConn g failed node).2 > 0 ∧
                ((countConn g failed node).1 : ℚ) / ((countConn g failed node).2 : ℚ) < 3 / 10
            then acc ++ [node]
            else acc
          else acc)
        acc ↔ x ∈ acc ∨ (x ∈ l ∧ FailCond g failed x) := by
  intro l
  induction l with
  | nil =>
    intro acc x
    simp
  | cons node rest ih =>
    intro acc x
    rw [List.foldl_cons]
    by_cases h1 : node ∉ failed ∧ node ∉ g.disabled_nodes
    · rw [if_pos h1]
      by_cases h2 : (countConn g failed node).2 > 0 ∧
          ((countConn g failed node).1 : ℚ) / ((countConn g failed node).2 : ℚ) < 3 / 10
      · rw [if_pos h2, ih]
        simp only [List.mem_append, List.mem_cons, List.not_mem_nil, or_false]
        constructor
        · rintro ((h3 | h3) | h3)
          · exact Or.inl h3
          · subst h3
            exact Or.inr ⟨Or.inl rfl, h1.1, h1.2, h2.1, h2.2⟩
          · exact Or.inr ⟨Or.inr h3.1, h3.2⟩
        · rintro (h3 | ⟨h4 | h4, h5⟩)
          · exact Or.inl (Or.inl h3)
          · exact Or.inl (Or.inr h4)
          · exact Or.inr ⟨h4, h5⟩
      · rw [if_neg h2, ih]
        simp only [List.mem_cons]
        constructor
        · rintro (h3 | h3)
          · exact Or.inl h3
          · exact Or.inr ⟨Or.inr h3.1, h3.2⟩
        · rintro (h3 | ⟨h4 | h4, h5⟩)
          · exact Or.inl h3
          · exact absurd ⟨h5.2.2.1, h5.2.2.2⟩ (h4 ▸ h2)
          · exact Or.inr ⟨h4, h5⟩
    · rw [if_neg h1, ih]
      simp only [List.mem_cons]
      constructor
      · rintro (h3 | h3)
        · exact Or.inl h3
        · exact Or.inr ⟨Or.inr h3.1, h3.2⟩
      · rintro (h3 | ⟨h4 | h4, h5⟩)
        · exact Or.inl h3
        · exact absurd ⟨h5.1, h5.2.1⟩ (h4 ▸ h1)
        · exact Or.inr ⟨h4, h5⟩

theorem mem_cascadeNewlyFailed (g : EmergencyGraph) (failed : List Nat) (x : Nat) :
    x ∈ cascadeNewlyFailed g failed ↔
      x ∈ get_all_cities g ∧ FailCond g failed x := by
  unfold cascadeNewlyFailed
  rw [cascadeNewlyFailed_fold_mem]
  simp

theorem cascadeNewlyFailed_eq_nil (g : EmergencyGraph) (failed : List Nat)
    (h : ∀ x ∈ get_all_cities g, ¬ FailCond g failed x) :
    cascadeNewlyFailed g failed = [] := by
  cases hh : cascadeNewlyFailed g failed with
  | nil => rfl
  | cons y ys =>
    have : y ∈ cascadeNewlyFailed g failed := by
      rw [hh]
      exact List.mem_cons_self _ _
    rw [mem_cascadeNewlyFailed] at this
    exact absurd this.2 (h y this.1)

/-- Counting a strict predicate with one designated member excluded: over a
list without duplicates the count drops by exactly one. -/
theorem countP_exclude_one {l : List Nat} (hnd : l.Nodup) {a : Nat} (ha : a ∈ l)
    (p : Nat → Bool) (hpa : p a = true) :
    l.countP (fun x => p x && !(decide (x = a))) + 1 = l.countP p := by
  induction l with
  | nil => exact absurd ha (List.not_mem_nil _)
  | cons y ys ih =>
    rw [List.countP_cons, List.countP_cons]
    rcases List.mem_cons.mp ha with h1 | h1
    · subst h1
      have hya : (p a && !(decide (a = a))) = false := by simp
      rw [hya, hpa]
      have hnotin : a ∉ ys := (List.nodup_cons.mp hnd).1
      have : ys.countP (fun x => p x && !(decide (x = a))) = ys.countP p := by
        refine List.countP_congr ?_
        intro x hx
        have hxy : ¬ (x = a) := fun h => hnotin (h ▸ hx)
        simp [hxy]
      rw [this]
      simp
    · have hyy : y ≠ a := by
        intro h
        exact (List.nodup_cons.mp hnd).1 (h ▸ h1)
      have hstep := ih (List.nodup_cons.mp hnd).2 h1
      by_cases hpy : p y = true
      · have : (p y && !(decide (y = a))) = true := by simp [hpy, hyy]
        rw [this, hpy]
        simp only [if_true]
        omega
      · have hpy2 : p y = false := Bool.eq_false_iff.mpr hpy
        have : (p y && !(decide (y = a))) = false := by simp [hpy2]
        rw [this, hpy2]
        simp only [Bool.false_eq_true, if_false]
        omega

/-- The Python comparison `connected/total < 0.3` over naturals with a
positive denominator (the quotient is exact in ℚ, so binary rounding of 0.3
is immaterial to the monotone argument below). -/
theorem ratio_lt_iff (cc tc : Nat) (htc : 0 < tc) :
    ((cc : ℚ) / (tc : ℚ) < 3 / 10) ↔ 10 * cc < 3 * tc := by
  rw [div_lt_div_iff (by exact_mod_cast htc) (by norm_num : (0:ℚ) < 10)]
  constructor
  · intro h
    have h2 : ((10 * cc : Nat) : ℚ) < ((3 * tc : Nat) : ℚ) := by push_cast; linarith
    exact_mod_cast h2
  · intro h
    have h2 : ((10 * cc : Nat) : ℚ) < ((3 * tc : Nat) : ℚ) := by exact_mod_cast h
    push_cast at h2
    linarith

theorem pathIsNone_false_iff (g : EmergencyGraph) (hc : ClosedGraph g)
    (hnd : (get_all_cities g).Nodup) {s e : Nat} (hs : s ∈ get_all_cities g)
    (he : e ∈ get_all_cities g) :
    pathIsNone (dijkstra_shortest_path g s e) = false ↔ ActiveReach g s e := by
  constructor
  · intro h
    by_contra hr
    rw [(pathIsNone_iff g hc hnd hs he).mpr hr] at h
    cases h
  · intro hr
    cases hb : pathIsNone (dijkstra_shortest_path g s e)
    · rfl
    · exact absurd hr ((pathIsNone_iff g hc hnd hs he).mp hb)

theorem pathIsNone_self_false (g : EmergencyGraph) (hc : ClosedGraph g)
    (hnd : (get_all_cities g).Nodup) {x : Nat} (hx : x ∈ get_all_cities g) :
    pathIsNone (dijkstra_shortest_path g x x) = false :=
  (pathIsNone_false_iff g hc hnd hx hx).mpr (ActiveReach.refl x)

/-- Two mutually reachable surviving nodes see the same connectivity counts:
the totals each exclude only the node itself, and the connected counts each
enumerate the common reachability class minus the node itself. -/
theorem countConn_class_eq (g : EmergencyGraph) (hc : ClosedGraph g)
    (hnd : (get_all_cities g).Nodup) (hsa : SymAdj g) (hsv : SymVuln g)
    (F : List Nat) {x o : Nat} (hx : x ∈ get_all_cities g) (ho : o ∈ get_all_cities g)
    (hxF : x ∉ F) (hoF : o ∉ F) (hr : ActiveReach g x o) :
    countConn g F x = countConn g F o := by
  have hTx := countP_exclude_one hnd hx (fun c => decide (c ∉ F)) (by simp [hxF])
  have hTo := countP_exclude_one hnd ho (fun c => decide (c ∉ F)) (by simp [hoF])
  have hTx' : (get_all_cities g).countP (fun c => decide (c ∉ F) && !(decide (c = x))) + 1 =
      (get_all_cities g).countP (fun c => decide (c ∉ F)) := hTx
  have hTo' : (get_all_cities g).countP (fun c => decide (c ∉ F) && !(decide (c = o))) + 1 =
      (get_all_cities g).countP (fun c => decide (c ∉ F)) := hTo
  have eTx : (get_all_cities g).countP (fun c => decide (c ∉ F ∧ c ≠ x)) =
      (get_all_cities g).countP (fun c => decide (c ∉ F) && !(decide (c = x))) := by
    refine List.countP_congr ?_
    intro c _
    simp only [decide_eq_true_eq, Bool.and_eq_true, Bool.not_eq_true',
      decide_eq_false_iff_not, ne_eq]
  have eTo : (get_all_cities g).countP (fun c => decide (c ∉ F ∧ c ≠ o)) =
      (get_all_cities g).countP (fun c => decide (c ∉ F) && !(decide (c = o))) := by
    refine List.countP_congr ?_
    intro c _
    simp only [decide_eq_true_eq, Bool.and_eq_true, Bool.not_eq_true',
      decide_eq_false_iff_not, ne_eq]
  have hqx : (decide (x ∉ F) && !(pathIsNone (dijkstra_shortest_path g x x))) = true := by
    rw [pathIsNone_self_false g hc hnd hx]
    simp [hxF]
  have hqo : (decide (o ∉ F) && !(pathIsNone (dijkstra_shortest_path g o o))) = true := by
    rw [pathIsNone_self_false g hc hnd ho]
    simp [hoF]
  have hCx := countP_exclude_one hnd hx
    (fun c => decide (c ∉ F) && !(pathIsNone (dijkstra_shortest_path g x c))) hqx
  have hCo := countP_exclude_one hnd ho
    (fun c => decide (c ∉ F) && !(pathIsNone (dijkstra_shortest_path g o c))) hqo
  have hCx' : (get_all_cities g).countP (fun c => (decide (c ∉ F) &&
      !(pathIsNone (dijkstra_shortest_path g x c))) && !(decide (c = x))) + 1 =
      (get_all_cities g).countP (fun c => decide (c ∉ F) &&
        !(pathIsNone (dijkstra_shortest_path g x c))) := hCx
  have hCo' : (get_all_cities g).countP (fun c => (decide (c ∉ F) &&
      !(pathIsNone (dijkstra_shortest_path g o c))) && !(decide (c = o))) + 1 =
      (get_all_cities g).countP (fun c => decide (c ∉ F) &&
        !(pathIsNone (dijkstra_shortest_path g o c))) := hCo
  have eCx : (get_all_cities g).countP (fun c => decide (c ∉ F ∧ c ≠ x) &&
      !(pathIsNone (dijkstra_shortest_path g x c))) =
      (get_all_cities g).countP (fun c => (decide (c ∉ F) &&
        !(pathIsNone (dijkstra_shortest_path g x c))) && !(decide (c = x))) := by
    refine List.countP_congr ?_
    intro c _
    simp only [decide_eq_true_eq, Bool.and_eq_true, Bool.not_eq_true',
      decide_eq_false_iff_not, ne_eq]
    tauto
  have eCo : (get_all_cities g).countP (fun c => decide (c ∉ F ∧ c ≠ o) &&
      !(pathIsNone (dijkstra_shortest_path g o c))) =
      (get_all_cities g).countP (fun c => (decide (c ∉ F) &&
        !(pathIsNone (dijkstra_shortest_path g o c))) && !(decide (c = o))) := by
    refine List.countP_congr ?_
    intro c _
    simp only [decide_eq_true_eq, Bool.and_eq_true, Bool.not_eq_true',
      decide_eq_false_iff_not, ne_eq]
    tauto
  have e3 : (get_all_cities g).countP (fun c => decide (c ∉ F) &&
      !(pathIsNone (dijkstra_shortest_path g x c))) =
      (get_all_cities g).countP (fun c => decide (c ∉ F) &&
        !(pathIsNone (dijkstra_shortest_path g o c))) := by
    refine List.countP_congr ?_
    intro c hcC
    have hx_c : pathIsNone (dijkstra_shortest_path g x c) = false ↔ ActiveReach g x c :=
      pathIsNone_false_iff g hc hnd hx hcC
    have ho_c : pathIsNone (dijkstra_shortest_path g o c) = false ↔ ActiveReach g o c :=
      pathIsNone_false_iff g hc hnd ho hcC
    have hreq : ActiveReach g x c ↔ ActiveReach g o c := by
      constructor
      · intro h
        exact activeReach_trans (activeReach_symm hsa hsv hr) h
      · intro h
        exact activeReach_trans hr h
    simp only [Bool.and_eq_true, Bool.not_eq_true', decide_eq_true_eq]
    tauto
  rw [countConn_eq, countConn_eq]
  have h1 : (get_all_cities g).countP (fun c => decide (c ∉ F ∧ c ≠ x) &&
      !(pathIsNone (dijkstra_shortest_path g x c))) =
      (get_all_cities g).countP (fun c => decide (c ∉ F ∧ c ≠ o) &&
        !(pathIsNone (dijkstra_shortest_path g o c))) := by omega
  have h2 : (get_all_cities g).countP (fun c => decide (c ∉ F ∧ c ≠ x)) =
      (get_all_cities g).countP (fun c => decide (c ∉ F ∧ c ≠ o)) := by omega
  rw [h1, h2]

/-- After one cascade round the failed set is saturated: the reachability
relation is never re-evaluated against a changed graph (failed nodes are not
disabled), each connectivity class either fails wholesale or survives
wholesale, and for survivors the connected count is untouched while the
total shrinks, so no survivor's ratio can drop below the threshold. -/
theorem cascade_second_round_empty (g : EmergencyGraph) (hc : ClosedGraph g)
    (hnd : (get_all_cities g).Nodup) (hsa : SymAdj g) (hsv : SymVuln g)
    (F : List Nat) :
    cascadeNewlyFailed g (failedUnion F (cascadeNewlyFailed g F)) = [] := by
  refine cascadeNewlyFailed_eq_nil g (failedUnion F (cascadeNewlyFailed g F)) ?_
  intro x hxC hFC
  obtain ⟨hxF', hxD, htc', hrat'⟩ := hFC
  rw [mem_failedUnion] at hxF'
  push_neg at hxF'
  obtain ⟨hxF, hxN⟩ := hxF'
  have hnotFC : ¬ FailCond g F x := fun hf =>
    hxN ((mem_cascadeNewlyFailed g F x).mpr ⟨hxC, hf⟩)
  have hnot : ¬ ((countConn g F x).2 > 0 ∧
      ((countConn g F x).1 : ℚ) / ((countConn g F x).2 : ℚ) < 3 / 10) := by
    intro hcon
    exact hnotFC ⟨hxF, hxD, hcon.1, hcon.2⟩
  by_cases hB : ∃ o ∈ cascadeNewlyFailed g F,
      pathIsNone (dijkstra_shortest_path g x o) = false
  · obtain ⟨o, hoN, hpo⟩ := hB
    obtain ⟨hoC, hoFC⟩ := (mem_cascadeNewlyFailed g F o).mp hoN
    have hreach : ActiveReach g x o := (pathIsNone_false_iff g hc hnd hxC hoC).mp hpo
    have hEq := countConn_class_eq g hc hnd hsa hsv F hxC hoC hxF hoFC.1 hreach
    refine hnot ?_
    rw [hEq]
    exact ⟨hoFC.2.2.1, hoFC.2.2.2⟩
  · push_neg at hB
    rw [countConn_eq g (failedUnion F (cascadeNewlyFailed g F)) x] at htc' hrat'
    rw [countConn_eq g F x] at hnot
    dsimp only at htc' hrat' hnot
    have hccEq : (get_all_cities g).countP
        (fun c => decide (c ∉ failedUnion F (cascadeNewlyFailed g F) ∧ c ≠ x) &&
          !(pathIsNone (dijkstra_shortest_path g x c))) =
        (get_all_cities g).countP (fun c => decide (c ∉ F ∧ c ≠ x) &&
          !(pathIsNone (dijkstra_shortest_path g x c))) := by
      refine List.countP_congr ?_
      intro c _
      cases hpc : pathIsNone (dijkstra_shortest_path g x c) with
      | true =>
        simp only [hpc, Bool.not_true, Bool.and_false]
      | false =>
        have hcN : c ∉ cascadeNewlyFailed g F := fun hcN => hB c hcN hpc
        have hFiff : c ∉ failedUnion F (cascadeNewlyFailed g F) ↔ c ∉ F := by
          rw [mem_failedUnion]
          tauto
        simp only [hpc, Bool.not_false, Bool.and_true, decide_eq_true_eq]
        tauto
    have htcLe : (get_all_cities g).countP
        (fun c => decide (c ∉ failedUnion F (cascadeNewlyFailed g F) ∧ c ≠ x)) ≤
        (get_all_cities g).countP (fun c => decide (c ∉ F ∧ c ≠ x)) := by
      refine List.countP_mono_left ?_
      intro c _ hp
      simp only [decide_eq_true_eq] at hp ⊢
      rw [mem_failedUnion] at hp
      exact ⟨fun hcF => hp.1 (Or.inl hcF), hp.2⟩
    have htc : 0 < (get_all_cities g).countP (fun c => decide (c ∉ F ∧ c ≠ x)) :=
      lt_of_lt_of_le htc' htcLe
    have hge : 3 * (get_all_cities g).countP (fun c => decide (c ∉ F ∧ c ≠ x)) ≤
        10 * (get_all_cities g).countP (fun c => decide (c ∉ F ∧ c ≠ x) &&
          !(pathIsNone (dijkstra_shortest_path g x c))) := by
      by_contra hlt
      push_neg at hlt
      exact hnot ⟨htc, (ratio_lt_iff _ _ htc).mpr (by omega)⟩
    have hlt' := (ratio_lt_iff _ _ htc').mp hrat'
    rw [hccEq] at hlt'
    omega

theorem cascadeLoop_succ (g : EmergencyGraph) (fuel phase : Nat) (failed : List Nat)
    (phases : List (Nat × List Nat × List Nat)) :
    cascadeLoop g (fuel + 1) phase failed phases =
      if cascadeNewlyFailed g failed = [] then (phases, failed)
      else
        if phase + 1 > 10 then
          (phases ++ [(phase + 1, cascadeNewlyFailed g failed,
            failedUnion failed (cascadeNewlyFailed g failed))],
           failedUnion failed (cascadeNewlyFailed g failed))
        else
          cascadeLoop g fuel (phase + 1)
            (failedUnion failed (cascadeNewlyFailed g failed))
            (phases ++ [(phase + 1, cascadeNewlyFailed g failed,
              failedUnion failed (cascadeNewlyFailed g failed))]) := rfl

/-- C6: for every graph whose stored adjacency and vulnerable-edge sets are
symmetric, whose adjacency keys are closed under neighbour references and
duplicate-free (all invariants of graphs built through the public mutation
operations), and for every seed list, `simulate_cascade_failure` terminates
and records at most 10 failure-propagation phases. (In fact at most one: the
analysis graph is never mutated during the cascade, so a second round can
add no nodes.) -/
theorem c6_cascade_at_most_ten_phases (g : EmergencyGraph) (seeds : List Nat)
    (hc : ClosedGraph g) (hnd : (get_all_cities g).Nodup)
    (hsa : SymAdj g) (hsv : SymVuln g) :
    (simulate_cascade_failure g seeds).phases.length ≤ 10 := by
  show (cascadeLoop g 12 0 seeds []).1.length ≤ 10
  rw [show (12 : Nat) = 11 + 1 from rfl, cascadeLoop_succ]
  by_cases h1 : cascadeNewlyFailed g seeds = []
  · rw [if_pos h1]
    simp
  · rw [if_neg h1, if_neg (by omega : ¬ (0 + 1 > 10))]
    rw [show (11 : Nat) = 10 + 1 from rfl, cascadeLoop_succ]
    rw [if_pos (cascade_second_round_empty g hc hnd hsa hsv seeds)]
    simp

def cascadeWitnessGraph : EmergencyGraph := add_road egEmpty 0 1 5

theorem c6_cascade_at_most_ten_phases_witness :
    ClosedGraph cascadeWitnessGraph ∧ (get_all_cities cascadeWitnessGraph).Nodup ∧
    SymAdj cascadeWitnessGraph ∧ SymVuln cascadeWitnessGraph ∧
    (simulate_cascade_failure cascadeWitnessGraph [0]).phases.length ≤ 10 :=
  ⟨by decide, by decide, by decide, by decide,
   c6_cascade_at_most_ten_phases cascadeWitnessGraph [0] (by decide) (by decide)
     (by decide) (by decide)⟩

/-!
Shallow embedding of `graph/mst.py`. The union-find `parent` and `rank`
dicts become association lists; the unbounded Python recursion in `find` is
given explicit fuel (`none` models a RecursionError or KeyError, neither of
which occurs on the states reachable from `kruskal_mst`'s initialisation).
-/

/-- `mst.find` with path compression: returns the updated parent dict and
the root. -/
def find : Nat → List (Nat × Nat) → Nat → Option (List (Nat × Nat) × Nat)
  | 0, _, _ => none
  | fuel + 1, parent, city =>
    match dget? parent city with
    | none => none
    | some p =>
      if p ≠ city then
        match find fuel parent p with
        | none => none
        | some (parent2, root) => some (dset parent2 city root, root)
      else some (parent, city)

/-- `mst.union` (union by rank): returns the updated parent and rank dicts. -/
def union (fuel : Nat) (parent rank : List (Nat × Nat)) (city1 city2 : Nat) :
    Option (List (Nat × Nat) × List (Nat × Nat)) :=
  match find fuel parent city1 with
  | none => none
  | some (p1, root1) =>
    match find fuel p1 city2 with
    | none => none
    | some (p2, root2) =>
      if root1 ≠ root2 then
        match dget? rank root1, dget? rank root2 with
        | some r1, some r2 =>
          if r1 < r2 then some (dset p2 root1 root2, rank)
          else if r1 > r2 then some (dset p2 root2 root1, rank)
          else some (dset p2 root2 root1, dset rank root1 (r1 + 1))
        | _, _ => none
      else some (p2, rank)

/-- Python's stable `edges.sort(key=weight)`, modelled by a stable
insertion sort: ties keep their original relative order. -/
def insertSorted (e : Nat × Nat × Int) :
    List (Nat × Nat × Int) → List (Nat × Nat × Int)
  | [] => [e]
  | f :: rest => if f.2.2 < e.2.2 then f :: insertSorted e rest else e :: f :: rest

/-- Sort an edge list by weight (stable). -/
def sortByWeight (l : List (Nat × Nat × Int)) : List (Nat × Nat × Int) :=
  l.foldr insertSorted []

/-- The edge loop of `kruskal_mst`. -/
def kruskalLoop (fuel : Nat) :
    List (Nat × Nat × Int) → List (Nat × Nat) → List (Nat × Nat) →
    List (Nat × Nat × Int) → Int → Option (List (Nat × Nat × Int) × Int)
  | [], _, _, mst, total => some (mst, total)
  | e :: rest, parent, rank, mst, total =>
    match find fuel parent e.1 with
    | none => none
    | some (p1, r1) =>
      match find fuel p1 e.2.1 with
      | none => none
      | some (p2, r2) =>
        if r1 ≠ r2 then
          match union fuel p2 rank e.1 e.2.1 with
          | none => none
          | some (p3, rank2) =>
            kruskalLoop fuel rest p3 rank2 (mst ++ [e]) (total + e.2.2)
        else kruskalLoop fuel rest p2 rank mst total

/-- `mst.kruskal_mst`. -/
def kruskal_mst (g : EmergencyGraph) : Option (List (Nat × Nat × Int) × Int) :=
  let cities := get_all_cities g
  let parent := cities.foldl (fun d c => dset d c c) []
  let rank := cities.foldl (fun d c => dset d c 0) []
  let edges := sortByWeight (get_all_edges g)
  kruskalLoop (cities.length + 1) edges parent rank [] 0

/-! Edge-list provenance: every reported edge is a stored arc. -/

theorem gaeInner_mem (P : Nat × Nat × Int → Prop) (city : Nat) :
    ∀ (l : List (Nat × Int)) (st : List (Nat × Nat × Int) × List (Nat × Nat)),
      (∀ e ∈ st.1, P e) → (∀ nw ∈ l, P (city, nw.1, nw.2)) →
      ∀ e ∈ (gaeInner city l st).1, P e := by
  intro l
  induction l with
  | nil =>
    intro st h _ e he
    exact h e he
  | cons nw rest ih =>
    intro st h hl e he
    unfold gaeInner at he
    by_cases hseen : (nw.1, city) ∈ st.2
    · rw [if_pos hseen] at he
      exact ih st h (fun a ha => hl a (List.mem_cons_of_mem _ ha)) e he
    · rw [if_neg hseen] at he
      refine ih _ ?_ (fun a ha => hl a (List.mem_cons_of_mem _ ha)) e he
      intro e2 he2
      rcases List.mem_append.mp he2 with h1 | h1
      · exact h e2 h1
      · simp only [List.mem_singleton] at h1
        subst h1
        exact hl nw (List.mem_cons_self _ _)

theorem gaeOuter_mem (P : Nat × Nat × Int → Prop) :
    ∀ (d : List (Nat × List (Nat × Int))) (st : List (Nat × Nat × Int) × List (Nat × Nat)),
      (∀ e ∈ st.1, P e) → (∀ a ∈ d, ∀ nw ∈ a.2, P (a.1, nw.1, nw.2)) →
      ∀ e ∈ (gaeOuter d st).1, P e := by
  intro d
  induction d with
  | nil =>
    intro st h _ e he
    exact h e he
  | cons a rest ih =>
    intro st h hd e he
    unfold gaeOuter at he
    refine ih _ ?_ (fun b hb => hd b (List.mem_cons_of_mem _ hb)) e he
    exact gaeInner_mem P a.1 a.2 st h (fun nw hnw => hd a (List.mem_cons_self _ _) nw hnw)

/-- Under the key-closure invariant, every reported edge has both endpoints
in the city list. -/
theorem get_all_edges_endpoints {g : EmergencyGraph} (hc : ClosedGraph g) :
    ∀ e ∈ get_all_edges g, e.1 ∈ get_all_cities g ∧ e.2.1 ∈ get_all_cities g := by
  refine gaeOuter_mem _ g.graph ([], []) (by simp) ?_
  intro a ha nw hnw
  constructor
  · exact List.mem_map.mpr ⟨a, ha, rfl⟩
  · exact hc a ha nw hnw

/-!
Undirected connectivity generated by an edge list, and a reference
component count (each component is counted at its smallest member). These
formalise the spec's "connected components of the stored graph" and the
notion of spanning forest.
-/

/-- Connectivity generated by an edge list, each entry usable in both
directions. -/
inductive ConnBy (S : List (Nat × Nat × Int)) : Nat → Nat → Prop where
  | refl (x : Nat) : ConnBy S x x
  | fwd {x y z : Nat} {w : Int} : ConnBy S x y → (y, z, w) ∈ S → ConnBy S x z
  | bwd {x y z : Nat} {w : Int} : ConnBy S x y → (z, y, w) ∈ S → ConnBy S x z

theorem connBy_trans {S : List (Nat × Nat × Int)} {a b c : Nat}
    (h1 : ConnBy S a b) (h2 : ConnBy S b c) : ConnBy S a c := by
  induction h2 with
  | refl => exact h1
  | fwd hxy he ih => exact ConnBy.fwd ih he
  | bwd hxy he ih => exact ConnBy.bwd ih he

theorem connBy_symm {S : List (Nat × Nat × Int)} {a b : Nat}
    (h : ConnBy S a b) : ConnBy S b a := by
  induction h with
  | refl => exact ConnBy.refl _
  | @fwd y z w hxy he ih =>
    exact connBy_trans (ConnBy.bwd (ConnBy.refl z) he) ih
  | @bwd y z w hxy he ih =>
    exact connBy_trans (ConnBy.fwd (ConnBy.refl z) he) ih

theorem connBy_mono {S T : List (Nat × Nat × Int)} (hsub : ∀ e ∈ S, e ∈ T)
    {a b : Nat} (h : ConnBy S a b) : ConnBy T a b := by
  induction h with
  | refl => exact ConnBy.refl _
  | fwd hxy he ih => exact ConnBy.fwd ih (hsub _ he)
  | bwd hxy he ih => exact ConnBy.bwd ih (hsub _ he)

theorem connBy_edge {S : List (Nat × Nat × Int)} {a b : Nat} {w : Int}
    (h : (a, b, w) ∈ S) : ConnBy S a b :=
  ConnBy.fwd (ConnBy.refl a) h

theorem connBy_nil {a b : Nat} (h : ConnBy [] a b) : a = b := by
  induction h with
  | refl => rfl
  | fwd hxy he ih => exact absurd he (List.not_mem_nil _)
  | bwd hxy he ih => exact absurd he (List.not_mem_nil _)

theorem connBy_perm {S T : List (Nat × Nat × Int)} (hp : S.Perm T) {a b : Nat} :
    ConnBy S a b ↔ ConnBy T a b :=
  ⟨connBy_mono (fun e he => (hp.mem_iff).mp he),
   connBy_mono (fun e he => (hp.mem_iff).mpr he)⟩

/-- Extending an edge list by one edge: the new connectivity either held
already or routes through the new edge. -/
theorem connBy_append_single {S : List (Nat × Nat × Int)} {a b : Nat} {w : Int}
    {x y : Nat} :
    ConnBy (S ++ [(a, b, w)]) x y ↔
      ConnBy S x y ∨ (ConnBy S x a ∧ ConnBy S b y) ∨ (ConnBy S x b ∧ ConnBy S a y) := by
  constructor
  · intro h
    induction h with
    | refl => exact Or.inl (ConnBy.refl _)
    | @fwd y' z' w' hxy he ih =>
      rcases List.mem_append.mp he with h1 | h1
      · rcases ih with h2 | ⟨h2, h3⟩ | ⟨h2, h3⟩
        · exact Or.inl (ConnBy.fwd h2 h1)
        · exact Or.inr (Or.inl ⟨h2, ConnBy.fwd h3 h1⟩)
        · exact Or.inr (Or.inr ⟨h2, ConnBy.fwd h3 h1⟩)
      · simp only [List.mem_singleton, Prod.mk.injEq] at h1
        obtain ⟨hya, hzb, -⟩ := h1
        subst hya
        subst hzb
        rcases ih with h2 | ⟨h2, h3⟩ | ⟨h2, h3⟩
        · exact Or.inr (Or.inl ⟨h2, ConnBy.refl _⟩)
        · exact Or.inr (Or.inl ⟨h2, ConnBy.refl _⟩)
        · exact Or.inl h2
    | @bwd y' z' w' hxy he ih =>
      rcases List.mem_append.mp he with h1 | h1
      · rcases ih with h2 | ⟨h2, h3⟩ | ⟨h2, h3⟩
        · exact Or.inl (ConnBy.bwd h2 h1)
        · exact Or.inr (Or.inl ⟨h2, ConnBy.bwd h3 h1⟩)
        · exact Or.inr (Or.inr ⟨h2, ConnBy.bwd h3 h1⟩)
      · simp only [List.mem_singleton, Prod.mk.injEq] at h1
        obtain ⟨hza, hyb, -⟩ := h1
        subst hza
        subst hyb
        rcases ih with h2 | ⟨h2, h3⟩ | ⟨h2, h3⟩
        · exact Or.inr (Or.inr ⟨h2, ConnBy.refl _⟩)
        · exact Or.inl h2
        · exact Or.inr (Or.inr ⟨h2, ConnBy.refl _⟩)
  · have hmono : ∀ u v : Nat, ConnBy S u v → ConnBy (S ++ [(a, b, w)]) u v :=
      fun u v => connBy_mono (fun e he => List.mem_append_left _ he)
    have hedge : ConnBy (S ++ [(a, b, w)]) a b :=
      connBy_edge (List.mem_append_right _ (List.mem_singleton.mpr rfl))
    rintro (h | ⟨h1, h2⟩ | ⟨h1, h2⟩)
    · exact hmono _ _ h
    · exact connBy_trans (connBy_trans (hmono _ _ h1) hedge) (hmono _ _ h2)
    · exact connBy_trans (connBy_trans (hmono _ _ h1) (connBy_symm hedge)) (hmono _ _ h2)

/-- Adding an edge between already-connected endpoints changes nothing. -/
theorem connBy_append_redundant {S : List (Nat × Nat × Int)} {a b : Nat} {w : Int}
    (hab : ConnBy S a b) {x y : Nat} :
    ConnBy (S ++ [(a, b, w)]) x y ↔ ConnBy S x y := by
  rw [connBy_append_single]
  constructor
  · rintro (h | ⟨h1, h2⟩ | ⟨h1, h2⟩)
    · exact h
    · exact connBy_trans (connBy_trans h1 hab) h2
    · exact connBy_trans (connBy_trans h1 (connBy_symm hab)) h2
  · exact Or.inl

/-! An executable decision procedure for `ConnBy`, by saturating a
neighbour closure. -/

/-- Undirected neighbours of `c` in the edge list. -/
def nbrsOf (S : List (Nat × Nat × Int)) (c : Nat) : List Nat :=
  (S.filter (fun e => e.1 = c)).map (fun e => e.2.1) ++
    (S.filter (fun e => e.2.1 = c)).map (fun e => e.1)

theorem mem_nbrsOf {S : List (Nat × Nat × Int)} {c x : Nat} :
    x ∈ nbrsOf S c ↔ ∃ w, (c, x, w) ∈ S ∨ (x, c, w) ∈ S := by
  unfold nbrsOf
  rw [List.mem_append]
  constructor
  · rintro (h | h)
    · obtain ⟨e, he, hx⟩ := List.mem_map.mp h
      have he2 := List.mem_filter.mp he
      refine ⟨e.2.2, Or.inl ?_⟩
      have h1 : e.1 = c := by simpa using he2.2
      have heq : (c, x, e.2.2) = e := by rw [← h1, ← hx]
      rw [heq]
      exact he2.1
    · obtain ⟨e, he, hx⟩ := List.mem_map.mp h
      have he2 := List.mem_filter.mp he
      refine ⟨e.2.2, Or.inr ?_⟩
      have h1 : e.2.1 = c := by simpa using he2.2
      have heq : (x, c, e.2.2) = e := by rw [← h1, ← hx]
      rw [heq]
      exact he2.1
  · rintro ⟨w, h | h⟩
    · exact Or.inl (List.mem_map.mpr ⟨(c, x, w), List.mem_filter.mpr ⟨h, by simp⟩, rfl⟩)
    · exact Or.inr (List.mem_map.mpr ⟨(x, c, w), List.mem_filter.mpr ⟨h, by simp⟩, rfl⟩)

theorem mem_foldl_sadd (l : List Nat) :
    ∀ (acc : List Nat) (x : Nat), x ∈ l.foldl sadd acc ↔ x ∈ acc ∨ x ∈ l := by
  induction l with
  | nil =>
    intro acc x
    simp
  | cons y ys ih =>
    intro acc x
    rw [List.foldl_cons, ih, mem_sadd]
    simp only [List.mem_cons]
    tauto

theorem nodup_sadd {s : List Nat} (h : s.Nodup) (x : Nat) : (sadd s x).Nodup := by
  unfold sadd
  by_cases hx : x ∈ s
  · rw [if_pos hx]
    exact h
  · rw [if_neg hx]
    simp [List.nodup_append, h, hx]

theorem nodup_foldl_sadd (l : List Nat) :
    ∀ (acc : List Nat), acc.Nodup → (l.foldl sadd acc).Nodup := by
  induction l with
  | nil => exact fun acc h => h
  | cons y ys ih => exact fun acc h => ih _ (nodup_sadd h y)

theorem foldl_sadd_append (l : List Nat) :
    ∀ (acc : List Nat), ∃ t, l.foldl sadd acc = acc ++ t := by
  induction l with
  | nil => exact fun acc => ⟨[], by simp⟩
  | cons y ys ih =>
    intro acc
    rw [List.foldl_cons]
    by_cases hy : y ∈ acc
    · have hs : sadd acc y = acc := by unfold sadd; rw [if_pos hy]
      rw [hs]
      exact ih acc
    · have hs : sadd acc y = acc ++ [y] := by unfold sadd; rw [if_neg hy]
      rw [hs]
      obtain ⟨t, ht⟩ := ih (acc ++ [y])
      exact ⟨[y] ++ t, by rw [ht, List.append_assoc]⟩

/-- One saturation round: add every neighbour of every current member. -/
def closureStep (S : List (Nat × Nat × Int)) (s : List Nat) : List Nat :=
  s.foldl (fun acc c => (nbrsOf S c).foldl sadd acc) s

theorem closureStep_fold_mem (S : List (Nat × Nat × Int)) :
    ∀ (l acc : List Nat) (x : Nat),
      x ∈ l.foldl (fun acc c => (nbrsOf S c).foldl sadd acc) acc ↔
        x ∈ acc ∨ ∃ c ∈ l, x ∈ nbrsOf S c := by
  intro l
  induction l with
  | nil =>
    intro acc x
    simp
  | cons y ys ih =>
    intro acc x
    rw [List.foldl_cons, ih, mem_foldl_sadd]
    simp only [List.mem_cons]
    constructor
    · rintro ((h | h) | ⟨c, hc, hx⟩)
      · exact Or.inl h
      · exact Or.inr ⟨y, Or.inl rfl, h⟩
      · exact Or.inr ⟨c, Or.inr hc, hx⟩
    · rintro (h | ⟨c, hc | hc, hx⟩)
      · exact Or.inl (Or.inl h)
      · exact Or.inl (Or.inr (hc ▸ hx))
      · exact Or.inr ⟨c, hc, hx⟩

theorem mem_closureStep {S : List (Nat × Nat × Int)} {s : List Nat} {x : Nat} :
    x ∈ closureStep S s ↔ x ∈ s ∨ ∃ c ∈ s, x ∈ nbrsOf S c :=
  closureStep_fold_mem S s s x

theorem closureStep_fold_nodup (S : List (Nat × Nat × Int)) :
    ∀ (l acc : List Nat), acc.Nodup →
      (l.foldl (fun acc c => (nbrsOf S c).foldl sadd acc) acc).Nodup := by
  intro l
  induction l with
  | nil => exact fun acc h => h
  | cons y ys ih => exact fun acc h => ih _ (nodup_foldl_sadd _ _ h)

theorem closureStep_fold_append (S : List (Nat × Nat × Int)) :
    ∀ (l acc : List Nat), ∃ t, l.foldl (fun acc c => (nbrsOf S c).foldl sadd acc) acc = acc ++ t := by
  intro l
  induction l with
  | nil => exact fun acc => ⟨[], by simp⟩
  | cons y ys ih =>
    intro acc
    rw [List.foldl_cons]
    obtain ⟨t1, ht1⟩ := foldl_sadd_append (nbrsOf S y) acc
    obtain ⟨t2, ht2⟩ := ih ((nbrsOf S y).foldl sadd acc)
    exact ⟨t1 ++ t2, by rw [ht2, ht1, List.append_assoc]⟩

theorem closureStep_append (S : List (Nat × Nat × Int)) (s : List Nat) :
    ∃ t, closureStep S s = s ++ t :=
  closureStep_fold_append S s s

/-- Iterated saturation. -/
def closureIter (S : List (Nat × Nat × Int)) : Nat → List Nat → List Nat
  | 0, s => s
  | n + 1, s => closureIter S n (closureStep S s)

/-- Decision procedure for `ConnBy`. -/
def reachBool (S : List (Nat × Nat × Int)) (a b : Nat) : Bool :=
  decide (b ∈ closureIter S (2 * S.length + 2) [a])

theorem closureIter_of_fix {S : List (Nat × Nat × Int)} {s : List Nat}
    (hfix : closureStep S s = s) : ∀ n, closureIter S n s = s := by
  intro n
  induction n with
  | zero => rfl
  | succ n ih =>
    show closureIter S n (closureStep S s) = s
    rw [hfix]
    exact ih

theorem closureIter_fix_or_grow (S : List (Nat × Nat × Int)) :
    ∀ (n : Nat) (s : List Nat),
      closureStep S (closureIter S n s) = closureIter S n s ∨
        s.length + n ≤ (closureIter S n s).length := by
  intro n
  induction n with
  | zero =>
    intro s
    exact Or.inr (by simp [closureIter])
  | succ n ih =>
    intro s
    by_cases hfix : closureStep S s = s
    · have h1 : closureIter S (n + 1) s = s := by
        show closureIter S n (closureStep S s) = s
        rw [hfix]
        exact closureIter_of_fix hfix n
      rw [h1]
      exact Or.inl hfix
    · obtain ⟨t, ht⟩ := closureStep_append S s
      have htne : t ≠ [] := by
        intro h
        rw [h, List.append_nil] at ht
        exact hfix ht
      have hlen : s.length + 1 ≤ (closureStep S s).length := by
        rw [ht, List.length_append]
        have : 0 < t.length := List.length_pos.mpr htne
        omega
      rcases ih (closureStep S s) with h | h
      · exact Or.inl h
      · refine Or.inr ?_
        show s.length + (n + 1) ≤ (closureIter S n (closureStep S s)).length
        omega

/-- All node ids mentioned by an edge list. -/
def nodesList (S : List (Nat × Nat × Int)) : List Nat :=
  S.map (fun e => e.1) ++ S.map (fun e => e.2.1)

theorem mem_nbrsOf_nodes {S : List (Nat × Nat × Int)} {c x : Nat}
    (h : x ∈ nbrsOf S c) : x ∈ nodesList S := by
  rw [mem_nbrsOf] at h
  obtain ⟨w, h | h⟩ := h
  · exact List.mem_append_right _ (List.mem_map.mpr ⟨(c, x, w), h, rfl⟩)
  · exact List.mem_append_left _ (List.mem_map.mpr ⟨(x, c, w), h, rfl⟩)

theorem closureIter_subset (S : List (Nat × Nat × Int)) :
    ∀ (n : Nat) (s : List Nat) (x : Nat),
      x ∈ closureIter S n s → x ∈ s ∨ x ∈ nodesList S := by
  intro n
  induction n with
  | zero => exact fun s x h => Or.inl h
  | succ n ih =>
    intro s x h
    rcases ih (closureStep S s) x h with h1 | h1
    · rcases mem_closureStep.mp h1 with h2 | ⟨c, _, h3⟩
      · exact Or.inl h2
      · exact Or.inr (mem_nbrsOf_nodes h3)
    · exact Or.inr h1

theorem closureIter_nodup (S : List (Nat × Nat × Int)) :
    ∀ (n : Nat) (s : List Nat), s.Nodup → (closureIter S n s).Nodup := by
  intro n
  induction n with
  | zero => exact fun s h => h
  | succ n ih => exact fun s h => ih _ (closureStep_fold_nodup S s s h)

theorem closureIter_start (S : List (Nat × Nat × Int)) :
    ∀ (n : Nat) (s : List Nat) (x : Nat), x ∈ s → x ∈ closureIter S n s := by
  intro n
  induction n with
  | zero => exact fun s x h => h
  | succ n ih => exact fun s x h => ih _ x (mem_closureStep.mpr (Or.inl h))

theorem closure_saturated (S : List (Nat × Nat × Int)) (a : Nat) :
    closureStep S (closureIter S (2 * S.length + 2) [a]) =
      closureIter S (2 * S.length + 2) [a] := by
  rcases closureIter_fix_or_grow S (2 * S.length + 2) [a] with h | h
  · exact h
  · exfalso
    have hsub : closureIter S (2 * S.length + 2) [a] ⊆ a :: nodesList S := by
      intro x hx
      rcases closureIter_subset S _ [a] x hx with h1 | h1
      · simp only [List.mem_singleton] at h1
        exact h1 ▸ List.mem_cons_self _ _
      · exact List.mem_cons_of_mem _ h1
    have hnd : (closureIter S (2 * S.length + 2) [a]).Nodup :=
      closureIter_nodup S _ [a] (by simp)
    have hle := (hnd.subperm hsub).length_le
    have hlen : (a :: nodesList S).length = 2 * S.length + 1 := by
      simp [nodesList]
      omega
    simp only [List.length_singleton] at h
    omega

theorem closureIter_sound (S : List (Nat × Nat × Int)) (a : Nat) :
    ∀ (n : Nat) (s : List Nat), (∀ x ∈ s, ConnBy S a x) →
      ∀ x ∈ closureIter S n s, ConnBy S a x := by
  intro n
  induction n with
  | zero => exact fun s h => h
  | succ n ih =>
    intro s h
    refine ih _ ?_
    intro x hx
    rcases mem_closureStep.mp hx with h1 | ⟨c, hc, h2⟩
    · exact h x h1
    · rcases mem_nbrsOf.mp h2 with ⟨w, h3 | h3⟩
      · exact ConnBy.fwd (h c hc) h3
      · exact ConnBy.bwd (h c hc) h3

theorem closed_reach {S : List (Nat × Nat × Int)} {s : List Nat}
    (hfix : closureStep S s = s) {a b : Nat} (ha : a ∈ s) (h : ConnBy S a b) :
    b ∈ s := by
  induction h with
  | refl => exact ha
  | @fwd y z w hxy he ih =>
    rw [← hfix]
    exact mem_closureStep.mpr (Or.inr ⟨y, ih, mem_nbrsOf.mpr ⟨w, Or.inl he⟩⟩)
  | @bwd y z w hxy he ih =>
    rw [← hfix]
    exact mem_closureStep.mpr (Or.inr ⟨y, ih, mem_nbrsOf.mpr ⟨w, Or.inr he⟩⟩)

theorem reachBool_iff (S : List (Nat × Nat × Int)) (a b : Nat) :
    reachBool S a b = true ↔ ConnBy S a b := by
  unfold reachBool
  rw [decide_eq_true_eq]
  constructor
  · intro h
    refine closureIter_sound S a _ [a] ?_ b h
    intro x hx
    simp only [List.mem_singleton] at hx
    rw [hx]
    exact ConnBy.refl a
  · intro h
    exact closed_reach (closure_saturated S a)
      (closureIter_start S _ [a] a (List.mem_singleton.mpr rfl)) h

/-- `c` is the smallest member of its connectivity class within `C`: the
reference way of counting one node per connected component. -/
def isMinRep (S : List (Nat × Nat × Int)) (C : List Nat) (c : Nat) : Bool :=
  C.all (fun c2 => !(reachBool S c c2) || decide (c ≤ c2))

/-- Number of connected components of the edge list `S` restricted to the
node list `C`: each component is counted at its smallest member. -/
def ncc (C : List Nat) (S : List (Nat × Nat × Int)) : Nat :=
  C.countP (fun c => isMinRep S C c)

theorem isMinRep_iff (S : List (Nat × Nat × Int)) (C : List Nat) (c : Nat) :
    isMinRep S C c = true ↔ ∀ c2 ∈ C, ConnBy S c c2 → c ≤ c2 := by
  unfold isMinRep
  rw [List.all_eq_true]
  constructor
  · intro h c2 hc2 hconn
    have h2 := h c2 hc2
    rw [Bool.or_eq_true, Bool.not_eq_true', decide_eq_true_eq] at h2
    rcases h2 with h2 | h2
    · rw [(reachBool_iff S c c2).mpr hconn] at h2
      cases h2
    · exact h2
  · intro h c2 hc2
    rw [Bool.or_eq_true, Bool.not_eq_true', decide_eq_true_eq]
    by_cases hr : reachBool S c c2 = true
    · exact Or.inr (h c2 hc2 ((reachBool_iff S c c2).mp hr))
    · exact Or.inl (Bool.eq_false_iff.mpr hr)

theorem ncc_nil (C : List Nat) : ncc C [] = C.length := by
  unfold ncc
  rw [List.countP_eq_length]
  intro c _
  rw [isMinRep_iff]
  intro c2 _ hconn
  rw [connBy_nil hconn]

theorem ncc_congr {C : List Nat} {S T : List (Nat × Nat × Int)}
    (h : ∀ a b : Nat, a ∈ C → b ∈ C → (ConnBy S a b ↔ ConnBy T a b)) :
    ncc C S = ncc C T := by
  refine List.countP_congr ?_
  intro c hc
  rw [isMinRep_iff, isMinRep_iff]
  constructor
  · intro hh c2 hc2 hcn
    exact hh c2 hc2 ((h c c2 hc hc2).mpr hcn)
  · intro hh c2 hc2 hcn
    exact hh c2 hc2 ((h c c2 hc hc2).mp hcn)

theorem ncc_refine {C : List Nat} {S T : List (Nat × Nat × Int)}
    (h : ∀ a b : Nat, a ∈ C → b ∈ C → ConnBy S a b → ConnBy T a b) :
    ncc C T ≤ ncc C S := by
  refine List.countP_mono_left ?_
  intro c hc hmin
  rw [isMinRep_iff] at hmin ⊢
  intro c2 hc2 hcn
  exact hmin c2 hc2 (h c c2 hc hc2 hcn)

theorem exists_list_min : ∀ (l : List Nat), l ≠ [] → ∃ m ∈ l, ∀ x ∈ l, m ≤ x := by
  intro l
  induction l with
  | nil => exact fun h => absurd rfl h
  | cons a rest ih =>
    intro _
    by_cases hr : rest = []
    · refine ⟨a, List.mem_cons_self _ _, ?_⟩
      intro x hx
      rw [hr] at hx
      simp only [List.mem_singleton] at hx
      rw [hx]
    · obtain ⟨m, hm, hmin⟩ := ih hr
      by_cases ham : a ≤ m
      · refine ⟨a, List.mem_cons_self _ _, ?_⟩
        intro x hx
        rcases List.mem_cons.mp hx with h | h
        · rw [h]
        · exact le_trans ham (hmin x h)
      · refine ⟨m, List.mem_cons_of_mem _ hm, ?_⟩
        intro x hx
        rcases List.mem_cons.mp hx with h | h
        · rw [h]
          omega
        · exact hmin x h

theorem minRep_exists (S : List (Nat × Nat × Int)) (C : List Nat) {c : Nat}
    (hc : c ∈ C) :
    ∃ m, m ∈ C ∧ ConnBy S c m ∧ ∀ c2 ∈ C, ConnBy S m c2 → m ≤ c2 := by
  have hne : C.filter (fun c2 => reachBool S c c2) ≠ [] := by
    intro h
    have hmem : c ∈ C.filter (fun c2 => reachBool S c c2) :=
      List.mem_filter.mpr ⟨hc, (reachBool_iff S c c).mpr (ConnBy.refl c)⟩
    rw [h] at hmem
    exact absurd hmem (List.not_mem_nil c)
  obtain ⟨m, hm, hmin⟩ := exists_list_min _ hne
  have hm2 := List.mem_filter.mp hm
  refine ⟨m, hm2.1, (reachBool_iff S c m).mp hm2.2, ?_⟩
  intro c2 hc2 hconn
  refine hmin c2 (List.mem_filter.mpr ⟨hc2, (reachBool_iff S c c2).mpr ?_⟩)
  exact connBy_trans ((reachBool_iff S c m).mp hm2.2) hconn

/-- Merging two distinct components reduces the component count by exactly
one: the larger of the two class minima stops being counted. -/
theorem ncc_merge (C : List Nat) (hnd : C.Nodup) (S S' : List (Nat × Nat × Int))
    {a b : Nat} (hnab : ¬ ConnBy S a b)
    (hExt : ∀ x y : Nat, ConnBy S' x y ↔ ConnBy S x y ∨
      (ConnBy S x a ∧ ConnBy S b y) ∨ (ConnBy S x b ∧ ConnBy S a y))
    {ma mb : Nat} (hmaC : ma ∈ C) (hmbC : mb ∈ C)
    (hama : ConnBy S a ma) (hbmb : ConnBy S b mb)
    (hmamin : ∀ c2 ∈ C, ConnBy S ma c2 → ma ≤ c2)
    (hmbmin : ∀ c2 ∈ C, ConnBy S mb c2 → mb ≤ c2)
    (hlt : ma < mb) :
    ncc C S' + 1 = ncc C S := by
  have hpt : ∀ c ∈ C, isMinRep S' C c = true ↔ (isMinRep S C c = true ∧ ¬ c = mb) := by
    intro c hcC
    rw [isMinRep_iff, isMinRep_iff]
    constructor
    · intro hmin'
      refine ⟨?_, ?_⟩
      · intro c2 hc2 hcn
        exact hmin' c2 hc2 ((hExt c c2).mpr (Or.inl hcn))
      · intro hceq
        have hR' : ConnBy S' c ma := by
          refine (hExt c ma).mpr (Or.inr (Or.inr ⟨?_, hama⟩))
          rw [hceq]
          exact connBy_symm hbmb
        have := hmin' ma hmaC hR'
        omega
    · rintro ⟨hmin, hne⟩
      intro c2 hc2 hcn
      rcases (hExt c c2).mp hcn with h1 | ⟨h1, h2⟩ | ⟨h1, h2⟩
      · exact hmin c2 hc2 h1
      · have hcma : c = ma := by
          have hle1 : c ≤ ma := hmin ma hmaC (connBy_trans h1 hama)
          have hle2 : ma ≤ c := hmamin c hcC (connBy_trans (connBy_symm hama) (connBy_symm h1))
          omega
        have hmb2 : mb ≤ c2 := hmbmin c2 hc2 (connBy_trans (connBy_symm hbmb) h2)
        omega
      · exfalso
        refine hne ?_
        have hle1 : c ≤ mb := hmin mb hmbC (connBy_trans h1 hbmb)
        have hle2 : mb ≤ c := hmbmin c hcC (connBy_trans (connBy_symm hbmb) (connBy_symm h1))
        omega
  have hQM : isMinRep S C mb = true := (isMinRep_iff S C mb).mpr hmbmin
  have hcongr : ncc C S' =
      C.countP (fun c => isMinRep S C c && !(decide (c = mb))) := by
    refine List.countP_congr ?_
    intro c hc
    rw [hpt c hc, Bool.and_eq_true, Bool.not_eq_true', decide_eq_false_iff_not]
  rw [hcongr]
  exact countP_exclude_one hnd hmbC (fun c => isMinRep S C c) hQM

/-- Specialisation of the merge lemma to appending one component-joining
edge. -/
theorem ncc_append_single (C : List Nat) (hnd : C.Nodup) (S : List (Nat × Nat × Int))
    {a b : Nat} {w : Int} (ha : a ∈ C) (hb : b ∈ C) (hnab : ¬ ConnBy S a b) :
    ncc C (S ++ [(a, b, w)]) + 1 = ncc C S := by
  obtain ⟨ma, hmaC, hama, hmamin⟩ := minRep_exists S C ha
  obtain ⟨mb, hmbC, hbmb, hmbmin⟩ := minRep_exists S C hb
  have hne : ma ≠ mb := by
    intro h
    have h1 : ConnBy S mb b := connBy_symm hbmb
    have h2 : ConnBy S ma b := by rw [h]; exact h1
    exact hnab (connBy_trans hama h2)
  rcases Nat.lt_or_ge ma mb with hlt | hge
  · exact ncc_merge C hnd S (S ++ [(a, b, w)]) hnab
      (fun x y => connBy_append_single) hmaC hmbC hama hbmb hmamin hmbmin hlt
  · have hlt2 : mb < ma := lt_of_le_of_ne hge (Ne.symm hne)
    refine ncc_merge C hnd S (S ++ [(a, b, w)]) (fun h => hnab (connBy_symm h))
      (fun x y => Iff.trans connBy_append_single (by tauto))
      hmbC hmaC hbmb hama hmbmin hmamin hlt2

/-- A forest: every edge occurrence is a bridge — its endpoints are not
connected by the remaining edges. -/
def Forest (S : List (Nat × Nat × Int)) : Prop :=
  ∀ (S1 S2 : List (Nat × Nat × Int)) (e : Nat × Nat × Int),
    S = S1 ++ e :: S2 → ¬ ConnBy (S1 ++ S2) e.1 e.2.1

theorem forest_nil : Forest [] := by
  intro S1 S2 e h
  cases S1 <;> simp at h

theorem forest_prefix {P Q : List (Nat × Nat × Int)} (hf : Forest (P ++ Q)) :
    Forest P := by
  intro S1 S2 e h hconn
  refine hf S1 (S2 ++ Q) e ?_ ?_
  · rw [h, List.append_assoc]
    rfl
  · refine connBy_mono ?_ hconn
    intro x hx
    rcases List.mem_append.mp hx with h1 | h1
    · exact List.mem_append_left _ h1
    · exact List.mem_append_right _ (List.mem_append_left _ h1)

theorem forest_perm {S T : List (Nat × Nat × Int)} (hp : S.Perm T) (hf : Forest S) :
    Forest T := by
  intro S1 S2 e h
  have heS : e ∈ S := hp.mem_iff.mpr (by rw [h]; simp)
  obtain ⟨T1, T2, hT⟩ := List.append_of_mem heS
  have hp2 : (T1 ++ e :: T2).Perm (S1 ++ e :: S2) := by
    rw [← hT, ← h]
    exact hp
  have hperm2 : (T1 ++ T2).Perm (S1 ++ S2) :=
    ((List.perm_middle.symm.trans hp2).trans List.perm_middle).cons_inv
  intro hconn
  exact hf T1 T2 e hT ((connBy_perm hperm2).mpr hconn)

theorem forest_append_single {S : List (Nat × Nat × Int)} {a b : Nat} {w : Int}
    (hf : Forest S) (hnab : ¬ ConnBy S a b) : Forest (S ++ [(a, b, w)]) := by
  intro S1 S2 e h
  rcases List.eq_nil_or_concat S2 with hS2 | ⟨S2', e2, hS2⟩
  · subst hS2
    obtain ⟨h1, h2⟩ := List.append_inj' h rfl
    have he : e = (a, b, w) := (List.cons.injEq _ _ _ _ ▸ h2.symm).1
    rw [List.append_nil, ← h1, he]
    exact hnab
  · rw [List.concat_eq_append] at hS2
    subst hS2
    have h' : S ++ [(a, b, w)] = (S1 ++ e :: S2') ++ [e2] := by
      rw [h]
      simp
    obtain ⟨h1, h2⟩ := List.append_inj' h' rfl
    have he2 : e2 = (a, b, w) := (List.cons.injEq _ _ _ _ ▸ h2).1.symm
    have hsub : ∀ x ∈ S1 ++ S2', x ∈ S := by
      intro x hx
      rw [h1]
      rcases List.mem_append.mp hx with h3 | h3
      · exact List.mem_append_left _ h3
      · exact List.mem_append_right _ (List.mem_cons_of_mem _ h3)
    have heS : e ∈ S := by
      rw [h1]
      exact List.mem_append_right _ (List.mem_cons_self _ _)
    rw [← List.append_assoc, he2]
    intro hconn
    rcases connBy_append_single.mp hconn with h3 | ⟨h3, h4⟩ | ⟨h3, h4⟩
    · exact hf S1 S2' e h1 h3
    · refine hnab ?_
      refine connBy_trans (connBy_symm (connBy_mono hsub h3)) ?_
      exact connBy_trans (connBy_edge heS) (connBy_mono hsub (connBy_symm h4))
    · refine hnab ?_
      refine connBy_trans (connBy_mono hsub h4) ?_
      exact connBy_trans (connBy_symm (connBy_edge heS)) (connBy_mono hsub h3)

/-- The forest identity: edges plus components equals nodes. -/
theorem forest_ncc (C : List Nat) (hnd : C.Nodup) :
    ∀ (S : List (Nat × Nat × Int)), Forest S →
      (∀ e ∈ S, e.1 ∈ C ∧ e.2.1 ∈ C) → S.length + ncc C S = C.length := by
  intro S
  induction S using List.reverseRecOn with
  | nil =>
    intro _ _
    rw [ncc_nil]
    simp
  | append_singleton B e ih =>
    intro hf hend
    have hfB : Forest B := forest_prefix hf
    have hnc : ¬ ConnBy B e.1 e.2.1 := by
      have := hf B [] e (by simp)
      rw [List.append_nil] at this
      exact this
    have heC := hend e (List.mem_append_right _ (List.mem_cons_self _ _))
    have hm : ncc C (B ++ [e]) + 1 = ncc C B :=
      ncc_append_single C hnd B heC.1 heC.2 hnc
    have hid := ih hfB (fun a ha => hend a (List.mem_append_left _ ha))
    rw [List.length_append]
    simp only [List.length_singleton]
    omega

/-- The graphic-matroid exchange property, derived by component counting:
a larger forest always contains an edge joining two components of a
smaller one. -/
theorem forest_exchange (C : List Nat) (hnd : C.Nodup)
    (A B : List (Nat × Nat × Int)) (hfA : Forest A) (hfB : Forest B)
    (hendA : ∀ e ∈ A, e.1 ∈ C ∧ e.2.1 ∈ C) (hendB : ∀ e ∈ B, e.1 ∈ C ∧ e.2.1 ∈ C)
    (hlen : A.length < B.length) :
    ∃ e ∈ B, ¬ ConnBy A e.1 e.2.1 := by
  by_contra hno
  push_neg at hno
  have href0 : ∀ x y : Nat, ConnBy B x y → ConnBy A x y := by
    intro x y hxy
    induction hxy with
    | refl => exact ConnBy.refl _
    | @fwd y' z' w' hxy he ih => exact connBy_trans ih (hno _ he)
    | @bwd y' z' w' hxy he ih => exact connBy_trans ih (connBy_symm (hno _ he))
  have h1 : ncc C A ≤ ncc C B :=
    ncc_refine (fun x y (_ : x ∈ C) (_ : y ∈ C) h => href0 x y h)
  have h2 := forest_ncc C hnd A hfA hendA
  have h3 := forest_ncc C hnd B hfB hendB
  omega

/-- Specification-level Kruskal loop: accept an edge exactly when its
endpoints are not yet connected by the accepted edges. -/
def specFold : List (Nat × Nat × Int) → List (Nat × Nat × Int) → List (Nat × Nat × Int)
  | [], acc => acc
  | e :: rest, acc =>
    if reachBool acc e.1 e.2.1 then specFold rest acc
    else specFold rest (acc ++ [e])

theorem specFold_prefix :
    ∀ (es acc : List (Nat × Nat × Int)),
      ∃ t, specFold es acc = acc ++ t ∧ t.Sublist es := by
  intro es
  induction es with
  | nil => exact fun acc => ⟨[], by simp [specFold], List.Sublist.refl _⟩
  | cons e rest ih =>
    intro acc
    show (∃ t, (if reachBool acc e.1 e.2.1 then specFold rest acc
      else specFold rest (acc ++ [e])) = acc ++ t ∧ t.Sublist (e :: rest))
    by_cases hcond : reachBool acc e.1 e.2.1 = true
    · rw [if_pos hcond]
      obtain ⟨t, ht, hsub⟩ := ih acc
      exact ⟨t, ht, hsub.cons e⟩
    · rw [if_neg hcond]
      obtain ⟨t, ht, hsub⟩ := ih (acc ++ [e])
      refine ⟨e :: t, ?_, hsub.cons₂ e⟩
      rw [ht, List.append_assoc]
      rfl

theorem specFold_forest :
    ∀ (es acc : List (Nat × Nat × Int)), Forest acc → Forest (specFold es acc) := by
  intro es
  induction es with
  | nil => exact fun acc h => h
  | cons e rest ih =>
    intro acc hf
    show Forest (if reachBool acc e.1 e.2.1 then specFold rest acc
      else specFold rest (acc ++ [e]))
    by_cases hcond : reachBool acc e.1 e.2.1 = true
    · rw [if_pos hcond]
      exact ih acc hf
    · rw [if_neg hcond]
      refine ih _ (forest_append_single hf ?_)
      intro hc
      rw [(reachBool_iff acc e.1 e.2.1).mpr hc] at hcond
      exact hcond rfl

theorem specFold_conn :
    ∀ (es acc : List (Nat × Nat × Int)), ∀ e ∈ es,
      ConnBy (specFold es acc) e.1 e.2.1 := by
  intro es
  induction es with
  | nil =>
    intro acc e he
    exact absurd he (List.not_mem_nil e)
  | cons e' rest ih =>
    intro acc e he
    show ConnBy (if reachBool acc e'.1 e'.2.1 then specFold rest acc
      else specFold rest (acc ++ [e'])) e.1 e.2.1
    by_cases hcond : reachBool acc e'.1 e'.2.1 = true
    · rw [if_pos hcond]
      rcases List.mem_cons.mp he with h1 | h1
      · obtain ⟨t, ht, -⟩ := specFold_prefix rest acc
        rw [h1, ht]
        exact connBy_mono (fun x hx => List.mem_append_left _ hx)
          ((reachBool_iff acc e'.1 e'.2.1).mp hcond)
      · exact ih acc e h1
    · rw [if_neg hcond]
      rcases List.mem_cons.mp he with h1 | h1
      · obtain ⟨t, ht, -⟩ := specFold_prefix rest (acc ++ [e'])
        rw [h1, ht]
        exact connBy_edge
          (List.mem_append_left _ (List.mem_append_right _ (List.mem_singleton.mpr rfl)))
      · exact ih _ e h1

theorem specFold_mem :
    ∀ (es acc : List (Nat × Nat × Int)), ∀ e ∈ specFold es acc,
      e ∈ acc ∨ e ∈ es := by
  intro es acc e he
  obtain ⟨t, ht, hsub⟩ := specFold_prefix es acc
  rw [ht] at he
  rcases List.mem_append.mp he with h1 | h1
  · exact Or.inl h1
  · exact Or.inr (hsub.subset h1)

/-- Greedy dominance: while processing a weight-sorted edge list, any edge
`e` of the input whose endpoints the first `i` accepted edges do not
connect bounds the weight of the `i`-th accepted edge from above. -/
theorem specFold_stays :
    ∀ (es acc : List (Nat × Nat × Int)),
      List.Pairwise (fun e1 e2 : Nat × Nat × Int => e1.2.2 ≤ e2.2.2) es →
      ∀ e ∈ es, ∀ (i : Nat), acc.length ≤ i →
        ¬ ConnBy ((specFold es acc).take i) e.1 e.2.1 →
        ∀ x, (specFold es acc)[i]? = some x → x.2.2 ≤ e.2.2 := by
  intro es
  induction es with
  | nil =>
    intro acc _ e he
    exact absurd he (List.not_mem_nil e)
  | cons e' rest ih =>
    intro acc hsort e he i hacci hni x hx
    have hT : specFold (e' :: rest) acc =
        if reachBool acc e'.1 e'.2.1 then specFold rest acc
        else specFold rest (acc ++ [e']) := rfl
    by_cases hcond : reachBool acc e'.1 e'.2.1 = true
    · have hT2 : specFold (e' :: rest) acc = specFold rest acc := by
        rw [hT, if_pos hcond]
      rw [hT2] at hni hx
      rcases List.mem_cons.mp he with h1 | h1
      · exfalso
        obtain ⟨t, ht, -⟩ := specFold_prefix rest acc
        refine hni ?_
        rw [h1, ht, List.take_append_eq_append_take, List.take_of_length_le hacci]
        exact connBy_mono (fun y hy => List.mem_append_left _ hy)
          ((reachBool_iff acc e'.1 e'.2.1).mp hcond)
      · exact ih acc (List.pairwise_cons.mp hsort).2 e h1 i hacci hni x hx
    · have hT2 : specFold (e' :: rest) acc = specFold rest (acc ++ [e']) := by
        rw [hT, if_neg hcond]
      rw [hT2] at hni hx
      obtain ⟨t, ht, -⟩ := specFold_prefix rest (acc ++ [e'])
      rcases Nat.eq_or_lt_of_le hacci with hieq | hilt
      · -- i = acc.length: the i-th accepted edge is e' itself
        have hxval : x = e' := by
          rw [ht, List.append_assoc] at hx
          rw [List.getElem?_append_right (by omega : acc.length ≤ i)] at hx
          have h0 : i - acc.length = 0 := by omega
          rw [h0] at hx
          have hx2 : (e' :: t)[0]? = some x := hx
          rw [List.getElem?_cons_zero] at hx2
          exact (Option.some.inj hx2).symm
        rcases List.mem_cons.mp he with h1 | h1
        · rw [hxval, h1]
        · rw [hxval]
          exact (List.pairwise_cons.mp hsort).1 e h1
      · -- i > acc.length
        rcases List.mem_cons.mp he with h1 | h1
        · exfalso
          refine hni ?_
          rw [h1, ht, List.take_append_eq_append_take,
            List.take_of_length_le (by simp; omega : (acc ++ [e']).length ≤ i)]
          refine connBy_edge (List.mem_append_left _
            (List.mem_append_right _ (List.mem_singleton.mpr rfl)))
        · refine ih (acc ++ [e']) (List.pairwise_cons.mp hsort).2 e h1 i ?_ hni x hx
          simp only [List.length_append, List.length_singleton]
          omega

theorem sum_le_of_pointwise :
    ∀ (l1 l2 : List Int), l1.length = l2.length →
      (∀ (i : Nat), ∀ x y : Int, l1[i]? = some x → l2[i]? = some y → x ≤ y) →
      l1.sum ≤ l2.sum := by
  intro l1
  induction l1 with
  | nil =>
    intro l2 hlen _
    rw [List.length_nil] at hlen
    rw [(List.length_eq_zero.mp hlen.symm)]
  | cons a l1' ih =>
    intro l2 hlen hpt
    cases l2 with
    | nil => simp at hlen
    | cons b l2' =>
      simp only [List.length_cons, Nat.succ.injEq] at hlen
      rw [List.sum_cons, List.sum_cons]
      have hab : a ≤ b := hpt 0 a b (by simp) (by simp)
      have htail : l1'.sum ≤ l2'.sum := by
        refine ih l2' hlen ?_
        intro i x y hx hy
        exact hpt (i + 1) x y (by simpa using hx) (by simpa using hy)
      omega

/-- The spanning relation and weight-sum comparison for the greedy result:
processing a weight-sorted edge list `E` over an empty accumulator yields a
spanning forest of minimum total weight among all spanning forests drawn
from `E`. This is the pure content behind `kruskal_mst`. -/
theorem specFold_minimal (C : List Nat) (hnd : C.Nodup)
    (E : List (Nat × Nat × Int)) (hend : ∀ e ∈ E, e.1 ∈ C ∧ e.2.1 ∈ C)
    (hsortE : List.Pairwise (fun e1 e2 : Nat × Nat × Int => e1.2.2 ≤ e2.2.2) E)
    (S : List (Nat × Nat × Int)) (hSsub : ∀ e ∈ S, e ∈ E) (hSf : Forest S)
    (hSspan : ∀ a b : Nat, a ∈ C → b ∈ C → ConnBy E a b → ConnBy S a b) :
    ((specFold E []).map (fun e => e.2.2)).sum ≤ (S.map (fun e => e.2.2)).sum := by
  have hTf : Forest (specFold E []) := specFold_forest E [] forest_nil
  have hTsub : ∀ e ∈ specFold E [], e ∈ E := by
    intro e he
    rcases specFold_mem E [] e he with h | h
    · exact absurd h (List.not_mem_nil e)
    · exact h
  have hTend : ∀ e ∈ specFold E [], e.1 ∈ C ∧ e.2.1 ∈ C :=
    fun e he => hend e (hTsub e he)
  have hTspan : ∀ x y : Nat, ConnBy E x y → ConnBy (specFold E []) x y := by
    intro x y hxy
    induction hxy with
    | refl => exact ConnBy.refl _
    | @fwd y' z' w' hxy he ih => exact connBy_trans ih (specFold_conn E [] _ he)
    | @bwd y' z' w' hxy he ih =>
      exact connBy_trans ih (connBy_symm (specFold_conn E [] _ he))
  have hnccTS : ncc C (specFold E []) = ncc C S := by
    refine ncc_congr ?_
    intro a b haC hbC
    constructor
    · intro h
      exact hSspan a b haC hbC (connBy_mono hTsub h)
    · intro h
      exact hTspan a b (connBy_mono hSsub h)
  have hidT := forest_ncc C hnd (specFold E []) hTf hTend
  have hidS := forest_ncc C hnd S hSf (fun e he => hend e (hSsub e he))
  have hlenTS : (specFold E []).length = S.length := by omega
  have hpermS : (S.mergeSort (fun a b => decide (a.2.2 ≤ b.2.2))).Perm S :=
    List.mergeSort_perm S _
  have hSf2 : Forest (S.mergeSort (fun a b => decide (a.2.2 ≤ b.2.2))) :=
    forest_perm hpermS.symm hSf
  have hsortS : List.Pairwise (fun e1 e2 : Nat × Nat × Int => e1.2.2 ≤ e2.2.2)
      (S.mergeSort (fun a b => decide (a.2.2 ≤ b.2.2))) := by
    refine List.Pairwise.imp ?_ (List.sorted_mergeSort ?_ ?_ S)
    · intro a b h
      rw [decide_eq_true_eq] at h
      exact h
    · intro a b c hab hbc
      rw [decide_eq_true_eq] at hab hbc ⊢
      omega
    · intro a b
      rcases le_total a.2.2 b.2.2 with h | h
      · rw [Bool.or_eq_true]
        exact Or.inl (decide_eq_true h)
      · rw [Bool.or_eq_true]
        exact Or.inr (decide_eq_true h)
  have hlenSS : (S.mergeSort (fun a b => decide (a.2.2 ≤ b.2.2))).length = S.length :=
    hpermS.length_eq
  have hpt : ∀ (i : Nat), ∀ x y : Int,
      ((specFold E []).map (fun e => e.2.2))[i]? = some x →
      ((S.mergeSort (fun a b => decide (a.2.2 ≤ b.2.2))).map (fun e => e.2.2))[i]? = some y →
      x ≤ y := by
    intro i x y hx hy
    rw [List.getElem?_map] at hx hy
    cases htx : (specFold E [])[i]? with
    | none =>
      rw [htx] at hx
      cases hx
    | some tx =>
      rw [htx] at hx
      cases hsy : (S.mergeSort (fun a b => decide (a.2.2 ≤ b.2.2)))[i]? with
      | none =>
        rw [hsy] at hy
        cases hy
      | some sy =>
        rw [hsy] at hy
        simp only [Option.map_some'] at hx hy
        obtain ⟨hiT, htx2⟩ := List.getElem?_eq_some.mp htx
        obtain ⟨hiS, hsy2⟩ := List.getElem?_eq_some.mp hsy
        -- the exchange step
        have hfA : Forest ((specFold E []).take i) := by
          have h := hTf
          rw [← List.take_append_drop i (specFold E [])] at h
          exact forest_prefix h
        have hfB : Forest ((S.mergeSort (fun a b => decide (a.2.2 ≤ b.2.2))).take (i + 1)) := by
          have h := hSf2
          rw [← List.take_append_drop (i + 1)
            (S.mergeSort (fun a b => decide (a.2.2 ≤ b.2.2)))] at h
          exact forest_prefix h
        have hlenA : ((specFold E []).take i).length = i := by
          rw [List.length_take]
          omega
        have hlenB : ((S.mergeSort (fun a b => decide (a.2.2 ≤ b.2.2))).take (i + 1)).length
            = i + 1 := by
          rw [List.length_take]
          omega
        obtain ⟨e, heB, hne⟩ := forest_exchange C hnd _ _ hfA hfB
          (fun e he => hTend e (List.mem_of_mem_take he))
          (fun e he => hend e (hSsub e (hpermS.mem_iff.mp (List.mem_of_mem_take he))))
          (by omega)
        have heE : e ∈ E := hSsub e (hpermS.mem_iff.mp (List.mem_of_mem_take heB))
        have hstay := specFold_stays E [] hsortE e heE i (Nat.zero_le i) hne tx htx
        -- e sits among the first i+1 edges of the sorted S, so its weight
        -- is at most sy's
        have htake : (S.mergeSort (fun a b => decide (a.2.2 ≤ b.2.2))).take (i + 1) =
            (S.mergeSort (fun a b => decide (a.2.2 ≤ b.2.2))).take i ++ [sy] := by
          rw [List.take_succ, hsy]
          rfl
        have hsorted_take : List.Pairwise (fun e1 e2 : Nat × Nat × Int => e1.2.2 ≤ e2.2.2)
            ((S.mergeSort (fun a b => decide (a.2.2 ≤ b.2.2))).take (i + 1)) :=
          List.Pairwise.sublist (List.take_sublist _ _) hsortS
        rw [htake] at hsorted_take heB
        have hwe : e.2.2 ≤ sy.2.2 := by
          rcases List.mem_append.mp heB with h1 | h1
          · exact (List.pairwise_append.mp hsorted_take).2.2 e h1 sy
              (List.mem_singleton.mpr rfl)
          · rw [List.mem_singleton.mp h1]
        have hx2 : tx.2.2 = x := Option.some.inj hx
        have hy2 : sy.2.2 = y := Option.some.inj hy
        omega
  have hsum := sum_le_of_pointwise ((specFold E []).map (fun e => e.2.2))
    ((S.mergeSort (fun a b => decide (a.2.2 ≤ b.2.2))).map (fun e => e.2.2))
    (by rw [List.length_map, List.length_map, hlenTS, hlenSS]) hpt
  have hsum2 : ((S.mergeSort (fun a b => decide (a.2.2 ≤ b.2.2))).map
      (fun e => e.2.2)).sum = (S.map (fun e => e.2.2)).sum :=
    (hpermS.map (fun e => e.2.2)).sum_eq
  omega

/-! Union-find refinement: the `parent` dict read as a pointer forest. -/

/-- The chain from `c` reaches the root `r` in exactly `n` steps. -/
inductive ReachesRoot (parent : List (Nat × Nat)) : Nat → Nat → Nat → Prop where
  | root (c : Nat) : dget? parent c = some c → ReachesRoot parent c c 0
  | step (c p r n : Nat) : dget? parent c = some p → p ≠ c →
      ReachesRoot parent p r n → ReachesRoot parent c r (n + 1)

/-- `c`'s class representative is `r`. -/
def Root (parent : List (Nat × Nat)) (c r : Nat) : Prop :=
  ∃ n, ReachesRoot parent c r n

theorem rr_unique {parent : List (Nat × Nat)} :
    ∀ {c r n}, ReachesRoot parent c r n →
      ∀ {r' n'}, ReachesRoot parent c r' n' → r = r' ∧ n = n' := by
  intro c r n h1
  induction h1 with
  | root c hc =>
    intro r' n' h2
    cases h2 with
    | root _ => exact ⟨rfl, rfl⟩
    | step _ p _ m hp hne _ =>
      rw [hc] at hp
      exact absurd (Option.some.inj hp).symm hne
  | step c p r n hp hne h1 ih =>
    intro r' n' h2
    cases h2 with
    | root _ hc =>
      rw [hp] at hc
      exact absurd (Option.some.inj hc) hne
    | step _ p' _ m hp' hne' h2' =>
      rw [hp] at hp'
      have hpp : p' = p := (Option.some.inj hp').symm
      obtain ⟨hr, hn⟩ := ih (hpp ▸ h2')
      exact ⟨hr, by omega⟩

theorem root_unique {parent : List (Nat × Nat)} {c r r' : Nat}
    (h1 : Root parent c r) (h2 : Root parent c r') : r = r' := by
  obtain ⟨n, h1⟩ := h1
  obtain ⟨n', h2⟩ := h2
  exact (rr_unique h1 h2).1

theorem rr_root_self {parent : List (Nat × Nat)} :
    ∀ {c r n}, ReachesRoot parent c r n → dget? parent r = some r := by
  intro c r n h
  induction h with
  | root c hc => exact hc
  | step c p r n hp hne h1 ih => exact ih

theorem rr_chain {parent : List (Nat × Nat)} :
    ∀ {c r n}, ReachesRoot parent c r n →
      ∃ l : List Nat, l.length = n + 1 ∧ l.Nodup ∧
        (∀ a ∈ l, (dget? parent a).isSome ∧ ∃ m, m ≤ n ∧ ReachesRoot parent a r m) := by
  intro c r n h
  induction h with
  | root c hc =>
    refine ⟨[c], rfl, List.nodup_singleton c, ?_⟩
    intro a ha
    rw [List.mem_singleton] at ha
    subst ha
    refine ⟨by rw [hc]; rfl, 0, le_refl 0, ReachesRoot.root a hc⟩
  | step c p r n hp hne h1 ih =>
    obtain ⟨l, hlen, hnd, hall⟩ := ih
    refine ⟨c :: l, by simp [hlen], ?_, ?_⟩
    · rw [List.nodup_cons]
      refine ⟨?_, hnd⟩
      intro hcl
      obtain ⟨-, m, hm, hrm⟩ := hall c hcl
      have := rr_unique hrm (ReachesRoot.step c p r n hp hne h1)
      omega
    · intro a ha
      rcases List.mem_cons.mp ha with h2 | h2
      · subst h2
        exact ⟨by rw [hp]; rfl, n + 1, le_refl _, ReachesRoot.step a p r n hp hne h1⟩
      · obtain ⟨hsome, m, hm, hrm⟩ := hall a h2
        exact ⟨hsome, m, by omega, hrm⟩

theorem rr_bound {parent : List (Nat × Nat)} {c r n : Nat}
    (h : ReachesRoot parent c r n) : n < parent.length := by
  obtain ⟨l, hlen, hnd, hall⟩ := rr_chain h
  have hsub : l ⊆ parent.map (fun e => e.1) := by
    intro a ha
    have hs := (hall a ha).1
    cases hd : dget? parent a with
    | none =>
      rw [hd] at hs
      cases hs
    | some v => exact List.mem_map.mpr ⟨(a, v), dget?_mem hd, rfl⟩
  have hle := (hnd.subperm hsub).length_le
  rw [List.length_map] at hle
  omega

theorem dset_length {α : Type} :
    ∀ (d : List (Nat × α)) (k : Nat) (v : α), (dget? d k).isSome →
      (dset d k v).length = d.length := by
  intro d
  induction d with
  | nil =>
    intro k v h
    cases h
  | cons e rest ih =>
    intro k v h
    show (if e.1 = k then (e.1, v) :: rest else e :: dset rest k v).length = _
    by_cases hek : e.1 = k
    · rw [if_pos hek]
      rfl
    · rw [if_neg hek]
      have h2 : (dget? rest k).isSome := by
        unfold dget? at h
        rw [if_neg hek] at h
        exact h
      simp only [List.length_cons]
      rw [ih k v h2]

/-- Path compression: redirecting `c` straight to its own root changes no
node's representative. -/
theorem root_update {parent : List (Nat × Nat)} {c r : Nat} (hcr : Root parent c r) :
    ∀ (a ρ : Nat), Root (dset parent c r) a ρ ↔ Root parent a ρ := by
  have hrself : dget? parent r = some r := by
    obtain ⟨n, h⟩ := hcr
    exact rr_root_self h
  have fwd : ∀ (a ρ n : Nat), ReachesRoot parent a ρ n → Root (dset parent c r) a ρ := by
    intro a ρ n h
    induction h with
    | root a ha =>
      by_cases hac : c = a
      · have hcr2 : Root parent a r := by rw [hac] at hcr; exact hcr
        have hra : a = r := root_unique ⟨0, ReachesRoot.root a ha⟩ hcr2
        refine ⟨0, ReachesRoot.root a ?_⟩
        rw [dget?_dset, if_pos hac, ← hra]
      · exact ⟨0, ReachesRoot.root a (by rw [dget?_dset, if_neg hac]; exact ha)⟩
    | step a p ρ n hp hne h1 ih =>
      by_cases hac : c = a
      · have hcr2 : Root parent a r := by rw [hac] at hcr; exact hcr
        have hρr : ρ = r :=
          root_unique ⟨n + 1, ReachesRoot.step a p ρ n hp hne h1⟩ hcr2
        by_cases hrc : r = a
        · refine ⟨0, ?_⟩
          rw [hρr, hrc]
          refine ReachesRoot.root a ?_
          rw [dget?_dset, if_pos hac]
        · refine ⟨1, ?_⟩
          rw [hρr]
          refine ReachesRoot.step a r r 0 ?_ hrc (ReachesRoot.root r ?_)
          · rw [dget?_dset, if_pos hac]
          · rw [dget?_dset]
            by_cases hcr3 : c = r
            · rw [if_pos hcr3]
            · rw [if_neg hcr3]
              exact hrself
      · obtain ⟨m, hm⟩ := ih
        exact ⟨m + 1, ReachesRoot.step a p ρ m
          (by rw [dget?_dset, if_neg hac]; exact hp) hne hm⟩
  have bwd : ∀ (a ρ n : Nat), ReachesRoot (dset parent c r) a ρ n → Root parent a ρ := by
    intro a ρ n h
    induction h with
    | root a ha =>
      by_cases hac : c = a
      · rw [dget?_dset, if_pos hac] at ha
        have hra : r = a := Option.some.inj ha
        rw [hac, hra] at hcr
        exact hcr
      · rw [dget?_dset, if_neg hac] at ha
        exact ⟨0, ReachesRoot.root a ha⟩
    | step a p ρ n hp hne h1 ih =>
      by_cases hac : c = a
      · rw [dget?_dset, if_pos hac] at hp
        have hpr : p = r := (Option.some.inj hp).symm
        have hρ : ρ = r := by
          rw [hpr] at ih
          exact root_unique ih ⟨0, ReachesRoot.root r hrself⟩
        rw [hρ]
        rw [hac] at hcr
        exact hcr
      · rw [dget?_dset, if_neg hac] at hp
        obtain ⟨m, hm⟩ := ih
        exact ⟨m + 1, ReachesRoot.step a p ρ m hp hne hm⟩
  intro a ρ
  constructor
  · rintro ⟨n, h⟩
    exact bwd a ρ n h
  · rintro ⟨n, h⟩
    exact fwd a ρ n h

/-- Union: pointing root `r1` at root `r2` merges the two classes (their
members now answer `r2`) and leaves every other class unchanged. -/
theorem root_attach {parent : List (Nat × Nat)} {r1 r2 : Nat}
    (hr1 : dget? parent r1 = some r1) (hr2 : dget? parent r2 = some r2)
    (hne : r1 ≠ r2) :
    ∀ (a ρ : Nat), Root (dset parent r1 r2) a ρ ↔
      ((Root parent a r1 ∧ ρ = r2) ∨ (Root parent a ρ ∧ ρ ≠ r1)) := by
  have fwd : ∀ (a ρ n : Nat), ReachesRoot parent a ρ n →
      Root (dset parent r1 r2) a (if ρ = r1 then r2 else ρ) := by
    intro a ρ n h
    induction h with
    | root a ha =>
      by_cases h : a = r1
      · rw [if_pos h]
        refine ⟨1, ReachesRoot.step a r2 r2 0 ?_ ?_ (ReachesRoot.root r2 ?_)⟩
        · rw [dget?_dset, if_pos h.symm]
        · rw [h]
          exact Ne.symm hne
        · rw [dget?_dset, if_neg hne]
          exact hr2
      · rw [if_neg h]
        refine ⟨0, ReachesRoot.root a ?_⟩
        rw [dget?_dset, if_neg (fun hh => h hh.symm)]
        exact ha
    | step a p ρ n hp hne2 h1 ih =>
      have har1 : r1 ≠ a := by
        intro hh
        rw [← hh, hr1] at hp
        exact hne2 ((Option.some.inj hp).symm.trans hh)
      obtain ⟨m, hm⟩ := ih
      exact ⟨m + 1, ReachesRoot.step a p _ m
        (by rw [dget?_dset, if_neg har1]; exact hp) hne2 hm⟩
  have bwd : ∀ (a ρ n : Nat), ReachesRoot (dset parent r1 r2) a ρ n →
      ∃ ρ0, Root parent a ρ0 ∧ ρ = (if ρ0 = r1 then r2 else ρ0) := by
    intro a ρ n h
    induction h with
    | root a ha =>
      by_cases h : r1 = a
      · rw [dget?_dset, if_pos h] at ha
        exact absurd ((Option.some.inj ha).trans h.symm).symm hne
      · rw [dget?_dset, if_neg h] at ha
        refine ⟨a, ⟨0, ReachesRoot.root a ha⟩, ?_⟩
        rw [if_neg (fun hh => h hh.symm)]
    | step a p ρ n hp hne2 h1 ih =>
      by_cases h : r1 = a
      · rw [dget?_dset, if_pos h] at hp
        have hpr2 : p = r2 := (Option.some.inj hp).symm
        have hρ : ρ = r2 := by
          have hroot2 : ReachesRoot (dset parent r1 r2) r2 r2 0 :=
            ReachesRoot.root r2 (by rw [dget?_dset, if_neg hne]; exact hr2)
          rw [hpr2] at h1
          exact (rr_unique h1 hroot2).1
        refine ⟨r1, ?_, ?_⟩
        · rw [← h]
          exact ⟨0, ReachesRoot.root r1 hr1⟩
        · rw [if_pos rfl]
          exact hρ
      · rw [dget?_dset, if_neg h] at hp
        obtain ⟨ρ0, hρ0, hite⟩ := ih
        obtain ⟨m, hm⟩ := hρ0
        exact ⟨ρ0, ⟨m + 1, ReachesRoot.step a p ρ0 m hp hne2 hm⟩, hite⟩
  intro a ρ
  constructor
  · rintro ⟨n, h⟩
    obtain ⟨ρ0, hρ0, hite⟩ := bwd a ρ n h
    by_cases hr : ρ0 = r1
    · rw [if_pos hr] at hite
      refine Or.inl ⟨?_, hite⟩
      rw [← hr]
      exact hρ0
    · rw [if_neg hr] at hite
      refine Or.inr ⟨?_, ?_⟩
      · rw [hite]
        exact hρ0
      · rw [hite]
        exact hr
  · rintro (⟨hR, hρ⟩ | ⟨hR, hρ⟩)
    · obtain ⟨n, hn⟩ := hR
      have hf := fwd a r1 n hn
      rw [if_pos rfl] at hf
      rw [hρ]
      exact hf
    · obtain ⟨n, hn⟩ := hR
      have hf := fwd a ρ n hn
      rw [if_neg hρ] at hf
      exact hf

theorem find_succ (fuel : Nat) (parent : List (Nat × Nat)) (city : Nat) :
    find (fuel + 1) parent city =
      match dget? parent city with
      | none => none
      | some p =>
        if p ≠ city then
          match find fuel parent p with
          | none => none
          | some (parent2, root) => some (dset parent2 city root, root)
        else some (parent, city) := rfl

/-- `find` with enough fuel returns the representative, keeps the key set
and dict size, and does not change any node's representative. -/
theorem find_ok {parent : List (Nat × Nat)} :
    ∀ {c r n : Nat}, ReachesRoot parent c r n → ∀ fuel, n < fuel →
      ∃ parent', find fuel parent c = some (parent', r) ∧
        parent'.length = parent.length ∧
        (∀ x, (dget? parent' x).isSome ↔ (dget? parent x).isSome) ∧
        (∀ a ρ, Root parent' a ρ ↔ Root parent a ρ) := by
  intro c r n h
  induction h with
  | root c hc =>
    intro fuel hfuel
    cases fuel with
    | zero => omega
    | succ f =>
      refine ⟨parent, ?_, rfl, fun x => Iff.rfl, fun a ρ => Iff.rfl⟩
      rw [find_succ, hc]
      dsimp only
      rw [if_neg (fun hh => hh rfl)]
  | step c p r n hp hne h1 ih =>
    intro fuel hfuel
    cases fuel with
    | zero => omega
    | succ f =>
      obtain ⟨parent2, hfind, hlen, hiso, hroots⟩ := ih f (by omega)
      have hkey : (dget? parent2 c).isSome := (hiso c).mpr (by rw [hp]; rfl)
      have hcr : Root parent c r := ⟨n + 1, ReachesRoot.step c p r n hp hne h1⟩
      have hcr2 : Root parent2 c r := (hroots c r).mpr hcr
      refine ⟨dset parent2 c r, ?_, ?_, ?_, ?_⟩
      · rw [find_succ, hp]
        dsimp only
        rw [if_pos hne, hfind]
      · rw [dset_length parent2 c r hkey, hlen]
      · intro x
        rw [dget?_dset]
        by_cases hcx : c = x
        · rw [if_pos hcx]
          constructor
          · intro _
            rw [← hcx, hp]
            rfl
          · intro _
            rfl
        · rw [if_neg hcx]
          exact hiso x
      · intro a ρ
        exact (root_update hcr2 a ρ).trans (hroots a ρ)

theorem union_eq (fuel : Nat) (parent rank : List (Nat × Nat)) (city1 city2 : Nat) :
    union fuel parent rank city1 city2 =
      match find fuel parent city1 with
      | none => none
      | some (p1, root1) =>
        match find fuel p1 city2 with
        | none => none
        | some (p2, root2) =>
          if root1 ≠ root2 then
            match dget? rank root1, dget? rank root2 with
            | some r1, some r2 =>
              if r1 < r2 then some (dset p2 root1 root2, rank)
              else if r1 > r2 then some (dset p2 root2 root1, rank)
              else some (dset p2 root2 root1, dset rank root1 (r1 + 1))
            | _, _ => none
          else some (p2, rank) := rfl

/-- `union` on two distinct classes: merges exactly those two classes and
preserves the dict invariants. -/
theorem union_ok (C : List Nat) (fuel : Nat) (hfuel : C.length < fuel)
    (parent rank : List (Nat × Nat)) (c1 c2 r1 r2 : Nat)
    (hlen : parent.length = C.length)
    (hkeys : ∀ x, (dget? parent x).isSome ↔ x ∈ C)
    (hr1 : Root parent c1 r1) (hr2 : Root parent c2 r2) (hne : r1 ≠ r2)
    (hrank : ∀ x ∈ C, (dget? rank x).isSome) :
    ∃ parent' rank' ratt rkeep,
      union fuel parent rank c1 c2 = some (parent', rank') ∧
      parent'.length = C.length ∧
      (∀ x, (dget? parent' x).isSome ↔ x ∈ C) ∧
      (∀ x ∈ C, (dget? rank' x).isSome) ∧
      ((ratt = r1 ∧ rkeep = r2) ∨ (ratt = r2 ∧ rkeep = r1)) ∧
      (∀ a ρ, Root parent' a ρ ↔
        ((Root parent a ratt ∧ ρ = rkeep) ∨ (Root parent a ρ ∧ ρ ≠ ratt))) := by
  obtain ⟨n1, hn1⟩ := hr1
  have hb1 : n1 < fuel := by
    have := rr_bound hn1
    omega
  obtain ⟨p1, hf1, hlen1, hiso1, hroots1⟩ := find_ok hn1 fuel hb1
  have hr2' : Root p1 c2 r2 := (hroots1 c2 r2).mpr hr2
  obtain ⟨n2, hn2⟩ := hr2'
  have hb2 : n2 < fuel := by
    have := rr_bound hn2
    omega
  obtain ⟨p2, hf2, hlen2, hiso2, hroots2⟩ := find_ok hn2 fuel hb2
  have htrans : ∀ a ρ, Root p2 a ρ ↔ Root parent a ρ :=
    fun a ρ => (hroots2 a ρ).trans (hroots1 a ρ)
  have hroot1self : dget? parent r1 = some r1 := rr_root_self hn1
  have hroot2self : dget? parent r2 = some r2 := by
    obtain ⟨m, hm⟩ := hr2
    exact rr_root_self hm
  have hs1 : dget? p2 r1 = some r1 := by
    obtain ⟨m, hm⟩ := (htrans r1 r1).mpr ⟨0, ReachesRoot.root r1 hroot1self⟩
    exact rr_root_self hm
  have hs2 : dget? p2 r2 = some r2 := by
    obtain ⟨m, hm⟩ := (htrans r2 r2).mpr ⟨0, ReachesRoot.root r2 hroot2self⟩
    exact rr_root_self hm
  have hr1C : r1 ∈ C := (hkeys r1).mp (by rw [hroot1self]; rfl)
  have hr2C : r2 ∈ C := (hkeys r2).mp (by rw [hroot2self]; rfl)
  have hk1s := hrank r1 hr1C
  have hk2s := hrank r2 hr2C
  cases hk1 : dget? rank r1 with
  | none =>
    rw [hk1] at hk1s
    cases hk1s
  | some k1 =>
  cases hk2 : dget? rank r2 with
  | none =>
    rw [hk2] at hk2s
    cases hk2s
  | some k2 =>
  have hkeys2 : ∀ x, (dget? p2 x).isSome ↔ x ∈ C :=
    fun x => (hiso2 x).trans ((hiso1 x).trans (hkeys x))
  have hmk : ∀ (rA rB : Nat), rA ∈ C → dget? p2 rA = some rA → dget? p2 rB = some rB →
      rA ≠ rB →
      (dset p2 rA rB).length = C.length ∧
      (∀ x, (dget? (dset p2 rA rB) x).isSome ↔ x ∈ C) ∧
      (∀ a ρ, Root (dset p2 rA rB) a ρ ↔
        ((Root parent a rA ∧ ρ = rB) ∨ (Root parent a ρ ∧ ρ ≠ rA))) := by
    intro rA rB hrAC hsA hsB hneAB
    refine ⟨?_, ?_, ?_⟩
    · rw [dset_length p2 rA rB (by rw [hsA]; rfl), hlen2, hlen1, hlen]
    · intro x
      rw [dget?_dset]
      by_cases hx : rA = x
      · rw [if_pos hx]
        constructor
        · intro _
          rw [← hx]
          exact hrAC
        · intro _
          rfl
      · rw [if_neg hx]
        exact hkeys2 x
    · intro a ρ
      rw [root_attach hsA hsB hneAB a ρ]
      constructor
      · rintro (⟨h1, h2⟩ | ⟨h1, h2⟩)
        · exact Or.inl ⟨(htrans a rA).mp h1, h2⟩
        · exact Or.inr ⟨(htrans a ρ).mp h1, h2⟩
      · rintro (⟨h1, h2⟩ | ⟨h1, h2⟩)
        · exact Or.inl ⟨(htrans a rA).mpr h1, h2⟩
        · exact Or.inr ⟨(htrans a ρ).mpr h1, h2⟩
  by_cases hklt : k1 < k2
  · obtain ⟨hL, hK, hC⟩ := hmk r1 r2 hr1C hs1 hs2 hne
    refine ⟨dset p2 r1 r2, rank, r1, r2, ?_, hL, hK, hrank, Or.inl ⟨rfl, rfl⟩, hC⟩
    rw [union_eq, hf1]
    dsimp only
    rw [hf2]
    dsimp only
    rw [if_pos hne, hk1, hk2]
    dsimp only
    rw [if_pos hklt]
  · by_cases hkgt : k1 > k2
    · obtain ⟨hL, hK, hC⟩ := hmk r2 r1 hr2C hs2 hs1 (Ne.symm hne)
      refine ⟨dset p2 r2 r1, rank, r2, r1, ?_, hL, hK, hrank, Or.inr ⟨rfl, rfl⟩, hC⟩
      rw [union_eq, hf1]
      dsimp only
      rw [hf2]
      dsimp only
      rw [if_pos hne, hk1, hk2]
      dsimp only
      rw [if_neg hklt, if_pos hkgt]
    · obtain ⟨hL, hK, hC⟩ := hmk r2 r1 hr2C hs2 hs1 (Ne.symm hne)
      refine ⟨dset p2 r2 r1, dset rank r1 (k1 + 1), r2, r1, ?_, hL, hK, ?_,
        Or.inr ⟨rfl, rfl⟩, hC⟩
      · rw [union_eq, hf1]
        dsimp only
        rw [hf2]
        dsimp only
        rw [if_pos hne, hk1, hk2]
        dsimp only
        rw [if_neg hklt, if_neg hkgt]
      · intro x hx
        rw [dget?_dset]
        by_cases hx2 : r1 = x
        · rw [if_pos hx2]
          rfl
        · rw [if_neg hx2]
          exact hrank x hx

theorem kruskalLoop_cons (fuel : Nat) (e : Nat × Nat × Int)
    (rest : List (Nat × Nat × Int)) (parent rank : List (Nat × Nat))
    (mst : List (Nat × Nat × Int)) (total : Int) :
    kruskalLoop fuel (e :: rest) parent rank mst total =
      match find fuel parent e.1 with
      | none => none
      | some (p1, r1) =>
        match find fuel p1 e.2.1 with
        | none => none
        | some (p2, r2) =>
          if r1 ≠ r2 then
            match union fuel p2 rank e.1 e.2.1 with
            | none => none
            | some (p3, rank2) =>
              kruskalLoop fuel rest p3 rank2 (mst ++ [e]) (total + e.2.2)
          else kruskalLoop fuel rest p2 rank mst total := rfl

/-- The union-find loop invariant: the parent dict covers exactly the city
list, every city has a representative, and two cities share a
representative exactly when the accepted edges connect them. -/
def UFInv (C : List Nat) (parent : List (Nat × Nat))
    (acc : List (Nat × Nat × Int)) : Prop :=
  parent.length = C.length ∧
  (∀ x, (dget? parent x).isSome ↔ x ∈ C) ∧
  (∀ c ∈ C, ∃ r, Root parent c r) ∧
  (∀ a b : Nat, a ∈ C → b ∈ C →
    ((∃ ρ, Root parent a ρ ∧ Root parent b ρ) ↔ ConnBy acc a b))

/-- The edge loop of `kruskal_mst` refines the specification-level greedy
fold, and the running total is the weight sum of the accepted edges. -/
theorem kruskalLoop_spec (C : List Nat) (fuel : Nat) (hfuel : C.length < fuel) :
    ∀ (es : List (Nat × Nat × Int)) (parent rank : List (Nat × Nat))
      (acc : List (Nat × Nat × Int)) (total : Int),
      UFInv C parent acc →
      (∀ x ∈ C, (dget? rank x).isSome) →
      (∀ e ∈ es, e.1 ∈ C ∧ e.2.1 ∈ C) →
      kruskalLoop fuel es parent rank acc total =
        some (specFold es acc,
          total + (((specFold es acc).map (fun e => e.2.2)).sum -
            ((acc.map (fun e => e.2.2)).sum))) := by
  intro es
  induction es with
  | nil =>
    intro parent rank acc total _ _ _
    show some (acc, total) = _
    simp [specFold]
  | cons e rest ih =>
    intro parent rank acc total hInv hrank hend
    obtain ⟨hlen, hkeys, hroots, hsame⟩ := hInv
    have he1C : e.1 ∈ C := (hend e (List.mem_cons_self _ _)).1
    have he2C : e.2.1 ∈ C := (hend e (List.mem_cons_self _ _)).2
    obtain ⟨r1, n1, hn1⟩ := hroots e.1 he1C
    have hb1 : n1 < fuel := by
      have := rr_bound hn1
      omega
    obtain ⟨p1, hf1, hlen1, hiso1, hroots1⟩ := find_ok hn1 fuel hb1
    obtain ⟨r2, n2', hn2'⟩ := hroots e.2.1 he2C
    have hr2p1 : Root p1 e.2.1 r2 := (hroots1 _ _).mpr ⟨n2', hn2'⟩
    obtain ⟨n2, hn2⟩ := hr2p1
    have hb2 : n2 < fuel := by
      have := rr_bound hn2
      omega
    obtain ⟨p2, hf2, hlen2, hiso2, hroots2⟩ := find_ok hn2 fuel hb2
    have htrans : ∀ a ρ, Root p2 a ρ ↔ Root parent a ρ :=
      fun a ρ => (hroots2 a ρ).trans (hroots1 a ρ)
    have hcond : ConnBy acc e.1 e.2.1 ↔ r1 = r2 := by
      rw [← hsame e.1 e.2.1 he1C he2C]
      constructor
      · rintro ⟨ρ, hρ1, hρ2⟩
        have h1 : ρ = r1 := root_unique hρ1 ⟨n1, hn1⟩
        have h2 : ρ = r2 := root_unique hρ2 ⟨n2', hn2'⟩
        omega
      · intro h
        refine ⟨r1, ⟨n1, hn1⟩, ?_⟩
        rw [h]
        exact ⟨n2', hn2'⟩
    rw [kruskalLoop_cons, hf1]
    dsimp only
    rw [hf2]
    dsimp only
    by_cases hr12 : r1 = r2
    · rw [if_neg (fun hh => hh hr12)]
      have hspec : specFold (e :: rest) acc = specFold rest acc := by
        show (if reachBool acc e.1 e.2.1 then specFold rest acc
          else specFold rest (acc ++ [e])) = _
        rw [if_pos ((reachBool_iff acc e.1 e.2.1).mpr (hcond.mpr hr12))]
      rw [hspec]
      refine ih p2 rank acc total ⟨?_, ?_, ?_, ?_⟩ hrank
        (fun a ha => hend a (List.mem_cons_of_mem _ ha))
      · rw [hlen2, hlen1, hlen]
      · exact fun x => (hiso2 x).trans ((hiso1 x).trans (hkeys x))
      · intro c hc
        obtain ⟨r, hr⟩ := hroots c hc
        exact ⟨r, (htrans c r).mpr hr⟩
      · intro a b haC hbC
        rw [← hsame a b haC hbC]
        constructor
        · rintro ⟨ρ, h1, h2⟩
          exact ⟨ρ, (htrans a ρ).mp h1, (htrans b ρ).mp h2⟩
        · rintro ⟨ρ, h1, h2⟩
          exact ⟨ρ, (htrans a ρ).mpr h1, (htrans b ρ).mpr h2⟩
    · rw [if_pos hr12]
      have hUkeys : ∀ x, (dget? p2 x).isSome ↔ x ∈ C :=
        fun x => (hiso2 x).trans ((hiso1 x).trans (hkeys x))
      have hUlen : p2.length = C.length := by rw [hlen2, hlen1, hlen]
      have hUr1 : Root p2 e.1 r1 := (htrans _ _).mpr ⟨n1, hn1⟩
      have hUr2 : Root p2 e.2.1 r2 := (htrans _ _).mpr ⟨n2', hn2'⟩
      obtain ⟨p3, rank3, ratt, rkeep, hun, hlen3, hkeys3, hrank3, hpair, hchar⟩ :=
        union_ok C fuel hfuel p2 rank e.1 e.2.1 r1 r2 hUlen hUkeys hUr1 hUr2 hr12 hrank
      rw [hun]
      dsimp only
      have hchar' : ∀ a ρ, Root p3 a ρ ↔
          ((Root parent a ratt ∧ ρ = rkeep) ∨ (Root parent a ρ ∧ ρ ≠ ratt)) := by
        intro a ρ
        rw [hchar a ρ]
        constructor
        · rintro (⟨h1, h2⟩ | ⟨h1, h2⟩)
          · exact Or.inl ⟨(htrans _ _).mp h1, h2⟩
          · exact Or.inr ⟨(htrans _ _).mp h1, h2⟩
        · rintro (⟨h1, h2⟩ | ⟨h1, h2⟩)
          · exact Or.inl ⟨(htrans _ _).mpr h1, h2⟩
          · exact Or.inr ⟨(htrans _ _).mpr h1, h2⟩
      have hattkeep : ratt ≠ rkeep := by
        rcases hpair with ⟨hp1, hp2⟩ | ⟨hp1, hp2⟩
        · rw [hp1, hp2]
          exact hr12
        · rw [hp1, hp2]
          exact Ne.symm hr12
      have hspec : specFold (e :: rest) acc = specFold rest (acc ++ [e]) := by
        show (if reachBool acc e.1 e.2.1 then specFold rest acc
          else specFold rest (acc ++ [e])) = _
        rw [if_neg (fun hh => hr12 (hcond.mp ((reachBool_iff acc e.1 e.2.1).mp hh)))]
      rw [hspec]
      have hconv : ∀ (x y ρx ρy : Nat), x ∈ C → y ∈ C →
          Root parent x ρx → Root parent y ρy → (ConnBy acc x y ↔ ρx = ρy) := by
        intro x y ρx ρy hx hy hρx hρy
        rw [← hsame x y hx hy]
        constructor
        · rintro ⟨ρ, h1, h2⟩
          have e1 : ρx = ρ := root_unique hρx h1
          have e2 : ρy = ρ := root_unique hρy h2
          omega
        · intro h
          refine ⟨ρx, hρx, ?_⟩
          rw [h]
          exact hρy
      have hIH := ih p3 rank3 (acc ++ [e]) (total + e.2.2) ⟨hlen3, hkeys3, ?_, ?_⟩
        hrank3 (fun a ha => hend a (List.mem_cons_of_mem _ ha))
      · rw [hIH]
        have hsum : ((acc ++ [e]).map (fun e => e.2.2)).sum =
            (acc.map (fun e => e.2.2)).sum + e.2.2 := by
          rw [List.map_append, List.sum_append]
          simp
        refine congrArg some ?_
        simp only [Prod.mk.injEq]
        refine ⟨trivial, ?_⟩
        rw [hsum]
        ring
      · intro c hc
        obtain ⟨ρc, hρc⟩ := hroots c hc
        by_cases h : ρc = ratt
        · refine ⟨rkeep, (hchar' c rkeep).mpr (Or.inl ⟨?_, rfl⟩)⟩
          rw [← h]
          exact hρc
        · exact ⟨ρc, (hchar' c ρc).mpr (Or.inr ⟨hρc, h⟩)⟩
      · intro a b haC hbC
        obtain ⟨ρa, hρa⟩ := hroots a haC
        obtain ⟨ρb, hρb⟩ := hroots b hbC
        have hfa : Root p3 a (if ρa = ratt then rkeep else ρa) := by
          by_cases h : ρa = ratt
          · rw [if_pos h]
            refine (hchar' a rkeep).mpr (Or.inl ⟨?_, rfl⟩)
            rw [← h]
            exact hρa
          · rw [if_neg h]
            exact (hchar' a ρa).mpr (Or.inr ⟨hρa, h⟩)
        have hfb : Root p3 b (if ρb = ratt then rkeep else ρb) := by
          by_cases h : ρb = ratt
          · rw [if_pos h]
            refine (hchar' b rkeep).mpr (Or.inl ⟨?_, rfl⟩)
            rw [← h]
            exact hρb
          · rw [if_neg h]
            exact (hchar' b ρb).mpr (Or.inr ⟨hρb, h⟩)
        have hLHS : (∃ ρ, Root p3 a ρ ∧ Root p3 b ρ) ↔
            ((if ρa = ratt then rkeep else ρa) = (if ρb = ratt then rkeep else ρb)) := by
          constructor
          · rintro ⟨ρ, h1, h2⟩
            have e1 := root_unique h1 hfa
            have e2 := root_unique h2 hfb
            omega
          · intro h
            refine ⟨(if ρa = ratt then rkeep else ρa), hfa, ?_⟩
            rw [h]
            exact hfb
        rw [hLHS, connBy_append_single]
        have hab := hconv a b ρa ρb haC hbC hρa hρb
        have hae1 := hconv a e.1 ρa r1 haC he1C hρa ⟨n1, hn1⟩
        have he2b := hconv e.2.1 b r2 ρb he2C hbC ⟨n2', hn2'⟩ hρb
        have hae2 := hconv a e.2.1 ρa r2 haC he2C hρa ⟨n2', hn2'⟩
        have he1b := hconv e.1 b r1 ρb he1C hbC ⟨n1, hn1⟩ hρb
        rw [hab, hae1, he2b, hae2, he1b]
        rcases hpair with ⟨hp1, hp2⟩ | ⟨hp1, hp2⟩ <;> subst hp1 <;> subst hp2 <;>
          split_ifs <;> omega

theorem dget?_foldl_dset_self (l : List Nat) :
    ∀ (init : List (Nat × Nat)) (x : Nat),
      dget? (l.foldl (fun d c => dset d c c) init) x =
        if x ∈ l then some x else dget? init x := by
  induction l with
  | nil =>
    intro init x
    simp
  | cons c rest ih =>
    intro init x
    rw [List.foldl_cons, ih]
    by_cases hr : x ∈ rest
    · rw [if_pos hr, if_pos (List.mem_cons_of_mem _ hr)]
    · rw [if_neg hr, dget?_dset]
      by_cases hcx : c = x
      · rw [if_pos hcx, if_pos (by rw [← hcx]; exact List.mem_cons_self _ _), hcx]
      · rw [if_neg hcx, if_neg (by
          intro hmem
          rcases List.mem_cons.mp hmem with h1 | h1
          · exact hcx h1.symm
          · exact hr h1)]

theorem dset_length_absent {α : Type} :
    ∀ (d : List (Nat × α)) (k : Nat) (v : α), dget? d k = none →
      (dset d k v).length = d.length + 1 := by
  intro d
  induction d with
  | nil =>
    intro k v _
    rfl
  | cons e rest ih =>
    intro k v h
    show (if e.1 = k then (e.1, v) :: rest else e :: dset rest k v).length = _
    unfold dget? at h
    by_cases hek : e.1 = k
    · rw [if_pos hek] at h
      cases h
    · rw [if_neg hek] at h
      rw [if_neg hek]
      simp only [List.length_cons]
      rw [ih k v h]

theorem foldl_dset_self_length (l : List Nat) :
    l.Nodup → ∀ (init : List (Nat × Nat)), (∀ c ∈ l, dget? init c = none) →
      (l.foldl (fun d c => dset d c c) init).length = init.length + l.length := by
  induction l with
  | nil =>
    intro _ init _
    simp
  | cons c rest ih =>
    intro hnd init habs
    rw [List.foldl_cons]
    have hcnone : dget? init c = none := habs c (List.mem_cons_self _ _)
    have habs2 : ∀ c2 ∈ rest, dget? (dset init c c) c2 = none := by
      intro c2 hc2
      rw [dget?_dset]
      have hne : c ≠ c2 := fun h => (List.nodup_cons.mp hnd).1 (h ▸ hc2)
      rw [if_neg hne]
      exact habs c2 (List.mem_cons_of_mem _ hc2)
    rw [ih (List.nodup_cons.mp hnd).2 _ habs2, dset_length_absent init c c hcnone]
    simp only [List.length_cons]
    omega

theorem mergeSort_weight_sorted (l : List (Nat × Nat × Int)) :
    List.Pairwise (fun e1 e2 : Nat × Nat × Int => e1.2.2 ≤ e2.2.2)
      (l.mergeSort (fun a b => decide (a.2.2 ≤ b.2.2))) := by
  refine List.Pairwise.imp ?_ (List.sorted_mergeSort ?_ ?_ l)
  · intro a b h
    rw [decide_eq_true_eq] at h
    exact h
  · intro a b c hab hbc
    rw [decide_eq_true_eq] at hab hbc ⊢
    omega
  · intro a b
    rcases le_total a.2.2 b.2.2 with h | h
    · rw [Bool.or_eq_true]
      exact Or.inl (decide_eq_true h)
    · rw [Bool.or_eq_true]
      exact Or.inr (decide_eq_true h)

theorem insertSorted_perm (e : Nat × Nat × Int) :
    ∀ (l : List (Nat × Nat × Int)), (insertSorted e l).Perm (e :: l) := by
  intro l
  induction l with
  | nil => exact List.Perm.refl _
  | cons f rest ih =>
    show (if f.2.2 < e.2.2 then f :: insertSorted e rest else e :: f :: rest).Perm _
    by_cases h : f.2.2 < e.2.2
    · rw [if_pos h]
      exact (ih.cons f).trans (List.Perm.swap e f rest)
    · rw [if_neg h]

theorem sortByWeight_perm (l : List (Nat × Nat × Int)) :
    (sortByWeight l).Perm l := by
  induction l with
  | nil => exact List.Perm.refl _
  | cons e rest ih =>
    show (insertSorted e (sortByWeight rest)).Perm _
    exact (insertSorted_perm e (sortByWeight rest)).trans (ih.cons e)

theorem insertSorted_sorted (e : Nat × Nat × Int) :
    ∀ (l : List (Nat × Nat × Int)),
      List.Pairwise (fun e1 e2 : Nat × Nat × Int => e1.2.2 ≤ e2.2.2) l →
      List.Pairwise (fun e1 e2 : Nat × Nat × Int => e1.2.2 ≤ e2.2.2)
        (insertSorted e l) := by
  intro l
  induction l with
  | nil =>
    intro _
    simp [insertSorted]
  | cons f rest ih =>
    intro h
    show List.Pairwise _ (if f.2.2 < e.2.2 then f :: insertSorted e rest
      else e :: f :: rest)
    obtain ⟨hf, hrest⟩ := List.pairwise_cons.mp h
    by_cases hcmp : f.2.2 < e.2.2
    · rw [if_pos hcmp]
      refine List.pairwise_cons.mpr ⟨?_, ih hrest⟩
      intro x hx
      have hx2 : x ∈ e :: rest := (insertSorted_perm e rest).mem_iff.mp hx
      rcases List.mem_cons.mp hx2 with h1 | h1
      · rw [h1]
        omega
      · exact hf x h1
    · rw [if_neg hcmp]
      refine List.pairwise_cons.mpr ⟨?_, h⟩
      intro x hx
      rcases List.mem_cons.mp hx with h1 | h1
      · rw [h1]
        omega
      · have := hf x h1
        omega

theorem sortByWeight_sorted (l : List (Nat × Nat × Int)) :
    List.Pairwise (fun e1 e2 : Nat × Nat × Int => e1.2.2 ≤ e2.2.2)
      (sortByWeight l) := by
  induction l with
  | nil => exact List.Pairwise.nil
  | cons e rest ih =>
    show List.Pairwise _ (insertSorted e (sortByWeight rest))
    exact insertSorted_sorted e (sortByWeight rest) ih

/-- `kruskal_mst` never hits its fuel or a missing key on a closed,
duplicate-free graph, and computes exactly the greedy fold over the
weight-sorted edge list, together with its weight sum. -/
theorem kruskal_mst_eq (g : EmergencyGraph) (hc : ClosedGraph g)
    (hnd : (get_all_cities g).Nodup) :
    kruskal_mst g = some
      (specFold (sortByWeight (get_all_edges g)) [],
       ((specFold (sortByWeight (get_all_edges g)) []).map
         (fun e => e.2.2)).sum) := by
  have hp0 : ∀ x, dget? ((get_all_cities g).foldl (fun d c => dset d c c) []) x =
      if x ∈ get_all_cities g then some x else none :=
    fun x => dget?_foldl_dset_self (get_all_cities g) [] x
  have hInv : UFInv (get_all_cities g)
      ((get_all_cities g).foldl (fun d c => dset d c c) []) [] := by
    refine ⟨?_, ?_, ?_, ?_⟩
    · rw [foldl_dset_self_length (get_all_cities g) hnd [] (fun c _ => rfl)]
      simp
    · intro x
      rw [hp0 x]
      by_cases hx : x ∈ get_all_cities g
      · rw [if_pos hx]
        simp [hx]
      · rw [if_neg hx]
        simp [hx]
    · intro c hcC
      refine ⟨c, 0, ReachesRoot.root c ?_⟩
      rw [hp0 c, if_pos hcC]
    · have hforce : ∀ a ρ : Nat, Root ((get_all_cities g).foldl
          (fun d c => dset d c c) []) a ρ → ρ = a := by
        rintro a ρ ⟨n, hrr⟩
        cases hrr with
        | root _ _ => rfl
        | step _ p _ m hp hne _ =>
          rw [hp0 a] at hp
          by_cases ha : a ∈ get_all_cities g
          · rw [if_pos ha] at hp
            exact absurd (Option.some.inj hp).symm hne
          · rw [if_neg ha] at hp
            cases hp
      intro a b haC hbC
      constructor
      · rintro ⟨ρ, h1, h2⟩
        have e1 := hforce a ρ h1
        have e2 := hforce b ρ h2
        rw [← e1, e2]
        exact ConnBy.refl b
      · intro hconn
        have hab : a = b := connBy_nil hconn
        subst hab
        exact ⟨a, ⟨0, ReachesRoot.root a (by rw [hp0 a, if_pos haC])⟩,
          ⟨0, ReachesRoot.root a (by rw [hp0 a, if_pos haC])⟩⟩
  have hrank : ∀ x ∈ get_all_cities g,
      (dget? ((get_all_cities g).foldl (fun d c => dset d c (0 : Nat)) []) x).isSome := by
    intro x hx
    rw [dget?_foldl_dset_const, if_pos hx]
    rfl
  have hend : ∀ e ∈ sortByWeight (get_all_edges g),
      e.1 ∈ get_all_cities g ∧ e.2.1 ∈ get_all_cities g := by
    intro e he
    exact get_all_edges_endpoints hc e ((sortByWeight_perm (get_all_edges g)).mem_iff.mp he)
  have hrun := kruskalLoop_spec (get_all_cities g) ((get_all_cities g).length + 1)
    (by omega) (sortByWeight (get_all_edges g))
    ((get_all_cities g).foldl (fun d c => dset d c c) [])
    ((get_all_cities g).foldl (fun d c => dset d c (0 : Nat)) [])
    [] 0 hInv hrank hend
  show kruskalLoop ((get_all_cities g).length + 1)
    (sortByWeight (get_all_edges g))
    ((get_all_cities g).foldl (fun d c => dset d c c) [])
    ((get_all_cities g).foldl (fun d c => dset d c (0 : Nat)) []) [] 0 = _
  rw [hrun]
  refine congrArg some ?_
  simp only [Prod.mk.injEq]
  refine ⟨trivial, ?_⟩
  simp

/-- The number of connected components of the stored graph: the count of
cities that are the smallest member of their class under the undirected
edge relation reported by `get_all_edges`. -/
def numComponents (g : EmergencyGraph) : Nat :=
  ncc (get_all_cities g) (get_all_edges g)

/-- A spanning forest of the stored graph: a selection of reported edges
that is acyclic (every edge is a bridge) and connects exactly what the
stored edge set connects. -/
def SpanningForest (g : EmergencyGraph) (S : List (Nat × Nat × Int)) : Prop :=
  (∀ e ∈ S, e ∈ get_all_edges g) ∧ Forest S ∧
  (∀ a b : Nat, a ∈ get_all_cities g → b ∈ get_all_cities g →
    (ConnBy S a b ↔ ConnBy (get_all_edges g) a b))

/-- C5: on every closed, duplicate-free graph state (the invariant of all
graphs reachable through the public mutation operations), `kruskal_mst`
returns an edge list that is a spanning forest of the stored graph with
exactly (number of cities − number of connected components) edges, paired
with its total weight, and that weight is minimal among all spanning
forests of the stored graph. -/
theorem c5_kruskal_mst_correct (g : EmergencyGraph) (hc : ClosedGraph g)
    (hnd : (get_all_cities g).Nodup) :
    ∃ mst total, kruskal_mst g = some (mst, total) ∧
      SpanningForest g mst ∧
      mst.length + numComponents g = (get_all_cities g).length ∧
      total = (mst.map (fun e => e.2.2)).sum ∧
      (∀ S, SpanningForest g S → total ≤ (S.map (fun e => e.2.2)).sum) := by
  have hperm : (sortByWeight (get_all_edges g)).Perm
      (get_all_edges g) := sortByWeight_perm _
  have hend : ∀ e ∈ sortByWeight (get_all_edges g),
      e.1 ∈ get_all_cities g ∧ e.2.1 ∈ get_all_cities g :=
    fun e he => get_all_edges_endpoints hc e (hperm.mem_iff.mp he)
  have hTsub : ∀ e ∈ specFold (sortByWeight (get_all_edges g)) [], e ∈ get_all_edges g := by
    intro e he
    rcases specFold_mem _ [] e he with h | h
    · exact absurd h (List.not_mem_nil e)
    · exact hperm.mem_iff.mp h
  have hTf : Forest (specFold (sortByWeight (get_all_edges g)) []) := specFold_forest _ [] forest_nil
  have hTspan : ∀ x y : Nat, ConnBy (get_all_edges g) x y →
      ConnBy (specFold (sortByWeight (get_all_edges g)) []) x y := by
    intro x y hxy
    have hxy2 : ConnBy (sortByWeight (get_all_edges g)) x y := (connBy_perm hperm).mpr hxy
    clear hxy
    induction hxy2 with
    | refl => exact ConnBy.refl _
    | @fwd y' z' w' hxy2 he ih => exact connBy_trans ih (specFold_conn _ [] _ he)
    | @bwd y' z' w' hxy2 he ih =>
      exact connBy_trans ih (connBy_symm (specFold_conn _ [] _ he))
  have hTiff : ∀ a b : Nat, a ∈ get_all_cities g → b ∈ get_all_cities g →
      (ConnBy (specFold (sortByWeight (get_all_edges g)) []) a b ↔ ConnBy (get_all_edges g) a b) := by
    intro a b _ _
    exact ⟨connBy_mono hTsub, hTspan a b⟩
  refine ⟨_, _, kruskal_mst_eq g hc hnd, ⟨hTsub, hTf, hTiff⟩, ?_, rfl, ?_⟩
  · have hid := forest_ncc (get_all_cities g) hnd _ hTf
      (fun e he => get_all_edges_endpoints hc e (hTsub e he))
    have hncc : ncc (get_all_cities g) (specFold (sortByWeight (get_all_edges g)) []) = numComponents g :=
      ncc_congr hTiff
    omega
  · rintro S ⟨hSsub, hSf, hSiff⟩
    refine specFold_minimal (get_all_cities g) hnd _ hend
      (sortByWeight_sorted (get_all_edges g)) S
      (fun e he => hperm.mem_iff.mpr (hSsub e he)) hSf ?_
    intro a b haC hbC hconn
    exact (hSiff a b haC hbC).mpr ((connBy_perm hperm).mp hconn)

def mstWitnessGraph : EmergencyGraph :=
  add_road (add_road (add_road (add_road (add_road egEmpty 0 1 4) 0 2 2) 1 2 1) 1 3 5) 2 3 8

theorem c5_kruskal_mst_correct_witness :
    ClosedGraph mstWitnessGraph ∧ (get_all_cities mstWitnessGraph).Nodup ∧
    kruskal_mst mstWitnessGraph = some ([(1, 2, 1), (0, 2, 2), (1, 3, 5)], 8) ∧
    (∃ mst total, kruskal_mst mstWitnessGraph = some (mst, total) ∧
      SpanningForest mstWitnessGraph mst ∧
      mst.length + numComponents mstWitnessGraph =
        (get_all_cities mstWitnessGraph).length ∧
      total = (mst.map (fun e => e.2.2)).sum ∧
      (∀ S, SpanningForest mstWitnessGraph S →
        total ≤ (S.map (fun e => e.2.2)).sum)) :=
  ⟨by decide, by decide, by decide,
   c5_kruskal_mst_correct mstWitnessGraph (by decide) (by decide)⟩
